import Mathlib

/-!
# gogn: the tokenizer (`lexer.go`) and the cell codec (`memory.go`)

Shallow embedding of the Go sources.

* A Go `string` is a sequence of bytes; it is modelled as `List Nat`, one
  number per byte.  `bytes "abc"` writes an ASCII literal as such a list.
* `uint` counters (pointer, line, column) are modelled as `Nat`: every
  sub-lexer adds at most `len(source) + 1` to a counter, and `lex` starts
  from the zero cursor, so no counter wraps around.
* A Go function that can hit a run-time panic (index or slice out of range)
  returns an `Option`; `none` is the panic.
* A `for` loop over `cur.pointer` is a recursive function over the unread
  suffix `source[cur.pointer:]`, carrying the pointer with it.
-/

namespace Gogn

/-! ## The tokenizer (`lexer.go`) -/

/-- ASCII literal as a byte string. -/
def bytes (s : String) : List Nat := s.toList.map Char.toNat

/-- Go `source[a:b]` for `a ≤ b ≤ len(source)`. -/
def slice (source : List Nat) (a b : Nat) : List Nat := (source.drop a).take (b - a)

/-- The line and the column of a cursor.  In the Go text both are `uint`; they
are natural numbers here, which is the same as long as a counter stays below
`2^64`, as every counter that starts from the zero cursor of `lex` does. -/
structure location where
  line : Nat
  col : Nat
deriving DecidableEq, Repr

def validKeywords : List (List Nat) :=
  [bytes "select", bytes "from", bytes "where", bytes "as", bytes "table", bytes "create",
   bytes "insert", bytes "into", bytes "values", bytes "int", bytes "text"]

def validSymbols : List (List Nat) :=
  [bytes ";", bytes "*", bytes ",", bytes "(", bytes ")", bytes "||", bytes "="]

inductive tokenKind where
  | keywordKind
  | symbolKind
  | identifierKind
  | stringKind
  | numericKind
deriving DecidableEq, Repr

structure token where
  value : List Nat
  kind : tokenKind
  loc : location
deriving DecidableEq, Repr

structure cursor where
  pointer : Nat
  loc : location
deriving DecidableEq, Repr

/-- The triple `(*token, cursor, bool)` returned by every sub-lexer. -/
structure lexResult where
  tok : Option token
  cur : cursor
  ok : Bool
deriving DecidableEq, Repr

/-- The return `nil, ic, false`. -/
def noMatch (ic : cursor) : lexResult := ⟨none, ic, false⟩

/-- The fold of one byte used by `longestMatch`:
`strings.ToLower(string(source[cur.pointer]))[0]`.  `string(b)` is the UTF-8
text of the code point `b`: one byte below 128, and two bytes starting with
0xC2 (code points 0x80..0xBF) or 0xC3 (0xC0..0xFF) otherwise; lower-casing a
Latin-1 letter stays inside its block. -/
def lowerFirstByte (c : Nat) : Nat :=
  if 65 ≤ c ∧ c ≤ 90 then c + 32
  else if c < 128 then c
  else if c < 192 then 194
  else 195

/-- The inner loop of `longestMatch`, `for i, option := range options`, at
the option with index `i`; `k` is `cur.pointer - ic.pointer`.  The result is
the skip list and the best match after the pass, `none` when the slice
`option[:k]` is out of range. -/
def matchOptions (value : List Nat) (k : Nat) :
    List (List Nat) → Nat → List Nat → List Nat → Option (List Nat × List Nat)
  | [], _, skipList, m => some (skipList, m)
  | option :: rest, i, skipList, m =>
    if i ∈ skipList then matchOptions value k rest (i + 1) skipList m
    else if option = value then
      matchOptions value k rest (i + 1) (skipList ++ [i])
        (if option.length > m.length then option else m)
    else if option.length < k then none
    else
      let sharesPrefix : Bool := value = option.take k
      let tooLong : Bool := value.length > option.length
      if tooLong || !sharesPrefix then matchOptions value k rest (i + 1) (skipList ++ [i]) m
      else matchOptions value k rest (i + 1) skipList m

/-- The outer loop of `longestMatch`, over the unread suffix of the source. -/
def longestMatchLoop (ic : cursor) (options : List (List Nat)) :
    List Nat → Nat → List Nat → List Nat → List Nat → Option (List Nat)
  | [], _, _, _, m => some m
  | c :: rest, pointer, value, skipList, m =>
    let value := value ++ [lowerFirstByte c]
    let pointer := pointer + 1
    match matchOptions value (pointer - ic.pointer) options 0 skipList m with
    | none => none
    | some (skipList, m) =>
      if skipList.length = options.length then some m
      else longestMatchLoop ic options rest pointer value skipList m

def longestMatch (source : List Nat) (ic : cursor) (options : List (List Nat)) :
    Option (List Nat) :=
  longestMatchLoop ic options (source.drop ic.pointer) ic.pointer [] [] []

def lexKeyword (source : List Nat) (ic : cursor) : Option lexResult :=
  match longestMatch source ic validKeywords with
  | none => none
  | some m =>
    if m = [] then some (noMatch ic)
    else some ⟨some ⟨m, tokenKind.keywordKind, ic.loc⟩,
      ⟨ic.pointer + m.length, ⟨ic.loc.line, ic.loc.col + m.length⟩⟩, true⟩

/-- The loop of `lexNumeric` over the unread suffix; `pointer` and `col` are
`cur.pointer` and `cur.loc.col`.  The result is `none` for a `return nil, ic,
false` inside the loop, and the pointer and column at which the loop was left
(by `break` or at the end of the source) otherwise. -/
def lexNumericLoop (ic : cursor) : List Nat → Nat → Nat → Bool → Bool → Option (Nat × Nat)
  | [], pointer, col, _, _ => some (pointer, col)
  | c :: rest, pointer, col, periodFound, expMarkerFound =>
    let col := col + 1
    let isDigit : Bool := 48 ≤ c ∧ c ≤ 57
    let isPeriod : Bool := c = 46
    let isExpMarker : Bool := c = 101
    if pointer = ic.pointer then
      if !isDigit && !isPeriod then none
      else lexNumericLoop ic rest (pointer + 1) col isPeriod expMarkerFound
    else if isPeriod then
      if periodFound then none
      else lexNumericLoop ic rest (pointer + 1) col true expMarkerFound
    else if isExpMarker then
      if expMarkerFound then none
      else
        match rest with
        | [] => none
        | cNext :: rest2 =>
          if cNext = 45 ∨ cNext = 43 then lexNumericLoop ic rest2 (pointer + 1 + 1) (col + 1) true true
          else lexNumericLoop ic (cNext :: rest2) (pointer + 1) col true true
    else if !isDigit then some (pointer, col)
    else lexNumericLoop ic rest (pointer + 1) col periodFound expMarkerFound

def lexNumeric (source : List Nat) (ic : cursor) : Option lexResult :=
  match lexNumericLoop ic (source.drop ic.pointer) ic.pointer ic.loc.col false false with
  | none => some (noMatch ic)
  | some (pointer, col) =>
    if pointer = ic.pointer then some (noMatch ic)
    else some ⟨some ⟨slice source ic.pointer pointer, tokenKind.numericKind, ic.loc⟩,
      ⟨pointer, ⟨ic.loc.line, col⟩⟩, true⟩

/-- The loop of `lexCharacterDelimited` over the unread suffix.  The result is
the value, pointer and column at the closing delimiter's `return`, and `none`
when the loop runs off the end of the source. -/
def lexCharacterDelimitedLoop (delimiter : Nat) :
    List Nat → Nat → Nat → List Nat → Option (List Nat × Nat × Nat)
  | [], _, _, _ => none
  | c :: rest, pointer, col, value =>
    if c = delimiter then
      match rest with
      | [] => some (value, pointer + 1, col + 1)
      | c2 :: rest2 =>
        if c2 ≠ delimiter then some (value, pointer + 1, col + 1)
        else
          lexCharacterDelimitedLoop delimiter rest2 (pointer + 1 + 1) (col + 1 + 1)
            ((value ++ [delimiter]) ++ [c])
    else lexCharacterDelimitedLoop delimiter rest (pointer + 1) (col + 1) (value ++ [c])

def lexCharacterDelimited (source : List Nat) (ic : cursor) (delimiter : Nat) :
    Option lexResult :=
  if source.length < ic.pointer then none
  else
    match source.drop ic.pointer with
    | [] => some (noMatch ic)
    | c :: rest =>
      if c ≠ delimiter then some (noMatch ic)
      else
        match lexCharacterDelimitedLoop delimiter rest (ic.pointer + 1) (ic.loc.col + 1) [] with
        | none => some (noMatch ic)
        | some (value, pointer, col) =>
          some ⟨some ⟨value, tokenKind.stringKind, ic.loc⟩, ⟨pointer, ⟨ic.loc.line, col⟩⟩, true⟩

def lexString (source : List Nat) (ic : cursor) : Option lexResult :=
  lexCharacterDelimited source ic 39

def lexSymbol (source : List Nat) (ic : cursor) : Option lexResult :=
  match source.get? ic.pointer with
  | none => none
  | some c =>
    let cur : cursor := ⟨ic.pointer + 1, ⟨ic.loc.line, ic.loc.col + 1⟩⟩
    if c = 10 then some ⟨none, ⟨cur.pointer, ⟨cur.loc.line + 1, 0⟩⟩, true⟩
    else if c = 9 ∨ c = 32 then some ⟨none, cur, true⟩
    else
      match longestMatch source ic validSymbols with
      | none => none
      | some m =>
        if m = [] then some (noMatch ic)
        else some ⟨some ⟨m, tokenKind.symbolKind, ic.loc⟩,
          ⟨ic.pointer + m.length, ⟨cur.loc.line, ic.loc.col + m.length⟩⟩, true⟩

def isAlphabetical (c : Nat) : Bool := (65 ≤ c ∧ c ≤ 90) ∨ (97 ≤ c ∧ c ≤ 122)

def isNumeric (c : Nat) : Bool := 48 ≤ c ∧ c ≤ 57

/-- ASCII lower-casing of one byte. -/
def asciiLower (c : Nat) : Nat := if 65 ≤ c ∧ c ≤ 90 then c + 32 else c

/-- Go `strings.ToLower` on a string whose bytes are all ASCII, which is what
`lexIdentifier` passes to it: every byte of its `value` passed
`isAlphabetical`, `isNumeric`, or is one of the bytes 36 and 95. -/
def stringsToLower (s : List Nat) : List Nat := s.map asciiLower

/-- The loop of the unquoted branch of `lexIdentifier` over the unread
suffix; the result is the pointer, the column and the value when the loop is
left. -/
def lexIdentifierLoop : List Nat → Nat → Nat → List Nat → Nat × Nat × List Nat
  | [], pointer, col, value => (pointer, col, value)
  | c :: rest, pointer, col, value =>
    if isAlphabetical c || isNumeric c || c = 36 || c = 95 then
      lexIdentifierLoop rest (pointer + 1) (col + 1) (value ++ [c])
    else (pointer, col, value)

def lexIdentifier (source : List Nat) (ic : cursor) : Option lexResult :=
  match lexCharacterDelimited source ic 34 with
  | none => none
  | some r =>
    if r.ok then some ⟨r.tok, r.cur, true⟩
    else
      match source.get? ic.pointer with
      | none => none
      | some c =>
        if !isAlphabetical c then some (noMatch ic)
        else
          match lexIdentifierLoop (source.drop (ic.pointer + 1)) (ic.pointer + 1)
              (ic.loc.col + 1) [c] with
          | (pointer, col, value) =>
            if value.length = 0 then some (noMatch ic)
            else some ⟨some ⟨stringsToLower value, tokenKind.identifierKind, ic.loc⟩,
              ⟨pointer, ⟨ic.loc.line, col⟩⟩, true⟩

/-- The loop of `lexForwardFromCursor` over the list of sub-lexers: the first
one whose third result is true wins. -/
def tryLexers (source : List Nat) (currentPosition : cursor) :
    List (List Nat → cursor → Option lexResult) → Option lexResult
  | [] => some (noMatch currentPosition)
  | l :: rest =>
    match l source currentPosition with
    | none => none
    | some r => if r.ok then some ⟨r.tok, r.cur, true⟩ else tryLexers source currentPosition rest

def lexForwardFromCursor (source : List Nat) (currentPosition : cursor) : Option lexResult :=
  tryLexers source currentPosition [lexKeyword, lexSymbol, lexString, lexNumeric, lexIdentifier]

/-- The error of `lex`, `"Unable to lex tokens%s at %d:%d"`: the value of the
last token when there is one (the hint), and the line and column. -/
structure lexError where
  hint : Option (List Nat)
  line : Nat
  col : Nat
deriving DecidableEq, Repr

/-- The loop of `lex`; one unit of `fuel` per iteration.  `none` is a panic
of a sub-lexer, or the fuel running out. -/
def lexLoop (source : List Nat) : Nat → cursor → List token → Option (Except lexError (List token))
  | 0, cur, tokens =>
    if cur.pointer < source.length then none else some (Except.ok tokens)
  | fuel + 1, cur, tokens =>
    if cur.pointer < source.length then
      match lexForwardFromCursor source cur with
      | none => none
      | some r =>
        if r.ok then
          match r.tok with
          | some t => lexLoop source fuel r.cur (tokens ++ [t])
          | none => lexLoop source fuel r.cur tokens
        else some (Except.error ⟨(tokens.getLast?).map token.value, cur.loc.line, cur.loc.col⟩)
    else some (Except.ok tokens)

/-- The tokenizer.  Every iteration of the loop advances the pointer, so
`len(source)` iterations are enough (`lex_returns`). -/
def lex (source : List Nat) : Option (Except lexError (List token)) :=
  lexLoop source source.length ⟨0, ⟨0, 0⟩⟩ []

deriving instance DecidableEq for Except

/-! ## The cell codec (`memory.go`) -/

/-- The cell of a row: its bytes. -/
abbrev MemoryCell := List Nat

/-- The number a run of decimal digits denotes. -/
def decimalValue (ds : List Nat) : Nat := ds.foldl (fun n d => n * 10 + (d - 48)) 0

/-- Go `strconv.Atoi` where `int` has 64 bits: an optional sign, then one or
more decimal digits, denoting a number of the range of `int`; `none` is a
non-nil error (syntax or range). -/
def atoi (s : List Nat) : Option Int :=
  match s with
  | 45 :: ds =>
    if ds ≠ [] ∧ ds.all isNumeric = true ∧ decimalValue ds ≤ 2 ^ 63 then
      some (-(decimalValue ds : Int))
    else none
  | 43 :: ds =>
    if ds ≠ [] ∧ ds.all isNumeric = true ∧ decimalValue ds < 2 ^ 63 then
      some (decimalValue ds : Int)
    else none
  | ds =>
    if ds ≠ [] ∧ ds.all isNumeric = true ∧ decimalValue ds < 2 ^ 63 then
      some (decimalValue ds : Int)
    else none

/-- Go `int32(i)`: the low 32 bits of `i`, read as a signed number. -/
def toInt32 (i : Int) : Int := (i + 2 ^ 31) % 2 ^ 32 - 2 ^ 31

/-- The four bytes `binary.Write(buf, binary.BigEndian, v)` writes for an
`int32` `v`: two's complement, most significant byte first. -/
def bigEndianInt32 (v : Int) : MemoryCell :=
  let u := (v % 2 ^ 32).toNat
  [u / 2 ^ 24 % 256, u / 2 ^ 16 % 256, u / 2 ^ 8 % 256, u % 256]

/-- `tokenToCell`; `none` is its `panic(err)`.  Writing four bytes to a
`bytes.Buffer` cannot fail, so the second `panic` is never reached. -/
def tokenToCell (t : token) : Option MemoryCell :=
  if t.kind = tokenKind.numericKind then
    match atoi t.value with
    | none => none
    | some i => some (bigEndianInt32 (toInt32 i))
  else if t.kind = tokenKind.stringKind then some t.value
  else some []

/-! ## Predicates of the specification -/

/-- `v` is a proper prefix of `o`. -/
def properPrefix (v o : List Nat) : Prop := v <+: o ∧ v ≠ o

/-- What the longest-match routine is to return on `text`, the source from
the cursor on with ASCII letters folded to lower case: the longest candidate
that is a prefix of `text`, and the empty string when there is none. -/
def isLongestPrefixMatch (options : List (List Nat)) (text m : List Nat) : Prop :=
  (m = [] ∧ ∀ c ∈ options, ¬ c <+: text) ∨
  (m ∈ options ∧ m <+: text ∧ ∀ c ∈ options, c <+: text → c.length ≤ m.length)

/-- The part `['.' D2]` of a numeric literal. -/
def fracPart : Option (List Nat) → List Nat
  | none => []
  | some D2 => 46 :: D2

/-- The part `['e' sign D3]` of a numeric literal. -/
def expPart : Option (List Nat × List Nat) → List Nat
  | none => []
  | some (sign, D3) => 101 :: (sign ++ D3)

/-- The text `D1 ['.' D2] ['e' sign D3]` of the numeric grammar; `frac` is
`D2` when the decimal point is there, `exp` is the sign (empty when absent)
and `D3` when the exponent is there. -/
def numericText (D1 : List Nat) (frac : Option (List Nat)) (exp : Option (List Nat × List Nat)) :
    List Nat :=
  D1 ++ fracPart frac ++ expPart exp

/-- A literal of the numeric grammar: `D1`, `D2`, `D3` are runs of digits,
the sign is absent, `+` or `-`, `D3` is not empty, and the text begins with a
digit or with the decimal point. -/
def isNumericLiteral (D1 : List Nat) (frac : Option (List Nat))
    (exp : Option (List Nat × List Nat)) : Bool :=
  D1.all isNumeric &&
  (match frac with
    | none => true
    | some D2 => D2.all isNumeric) &&
  (match exp with
    | none => true
    | some (sign, D3) =>
      (sign = [] || sign = [43] || sign = [45]) && D3 ≠ [] && D3.all isNumeric) &&
  (D1 ≠ [] || frac.isSome)

/-- The characters `text` is made of are inside the numeric grammar: digits,
decimal points, exponent markers, and a sign directly after an exponent
marker. -/
def inNumericGrammar : List Nat → Bool
  | [] => true
  | [c] => isNumeric c || c = 46 || c = 101
  | c :: c2 :: rest =>
    if isNumeric c || c = 46 then inNumericGrammar (c2 :: rest)
    else if c = 101 then
      if c2 = 45 || c2 = 43 then inNumericGrammar rest else inNumericGrammar (c2 :: rest)
    else false

/-- Every delimiter `q` inside `body` is one half of an adjacent pair: read
from the left, `body` is made of bytes other than `q` and of doubled `q`. -/
def delimitersPaired (q : Nat) : List Nat → Bool
  | [] => true
  | [c] => c ≠ q
  | c :: c2 :: rest =>
    if c = q then c2 = q && delimitersPaired q rest else delimitersPaired q (c2 :: rest)

/-- The result `r` of reading, at the cursor `ic`, a literal between two
delimiters `q`: the unread text is `q body q tail` with every `q` of `body`
one half of an adjacent pair and `tail` not starting with `q`, the token is of
kind string with value `body`, doubled delimiters kept as two characters, and
the pointer is moved past the closing delimiter. -/
def readsLiteralVerbatim (q : Nat) (source : List Nat) (ic : cursor) (r : lexResult) : Prop :=
  ∃ body tail, source.drop ic.pointer = q :: (body ++ q :: tail) ∧
    delimitersPaired q body = true ∧ tail.head? ≠ some q ∧
    r.tok = some ⟨body, tokenKind.stringKind, ic.loc⟩ ∧
    r.cur.pointer = ic.pointer + body.length + 2

/-- The characters of an unquoted identifier after its first: `[A-Za-z0-9$_]`. -/
def isIdentifierChar (c : Nat) : Bool := isAlphabetical c || isNumeric c || c = 36 || c = 95

/-- A successful result that moved the cursor by `n > 0` bytes on the same
line, with the column moved by `n` too, and whose token, if any, is located
at the starting cursor. -/
def advancesBy (ic : cursor) (r : lexResult) (n : Nat) : Prop :=
  0 < n ∧ r.cur = ⟨ic.pointer + n, ⟨ic.loc.line, ic.loc.col + n⟩⟩ ∧
    ∀ t, r.tok = some t → t.loc = ic.loc

/-- The token is the one the dispatcher returns when it is started at the
byte offset equal to the token's recorded column, on line 0. -/
def lexedAtColumn (source : List Nat) (t : token) : Prop :=
  t.loc.line = 0 ∧
    ∃ r, lexForwardFromCursor source ⟨t.loc.col, ⟨0, t.loc.col⟩⟩ = some r ∧
      r.ok = true ∧ r.tok = some t

/-- A character the numeric sub-lexer can consume after the first. -/
def isNumericLiteralChar (b : Nat) : Bool :=
  isNumeric b || b = 46 || b = 101 || b = 43 || b = 45

/-- The shape of every value the numeric sub-lexer returns: a digit or a
decimal point, then digits, decimal points, exponent markers and signs. -/
def numericShaped (v : List Nat) : Prop :=
  ∃ c rest, v = c :: rest ∧ (isNumeric c = true ∨ c = 46) ∧
    ∀ b ∈ rest, isNumericLiteralChar b = true

/-! ## The table store and the execution engine (`backend.go`, `memory.go`) -/

/-- Reading of a cell by `AsInt`: `binary.Read` takes the first four bytes,
most significant first, as an `int32`; `none` is the `panic(err)` on a cell of
fewer than four bytes. -/
def AsInt (mc : MemoryCell) : Option Int :=
  match mc with
  | b0 :: b1 :: b2 :: b3 :: _ => some (toInt32 (b0 * 2 ^ 24 + b1 * 2 ^ 16 + b2 * 2 ^ 8 + b3 : Nat))
  | _ => none

def AsText (mc : MemoryCell) : List Nat := mc

inductive ColumnType where
  | TextType
  | IntType
deriving DecidableEq, Repr

/-- The error values of `backend.go`. -/
inductive backendError where
  | ErrTableDoesNotExist
  | ErrColumnDoesNotExist
  | ErrInvalidSelectItem
  | ErrInvalidDatatype
  | ErrMissingValues
deriving DecidableEq, Repr

structure Results where
  Columns : List (ColumnType × List Nat)
  Rows : List (List MemoryCell)
deriving DecidableEq, Repr

/-- Modelled from the spec: the kind of an expression of the parser's syntax
tree, whose declaration is not among the sources; `memory.go` only asks
whether it is `literalKind`. -/
inductive expressionKind where
  | literalKind
  | otherKind
deriving DecidableEq, Repr

/-- Modelled from the spec: an expression of the parser's syntax tree, with
the two fields `memory.go` reads; a literal expression is directly a token. -/
structure expression where
  literal : token
  kind : expressionKind
deriving DecidableEq, Repr

/-- Modelled from the spec: a column of a create-table statement, a name and
a declared type token. -/
structure columnDefinition where
  name : token
  datatype : token
deriving DecidableEq, Repr

/-- Modelled from the spec: the create-table statement, with a column list
that may be absent (`cols == nil`). -/
structure CreateTableStatement where
  name : token
  cols : Option (List columnDefinition)
deriving DecidableEq, Repr

/-- Modelled from the spec: the insert statement, with a value list that may
be absent (`Values == nil`). -/
structure InsertStatement where
  Table : token
  Values : Option (List expression)
deriving DecidableEq, Repr

/-- Modelled from the spec: the select statement. -/
structure SelectStatement where
  item : List expression
  «from» : token
deriving DecidableEq, Repr

structure table where
  columns : List (List Nat)
  columnTypes : List ColumnType
  rows : List (List MemoryCell)
deriving DecidableEq, Repr

/-- The store: the map from table names to tables.  The Go map holds
pointers; every table is reached through one key only, so a write through
the pointer is a replacement of the entry. -/
structure MemoryBackend where
  tables : List Nat → Option table

def NewMemoryBackend : MemoryBackend := ⟨fun _ => none⟩

/-- The entry of `name` replaced by `t`: `mb.tables[name] = &t`. -/
def MemoryBackend.set (mb : MemoryBackend) (name : List Nat) (t : table) : MemoryBackend :=
  ⟨fun k => if k = name then some t else mb.tables k⟩

/-- The loop of `CreateTable` over the columns: the table as the loop leaves
it, and the error it returns with. -/
def createTableLoop : List columnDefinition → table → table × Option backendError
  | [], t => (t, none)
  | col :: rest, t =>
    let t1 : table := ⟨t.columns ++ [col.name.value], t.columnTypes, t.rows⟩
    if col.datatype.value = bytes "int" then
      createTableLoop rest ⟨t1.columns, t1.columnTypes ++ [ColumnType.IntType], t1.rows⟩
    else if col.datatype.value = bytes "text" then
      createTableLoop rest ⟨t1.columns, t1.columnTypes ++ [ColumnType.TextType], t1.rows⟩
    else (t1, some backendError.ErrInvalidDatatype)

/-- `CreateTable`: the store after the call and the returned error.  The
table is put into the map before the columns are read, and the columns are
appended to that same table. -/
def CreateTable (mb : MemoryBackend) (crt : CreateTableStatement) :
    MemoryBackend × Option backendError :=
  match crt.cols with
  | none => (mb.set crt.name.value ⟨[], [], []⟩, none)
  | some cols =>
    let r := createTableLoop cols ⟨[], [], []⟩
    (mb.set crt.name.value r.1, r.2)

/-- The loop of `Insert` over the values; `none` is the panic of
`tokenToCell`. -/
def insertLoop : List expression → List MemoryCell → Option (List MemoryCell)
  | [], row => some row
  | value :: rest, row =>
    if value.kind ≠ expressionKind.literalKind then insertLoop rest row
    else
      match tokenToCell value.literal with
      | none => none
      | some cell => insertLoop rest (row ++ [cell])

/-- `Insert`: the store after the call and the returned error; `none` is a
panic. -/
def Insert (mb : MemoryBackend) (inst : InsertStatement) :
    Option (MemoryBackend × Option backendError) :=
  match mb.tables inst.Table.value with
  | none => some (mb, some backendError.ErrTableDoesNotExist)
  | some t =>
    match inst.Values with
    | none => some (mb, none)
    | some values =>
      if values.length ≠ t.columns.length then some (mb, some backendError.ErrMissingValues)
      else
        match insertLoop values [] with
        | none => none
        | some row => some (mb.set inst.Table.value ⟨t.columns, t.columnTypes, t.rows ++ [row]⟩, none)

/-- The loop `for i, tableCol := range table.columns` of `Select`: the index
of the first column equal to `name`, counted from `i`. -/
def findColumn (name : List Nat) : List (List Nat) → Nat → Option Nat
  | [], _ => none
  | tableCol :: rest, i => if tableCol = name then some i else findColumn name rest (i + 1)

/-- The loop of `Select` over the projection, for one row: the column list
and the result row when it ends, or the error it returns with; `none` is an
index out of range, `table.columnTypes[i]` or `row[i]`. -/
def selectItems (t : table) (row : List MemoryCell) (isFirstRow : Bool) :
    List expression → List (ColumnType × List Nat) → List MemoryCell →
    Option (Except backendError (List (ColumnType × List Nat) × List MemoryCell))
  | [], columns, result => some (Except.ok (columns, result))
  | exp :: rest, columns, result =>
    if exp.kind ≠ expressionKind.literalKind then selectItems t row isFirstRow rest columns result
    else if exp.literal.kind = tokenKind.identifierKind then
      match findColumn exp.literal.value t.columns 0 with
      | none => some (Except.error backendError.ErrColumnDoesNotExist)
      | some i =>
        if isFirstRow then
          match t.columnTypes.get? i with
          | none => none
          | some ty =>
            match row.get? i with
            | none => none
            | some cell =>
              selectItems t row isFirstRow rest (columns ++ [(ty, exp.literal.value)])
                (result ++ [cell])
        else
          match row.get? i with
          | none => none
          | some cell => selectItems t row isFirstRow rest columns (result ++ [cell])
    else some (Except.error backendError.ErrColumnDoesNotExist)

/-- The loop of `Select` over the rows, at the row with index `i`. -/
def selectRows (t : table) (item : List expression) :
    List (List MemoryCell) → Nat → List (ColumnType × List Nat) → List (List MemoryCell) →
    Option (Except backendError Results)
  | [], _, columns, results => some (Except.ok ⟨columns, results⟩)
  | row :: rest, i, columns, results =>
    match selectItems t row (i = 0) item columns [] with
    | none => none
    | some (Except.error e) => some (Except.error e)
    | some (Except.ok (columns2, result)) =>
      selectRows t item rest (i + 1) columns2 (results ++ [result])

/-- `Select`: the pair `(*Results, error)`; `none` is a panic.  `Select`
assigns to nothing in the store. -/
def Select (mb : MemoryBackend) (slct : SelectStatement) :
    Option (Option Results × Option backendError) :=
  match mb.tables slct.from.value with
  | none => some (none, some backendError.ErrTableDoesNotExist)
  | some t =>
    match selectRows t slct.item t.rows 0 [] [] with
    | none => none
    | some (Except.error e) => some (none, some e)
    | some (Except.ok r) => some (some r, none)

/-- The decimal digits of `n`, most significant first, without leading
zeros; `fuel` is at least `n`. -/
def decimalDigitsFuel : Nat → Nat → List Nat
  | 0, n => [48 + n]
  | fuel + 1, n =>
    if n < 10 then [48 + n] else decimalDigitsFuel fuel (n / 10) ++ [48 + n % 10]

def decimalDigits (n : Nat) : List Nat := decimalDigitsFuel n n

/-- The decimal text of an integer: a minus sign for a negative number, then
the digits of its absolute value. -/
def decimalText : Int → List Nat
  | Int.ofNat m => decimalDigits m
  | Int.negSucc m => 45 :: decimalDigits (m + 1)

/-! ## Predicates of the specification: the execution engine -/

/-- The declared type token is one of the two recognised keywords. -/
def validDatatype (col : columnDefinition) : Prop :=
  col.datatype.value = bytes "int" ∨ col.datatype.value = bytes "text"

/-- The column type a valid declared type token stands for. -/
def columnTypeOf (col : columnDefinition) : ColumnType :=
  if col.datatype.value = bytes "int" then ColumnType.IntType else ColumnType.TextType

/-- Base-10 integer text: an optional sign, then one or more decimal digits. -/
def isIntegerText (s : List Nat) : Bool :=
  match s with
  | 45 :: ds => ds ≠ [] && ds.all isNumeric
  | 43 :: ds => ds ≠ [] && ds.all isNumeric
  | ds => ds ≠ [] && ds.all isNumeric

/-- The number an integer text denotes. -/
def integerValue (s : List Nat) : Int :=
  match s with
  | 45 :: ds => -(decimalValue ds : Int)
  | 43 :: ds => (decimalValue ds : Int)
  | ds => (decimalValue ds : Int)

/-- Every row has one cell per column, and the column-type list is as long as
the column-name list. -/
def wellFormed (t : table) : Prop :=
  t.columnTypes.length = t.columns.length ∧ ∀ row ∈ t.rows, row.length = t.columns.length

/-- A projection item on which `Select` gives up: a literal that is not an
identifier, or an identifier that is not a column name of the table. -/
def badItem (t : table) (e : expression) : Prop :=
  e.kind = expressionKind.literalKind ∧
    (e.literal.kind ≠ tokenKind.identifierKind ∨ e.literal.value ∉ t.columns)

/-- The literal expressions of a list. -/
def literals (items : List expression) : List expression :=
  items.filter (fun e => e.kind = expressionKind.literalKind)

/-- The stores reached from the empty store by calls of `CreateTable` that
succeed and by calls of `Insert`, successful or failing, whose values are all
literal expressions. -/
inductive reachable : MemoryBackend → Prop where
  | empty : reachable NewMemoryBackend
  | createTable (mb : MemoryBackend) (crt : CreateTableStatement) :
      reachable mb → (CreateTable mb crt).2 = none → reachable (CreateTable mb crt).1
  | insert (mb : MemoryBackend) (inst : InsertStatement) (mb2 : MemoryBackend)
      (err : Option backendError) :
      reachable mb →
      (∀ vs, inst.Values = some vs → ∀ v ∈ vs, v.kind = expressionKind.literalKind) →
      Insert mb inst = some (mb2, err) → reachable mb2

/-- The index of the first column whose name equals `name`; the number of
columns when there is none. -/
def firstColumnIndex (t : table) (name : List Nat) : Nat :=
  t.columns.findIdx (fun c => decide (c = name))

/-! ## The loops once more: the calls, the indexed look-ahead and the passes -/

/-- The cursors at which the loop of `lex` calls the sub-lexers: the loop of
`lexLoop`, keeping the cursors and leaving out the tokens. -/
def lexCalls (source : List Nat) : Nat → cursor → List cursor
  | 0, _ => []
  | fuel + 1, cur =>
    if cur.pointer < source.length then
      cur ::
        (match lexForwardFromCursor source cur with
          | none => []
          | some r => if r.ok then lexCalls source fuel r.cur else [])
    else []

/-- The loop of `lexNumeric` once more, with the source indexed as in the Go
text: `source[cur.pointer]` and the look-ahead `source[cur.pointer+1]` are
`get?`, and the outer `none` is an index out of range (or the fuel, one unit
per iteration, running out); the inner option is the result of
`lexNumericLoop`. -/
def lexNumericIndexed (source : List Nat) (ic : cursor) :
    Nat → Nat → Nat → Bool → Bool → Option (Option (Nat × Nat))
  | 0, pointer, col, _, _ =>
    if pointer < source.length then none else some (some (pointer, col))
  | fuel + 1, pointer, col, periodFound, expMarkerFound =>
    if pointer < source.length then
      match source.get? pointer with
      | none => none
      | some c =>
        let col := col + 1
        let isDigit : Bool := 48 ≤ c ∧ c ≤ 57
        let isPeriod : Bool := c = 46
        let isExpMarker : Bool := c = 101
        if pointer = ic.pointer then
          if !isDigit && !isPeriod then some none
          else lexNumericIndexed source ic fuel (pointer + 1) col isPeriod expMarkerFound
        else if isPeriod then
          if periodFound then some none
          else lexNumericIndexed source ic fuel (pointer + 1) col true expMarkerFound
        else if isExpMarker then
          if expMarkerFound then some none
          else if pointer = source.length - 1 then some none
          else
            match source.get? (pointer + 1) with
            | none => none
            | some cNext =>
              if cNext = 45 ∨ cNext = 43 then
                lexNumericIndexed source ic fuel (pointer + 1 + 1) (col + 1) true true
              else lexNumericIndexed source ic fuel (pointer + 1) col true true
        else if !isDigit then some (some (pointer, col))
        else lexNumericIndexed source ic fuel (pointer + 1) col periodFound expMarkerFound
    else some (some (pointer, col))

/-- The invariant of the skip list of `longestMatch`: the candidates not
skipped are those the accumulated text is a proper prefix of. -/
def skipInvariant (options : List (List Nat)) (value skipList : List Nat) : Prop :=
  ∀ j o, options.get? j = some o → (j ∉ skipList ↔ properPrefix value o)

/-- The passes of the inner loop of `longestMatch`: the loop of
`longestMatchLoop`, keeping for every iteration of the outer loop the number
`cur.pointer - ic.pointer` with which the slice `option[:cur.pointer-ic.pointer]`
is taken, the accumulated `value` and the skip list the pass over the options
starts from, and leaving out the result. -/
def longestMatchPasses (ic : cursor) (options : List (List Nat)) :
    List Nat → Nat → List Nat → List Nat → List Nat → List (Nat × List Nat × List Nat)
  | [], _, _, _, _ => []
  | c :: rest, pointer, value, skipList, m =>
    let value := value ++ [lowerFirstByte c]
    let pointer := pointer + 1
    (pointer - ic.pointer, value, skipList) ::
      (match matchOptions value (pointer - ic.pointer) options 0 skipList m with
        | none => []
        | some (skipList, m) =>
          if skipList.length = options.length then []
          else longestMatchPasses ic options rest pointer value skipList m)

/-! ## The longest-match routine -/

theorem properPrefix_length {v o : List Nat} (h : properPrefix v o) : v.length < o.length := by
  obtain ⟨t, rfl⟩ := h.1
  cases t with
  | nil => exact absurd (by simp) h.2
  | cons a t => simp

theorem properPrefix_of_snoc {v o : List Nat} {x : Nat} (h : v ++ [x] <+: o) :
    properPrefix v o := by
  obtain ⟨t, rfl⟩ := h
  refine ⟨⟨x :: t, by simp⟩, ?_⟩
  intro e
  have := congrArg List.length e
  simp at this

theorem prefix_snoc_cases {o v : List Nat} {x : Nat} (h : o <+: v ++ [x]) :
    o <+: v ∨ o = v ++ [x] := by
  rcases List.prefix_concat_iff.mp (by simpa using h) with h1 | h1
  · right; simpa using h1
  · left; exact h1

theorem matchOptions_spec (v : List Nat) (x : Nat) :
    ∀ (suf : List (List Nat)) (i : Nat) (S m : List Nat),
      (∀ j o, suf.get? j = some o → ((i + j) ∉ S ↔ properPrefix v o)) →
      ∃ S2, matchOptions (v ++ [x]) (v.length + 1) suf i S m =
          some (S2, if (v ++ [x]) ∈ suf ∧ m.length < v.length + 1 then v ++ [x] else m) ∧
        (∀ j, j ∈ S → j ∈ S2) ∧
        (∀ j, j ∈ S2 → j ∈ S ∨ (i ≤ j ∧ j < i + suf.length)) ∧
        (∀ j o, suf.get? j = some o → ((i + j) ∉ S2 ↔ properPrefix (v ++ [x]) o)) ∧
        (S.Nodup → S2.Nodup) := by
  intro suf
  induction suf with
  | nil =>
    intro i S m _
    exact ⟨S, by simp [matchOptions], fun _ h => h, fun _ h => Or.inl h, by simp, fun h => h⟩
  | cons o rest ih =>
    intro i S m hS
    have h0 : i ∉ S ↔ properPrefix v o := by simpa using hS 0 o rfl
    have key : ∀ (S1 m1 : List Nat), (∀ j, j ∈ S → j ∈ S1) → (∀ j, j ∈ S1 → j ∈ S ∨ j = i) →
        (i ∉ S1 ↔ properPrefix (v ++ [x]) o) → (S.Nodup → S1.Nodup) →
        ((if (v ++ [x]) ∈ rest ∧ m1.length < v.length + 1 then v ++ [x] else m1) =
          (if (v ++ [x]) ∈ o :: rest ∧ m.length < v.length + 1 then v ++ [x] else m)) →
        matchOptions (v ++ [x]) (v.length + 1) (o :: rest) i S m =
          matchOptions (v ++ [x]) (v.length + 1) rest (i + 1) S1 m1 →
        ∃ S2, matchOptions (v ++ [x]) (v.length + 1) (o :: rest) i S m =
          some (S2, if (v ++ [x]) ∈ o :: rest ∧ m.length < v.length + 1 then v ++ [x] else m) ∧
        (∀ j, j ∈ S → j ∈ S2) ∧
        (∀ j, j ∈ S2 → j ∈ S ∨ (i ≤ j ∧ j < i + (o :: rest).length)) ∧
        (∀ j o2, (o :: rest).get? j = some o2 → ((i + j) ∉ S2 ↔ properPrefix (v ++ [x]) o2)) ∧
        (S.Nodup → S2.Nodup) := by
      intro S1 m1 hsub hsup hi hnd hm heq
      have hrest : ∀ j o2, rest.get? j = some o2 → ((i + 1 + j) ∉ S1 ↔ properPrefix v o2) := by
        intro j o2 hj
        have h1 := hS (j + 1) o2 (by simpa using hj)
        rw [show i + (j + 1) = i + 1 + j by omega] at h1
        rw [← h1]
        constructor
        · intro h2 h3; exact h2 (hsub _ h3)
        · intro h2 h3
          rcases hsup _ h3 with h4 | h4
          · exact h2 h4
          · omega
      obtain ⟨S2, e, a, b, c, d⟩ := ih (i + 1) S1 m1 hrest
      refine ⟨S2, by rw [heq, e, hm], fun j hj => a j (hsub j hj), ?_, ?_, fun h => d (hnd h)⟩
      · intro j hj
        rcases b j hj with h1 | h1
        · rcases hsup j h1 with h2 | h2
          · exact Or.inl h2
          · right; simp; omega
        · right; simp; omega
      · intro j o2 hj
        cases j with
        | zero =>
          simp at hj
          subst hj
          simp only [Nat.add_zero]
          rw [← hi]
          constructor
          · intro h1 h2; exact h1 (a _ h2)
          · intro h1 h2
            rcases b _ h2 with h3 | h3
            · exact h1 h3
            · omega
        | succ j =>
          have := c j o2 (by simpa using hj)
          rw [show i + (j + 1) = i + 1 + j by omega]
          exact this
    by_cases hin : i ∈ S
    · have hnp : ¬ properPrefix v o := fun h => (h0.mpr h) hin
      have hne : o ≠ v ++ [x] := by
        rintro rfl
        exact hnp (properPrefix_of_snoc (List.prefix_refl _))
      apply key S m (fun _ h => h) (fun _ h => Or.inl h)
      · constructor
        · intro h; exact absurd hin h
        · intro h; exact absurd (properPrefix_of_snoc h.1) hnp
      · exact fun h => h
      · simp [Ne.symm hne]
      · simp [matchOptions, hin]
    · have hp : properPrefix v o := h0.mp hin
      have hlen := properPrefix_length hp
      have hnd : S.Nodup → (S ++ [i]).Nodup := by
        intro h
        exact List.Nodup.append h (List.nodup_singleton i) (by simpa using hin)
      have hsup : ∀ j, j ∈ S ++ [i] → j ∈ S ∨ j = i := by
        intro j hj; simpa using hj
      by_cases heq : o = v ++ [x]
      · apply key (S ++ [i]) (if o.length > m.length then o else m)
          (fun j h => by simp [h]) hsup
        · constructor
          · intro h; simp at h
          · intro h; exact absurd heq.symm h.2
        · exact hnd
        · subst heq
          by_cases hml : m.length < v.length + 1
          · simp [hml]
          · simp [hml]
        · simp [matchOptions, hin, heq]
      · by_cases hsh : v ++ [x] = o.take (v.length + 1)
        · apply key S m (fun _ h => h) (fun _ h => Or.inl h)
          · constructor
            · intro _
              refine ⟨?_, Ne.symm heq⟩
              rw [hsh]; exact List.take_prefix _ _
            · intro _; exact hin
          · exact fun h => h
          · simp [Ne.symm heq]
          · have : ¬ (o.length < v.length + 1) := by omega
            simp [matchOptions, hin, heq, this, ← hsh]
        · apply key (S ++ [i]) m (fun j h => by simp [h]) hsup
          · constructor
            · intro h; simp at h
            · intro h
              exfalso
              apply hsh
              have := List.prefix_iff_eq_take.mp h.1
              simpa using this
          · exact hnd
          · simp [Ne.symm heq]
          · have : ¬ (o.length < v.length + 1) := by omega
            simp [matchOptions, hin, heq, this, hsh]

theorem mem_of_nodup_of_length {S : List Nat} {n : Nat} (hnd : S.Nodup)
    (hlt : ∀ j ∈ S, j < n) (hlen : S.length = n) : ∀ j, j < n → j ∈ S := by
  intro j hj
  have hsub : S.toFinset ⊆ Finset.range n := by
    intro a ha
    simpa using hlt a (by simpa using ha)
  have hcard : (Finset.range n).card ≤ S.toFinset.card := by
    rw [List.toFinset_card_of_nodup hnd, Finset.card_range, hlen]
  have := Finset.eq_of_subset_of_card_le hsub hcard
  have hj2 : j ∈ S.toFinset := by rw [this]; simpa using hj
  simpa using hj2

theorem longestMatchLoop_spec (ic : cursor) (opts : List (List Nat)) :
    ∀ (rest : List Nat) (pointer : Nat) (v S m : List Nat),
      pointer = ic.pointer + v.length →
      S.Nodup → (∀ j ∈ S, j < opts.length) →
      (∀ j o, opts.get? j = some o → (j ∉ S ↔ properPrefix v o)) →
      (m = [] ∨ m ∈ opts) → m <+: v → (∀ o ∈ opts, o <+: v → o.length ≤ m.length) →
      ∃ r, longestMatchLoop ic opts rest pointer v S m = some r ∧
        (r = [] ∨ r ∈ opts) ∧ r <+: v ++ rest.map lowerFirstByte ∧
        ∀ o ∈ opts, o <+: v ++ rest.map lowerFirstByte → o.length ≤ r.length := by
  intro rest
  induction rest with
  | nil =>
    intro pointer v S m _ _ _ _ hm hmv hbest
    exact ⟨m, by simp [longestMatchLoop], hm, by simpa using hmv, by simpa using hbest⟩
  | cons c rest ih =>
    intro pointer v S m hp hnd hlt hS hm hmv hbest
    obtain ⟨S2, e, a, b, c2, d⟩ :=
      matchOptions_spec v (lowerFirstByte c) opts 0 S m (by simpa using hS)
    have hk : pointer + 1 - ic.pointer = v.length + 1 := by omega
    have hmlen : m.length < v.length + 1 := by
      have := hmv.length_le; omega
    -- the best match after the pass
    have hm2 : ∀ m2, m2 = (if (v ++ [lowerFirstByte c]) ∈ opts ∧ m.length < v.length + 1
        then v ++ [lowerFirstByte c] else m) →
        (m2 = [] ∨ m2 ∈ opts) ∧ m2 <+: v ++ [lowerFirstByte c] ∧
        ∀ o ∈ opts, o <+: v ++ [lowerFirstByte c] → o.length ≤ m2.length := by
      intro m2 hm2
      by_cases hv : (v ++ [lowerFirstByte c]) ∈ opts
      · rw [if_pos ⟨hv, hmlen⟩] at hm2
        subst hm2
        exact ⟨Or.inr hv, List.prefix_refl _, fun o _ ho => ho.length_le⟩
      · rw [if_neg (fun h => hv h.1)] at hm2
        subst hm2
        refine ⟨hm, hmv.trans (List.prefix_append _ _), ?_⟩
        intro o ho hpre
        rcases prefix_snoc_cases hpre with h1 | h1
        · exact hbest o ho h1
        · exact absurd (h1 ▸ ho) hv
    obtain ⟨hm2a, hm2b, hm2c⟩ := hm2 _ rfl
    have hlt2 : ∀ j ∈ S2, j < opts.length := by
      intro j hj
      rcases b j hj with h1 | h1
      · exact hlt j h1
      · omega
    have hS2 : ∀ j o, opts.get? j = some o →
        (j ∉ S2 ↔ properPrefix (v ++ [lowerFirstByte c]) o) := by
      intro j o hj; simpa using c2 j o hj
    simp only [longestMatchLoop, hk, e]
    by_cases hall : S2.length = opts.length
    · rw [if_pos hall]
      refine ⟨_, rfl, hm2a, ?_, ?_⟩
      · exact hm2b.trans ⟨rest.map lowerFirstByte, by simp⟩
      · intro o ho hpre
        have hv : v ++ [lowerFirstByte c] <+: v ++ (c :: rest).map lowerFirstByte :=
          ⟨rest.map lowerFirstByte, by simp⟩
        obtain ⟨j, hj⟩ := List.mem_iff_get?.mp ho
        have hjlt : j < opts.length := by
          by_contra hcon
          rw [List.get?_eq_none.mpr (by omega)] at hj
          exact absurd hj (by simp)
        have hjS : j ∈ S2 := mem_of_nodup_of_length (d hnd) hlt2 hall j hjlt
        have hnp : ¬ properPrefix (v ++ [lowerFirstByte c]) o :=
          fun h => ((hS2 j o hj).mpr h) hjS
        rcases Nat.le_total o.length (v ++ [lowerFirstByte c]).length with hle | hle
        · exact hm2c o ho (List.prefix_of_prefix_length_le hpre hv hle)
        · have h1 := List.prefix_of_prefix_length_le hv hpre hle
          by_cases h2 : v ++ [lowerFirstByte c] = o
          · exact hm2c o ho (h2 ▸ List.prefix_refl _)
          · exact absurd ⟨h1, h2⟩ hnp
    · rw [if_neg hall]
      have := ih (pointer + 1) (v ++ [lowerFirstByte c]) S2 _ (by simp; omega) (d hnd) hlt2 hS2
        hm2a hm2b hm2c
      simpa using this

/-- Candidates made of ASCII bytes see no difference between the fold of
`longestMatch` and ASCII lower-casing. -/
theorem prefix_lowerFirstByte_iff (o : List Nat) (ho : ∀ b ∈ o, b < 128) :
    ∀ s : List Nat, o <+: s.map lowerFirstByte ↔ o <+: s.map asciiLower := by
  induction o with
  | nil => intro s; simp
  | cons a o ih =>
    intro s
    cases s with
    | nil => simp
    | cons c s =>
      have ha : a < 128 := ho a (by simp)
      have hh : a = lowerFirstByte c ↔ a = asciiLower c := by
        unfold lowerFirstByte asciiLower
        split_ifs <;> omega
      simp only [List.map_cons, List.cons_prefix_cons, hh,
        ih (fun b hb => ho b (by simp [hb])) s]

theorem longestMatch_spec (opts : List (List Nat)) (hne : ∀ o ∈ opts, o ≠ [])
    (hascii : ∀ o ∈ opts, ∀ b ∈ o, b < 128) (source : List Nat) (ic : cursor) :
    ∃ m, longestMatch source ic opts = some m ∧
      isLongestPrefixMatch opts ((source.drop ic.pointer).map asciiLower) m := by
  obtain ⟨r, e, h1, h2, h3⟩ := longestMatchLoop_spec ic opts (source.drop ic.pointer) ic.pointer
    [] [] [] (by simp) (by simp) (by simp)
    (by
      intro j o hj
      have : o ∈ opts := List.mem_iff_get?.mpr ⟨j, hj⟩
      simp [properPrefix, Ne.symm (hne o this)])
    (Or.inl rfl) (List.prefix_refl _)
    (by
      intro o ho hpre
      exact absurd (List.prefix_nil.mp hpre) (hne o ho))
  refine ⟨r, e, ?_⟩
  simp only [List.nil_append] at h2 h3
  rcases h1 with h1 | h1
  · left
    refine ⟨h1, ?_⟩
    intro c hc hpre
    have := h3 c hc ((prefix_lowerFirstByte_iff c (hascii c hc) _).mpr hpre)
    rw [h1] at this
    exact hne c hc (List.length_eq_zero.mp (by simpa using this))
  · right
    refine ⟨h1, (prefix_lowerFirstByte_iff r (hascii r h1) _).mp h2, ?_⟩
    intro c hc hpre
    exact h3 c hc ((prefix_lowerFirstByte_iff c (hascii c hc) _).mpr hpre)

/-- C1: on every source and every cursor, `longestMatch` over the built-in
keyword list, and over the built-in symbol list, returns the longest candidate
that the source from the cursor on, lower-cased, begins with, and the empty
string when there is no such candidate; `lexKeyword` on `into` returns one
keyword token `into` and advances the pointer by 4. -/
theorem longestMatch_builtin_longest_prefix (source : List Nat) (ic : cursor) :
    (∃ m, longestMatch source ic validKeywords = some m ∧
      isLongestPrefixMatch validKeywords ((source.drop ic.pointer).map asciiLower) m) ∧
    (∃ m, longestMatch source ic validSymbols = some m ∧
      isLongestPrefixMatch validSymbols ((source.drop ic.pointer).map asciiLower) m) ∧
    lexKeyword (bytes "into") ⟨0, ⟨0, 0⟩⟩ =
      some ⟨some ⟨bytes "into", tokenKind.keywordKind, ⟨0, 0⟩⟩, ⟨4, ⟨0, 4⟩⟩, true⟩ :=
  ⟨longestMatch_spec validKeywords (by decide) (by decide) source ic,
   longestMatch_spec validSymbols (by decide) (by decide) source ic, by decide⟩

/-! ## The numeric sub-lexer: accepted literals -/

theorem lexNumericLoop_first (ic : cursor) (c : Nat) (rest : List Nat) (col : Nat) (pf ef : Bool) :
    lexNumericLoop ic (c :: rest) ic.pointer col pf ef =
      if isNumeric c = true ∨ c = 46 then
        lexNumericLoop ic rest (ic.pointer + 1) (col + 1) (decide (c = 46)) ef
      else none := by
  rw [lexNumericLoop.eq_def]
  by_cases h1 : 48 ≤ c ∧ c ≤ 57 <;> by_cases h2 : c = 46 <;> simp [isNumeric, h1, h2]

theorem lexNumericLoop_digit (ic : cursor) (c : Nat) (rest : List Nat) (pointer col : Nat)
    (pf ef : Bool) (hp : ic.pointer < pointer) (hc : isNumeric c = true) :
    lexNumericLoop ic (c :: rest) pointer col pf ef =
      lexNumericLoop ic rest (pointer + 1) (col + 1) pf ef := by
  have hd : 48 ≤ c ∧ c ≤ 57 := by simpa [isNumeric] using hc
  have h1 : pointer ≠ ic.pointer := by omega
  have h2 : c ≠ 46 := by omega
  have h3 : c ≠ 101 := by omega
  rw [lexNumericLoop.eq_def]
  simp [h1, h2, h3, hd]

theorem lexNumericLoop_period (ic : cursor) (rest : List Nat) (pointer col : Nat)
    (pf ef : Bool) (hp : ic.pointer < pointer) :
    lexNumericLoop ic (46 :: rest) pointer col pf ef =
      if pf = true then none else lexNumericLoop ic rest (pointer + 1) (col + 1) true ef := by
  have h1 : pointer ≠ ic.pointer := by omega
  rw [lexNumericLoop.eq_def]
  simp [h1]

theorem lexNumericLoop_exp (ic : cursor) (rest : List Nat) (pointer col : Nat)
    (pf ef : Bool) (hp : ic.pointer < pointer) :
    lexNumericLoop ic (101 :: rest) pointer col pf ef =
      if ef = true then none
      else match rest with
        | [] => none
        | cNext :: rest2 =>
          if cNext = 45 ∨ cNext = 43 then lexNumericLoop ic rest2 (pointer + 2) (col + 2) true true
          else lexNumericLoop ic (cNext :: rest2) (pointer + 1) (col + 1) true true := by
  have h1 : pointer ≠ ic.pointer := by omega
  rw [lexNumericLoop.eq_def]
  simp [h1]

theorem lexNumericLoop_other (ic : cursor) (c : Nat) (rest : List Nat) (pointer col : Nat)
    (pf ef : Bool) (hp : ic.pointer < pointer) (hc : isNumeric c = false) (h2 : c ≠ 46)
    (h3 : c ≠ 101) :
    lexNumericLoop ic (c :: rest) pointer col pf ef = some (pointer, col + 1) := by
  have hd : ¬ (48 ≤ c ∧ c ≤ 57) := by simpa [isNumeric] using hc
  have h1 : pointer ≠ ic.pointer := by omega
  rw [lexNumericLoop.eq_def]
  simp [h1, h2, h3, hd]

theorem lexNumericLoop_digits (ic : cursor) (ds : List Nat) (hds : ∀ d ∈ ds, isNumeric d = true) :
    ∀ (rest : List Nat) (pointer col : Nat) (pf ef : Bool), ic.pointer < pointer →
      lexNumericLoop ic (ds ++ rest) pointer col pf ef =
        lexNumericLoop ic rest (pointer + ds.length) (col + ds.length) pf ef := by
  induction ds with
  | nil => intro rest pointer col pf ef _; simp
  | cons d ds ih =>
    intro rest pointer col pf ef hp
    rw [List.cons_append, lexNumericLoop_digit ic d _ pointer col pf ef hp (hds d (by simp)),
      ih (fun x hx => hds x (by simp [hx])) rest (pointer + 1) (col + 1) pf ef (by omega)]
    simp [Nat.add_assoc, Nat.add_comm 1]

/-- The digits of the exponent part, to the end of the source. -/
theorem lexNumericLoop_expPart (ic : cursor) (ds : List Nat) (hds : ∀ d ∈ ds, isNumeric d = true)
    (exp : Option (List Nat × List Nat))
    (hexp : ∀ sign D3, exp = some (sign, D3) →
      (sign = [] ∨ sign = [43] ∨ sign = [45]) ∧ D3 ≠ [] ∧ ∀ d ∈ D3, isNumeric d = true)
    (pointer col : Nat) (pf : Bool) (hp : ic.pointer < pointer) :
    lexNumericLoop ic (ds ++ expPart exp)
        pointer col pf false =
      some (pointer + (ds ++ expPart exp).length,
        col + (ds ++ expPart exp).length) := by
  rw [lexNumericLoop_digits ic ds hds _ _ _ _ _ hp]
  cases exp with
  | none => simp [lexNumericLoop, expPart]
  | some p =>
    obtain ⟨sign, D3⟩ := p
    obtain ⟨hs, hne, hD3⟩ := hexp sign D3 rfl
    have hfin : ∀ p c, ic.pointer < p →
        lexNumericLoop ic D3 p c true true = some (p + D3.length, c + D3.length) := by
      intro p c hpc
      have := lexNumericLoop_digits ic D3 hD3 [] p c true true hpc
      rw [List.append_nil] at this
      rw [this]; simp [lexNumericLoop]
    simp only [expPart]
    rw [lexNumericLoop_exp ic _ _ _ _ _ (by omega)]
    rcases hs with rfl | rfl | rfl
    · cases D3 with
      | nil => exact absurd rfl hne
      | cons d D3 =>
        have hd : 48 ≤ d ∧ d ≤ 57 := by simpa [isNumeric] using hD3 d (by simp)
        have h1 : ¬ (d = 45 ∨ d = 43) := by omega
        simp only [List.nil_append, Bool.false_eq_true, if_false, h1]
        rw [hfin _ _ (by omega)]
        simp; omega
    · simp only [List.singleton_append, Bool.false_eq_true, if_false]
      rw [if_pos (by simp), hfin _ _ (by omega)]
      simp; omega
    · simp only [List.singleton_append, Bool.false_eq_true, if_false]
      rw [if_pos (by simp), hfin _ _ (by omega)]
      simp; omega

/-- The text of a numeric literal is accepted whole. -/
theorem lexNumeric_numericText (D1 : List Nat) (frac : Option (List Nat))
    (exp : Option (List Nat × List Nat))
    (hD1 : ∀ d ∈ D1, isNumeric d = true)
    (hfrac : ∀ D2, frac = some D2 → ∀ d ∈ D2, isNumeric d = true)
    (hexp : ∀ sign D3, exp = some (sign, D3) →
      (sign = [] ∨ sign = [43] ∨ sign = [45]) ∧ D3 ≠ [] ∧ ∀ d ∈ D3, isNumeric d = true)
    (hstart : D1 ≠ [] ∨ frac ≠ none) :
    lexNumeric (numericText D1 frac exp) ⟨0, ⟨0, 0⟩⟩ =
      some ⟨some ⟨numericText D1 frac exp, tokenKind.numericKind, ⟨0, 0⟩⟩,
        ⟨(numericText D1 frac exp).length, ⟨0, (numericText D1 frac exp).length⟩⟩, true⟩ := by
  have hloop : lexNumericLoop ⟨0, ⟨0, 0⟩⟩ (numericText D1 frac exp) 0 0 false false =
      some ((numericText D1 frac exp).length, (numericText D1 frac exp).length) := by
    cases D1 with
    | cons d D1 =>
      have h := lexNumericLoop_first ⟨0, ⟨0, 0⟩⟩ d
        (D1 ++ fracPart frac ++
          expPart exp) 0 false false
      have hd := hD1 d (by simp)
      have hd2 : 48 ≤ d ∧ d ≤ 57 := by simpa [isNumeric] using hd
      have hd46 : d ≠ 46 := by omega
      simp only [numericText, List.cons_append, List.append_assoc]
      simp only [List.append_assoc] at h
      rw [h, if_pos (Or.inl hd)]
      simp only [hd46, decide_False]
      cases frac with
      | none =>
        have := lexNumericLoop_expPart ⟨0, ⟨0, 0⟩⟩ D1 (fun x hx => hD1 x (by simp [hx])) exp hexp
          1 1 false (by simp)
        simp only [fracPart, List.nil_append]
        rw [this]
        simp; omega
      | some D2 =>
        simp only [fracPart]
        rw [lexNumericLoop_digits _ D1 (fun x hx => hD1 x (by simp [hx])) _ _ _ _ _ (by simp),
          List.cons_append, lexNumericLoop_period _ _ _ _ _ _ (by simp)]
        simp only [Bool.false_eq_true, if_false]
        rw [lexNumericLoop_expPart _ D2 (hfrac D2 rfl) exp hexp _ _ true (by simp)]
        simp; omega
    | nil =>
      cases frac with
      | none => simp at hstart
      | some D2 =>
        simp only [numericText, fracPart, List.nil_append, List.cons_append]
        have h := lexNumericLoop_first ⟨0, ⟨0, 0⟩⟩ 46
          (D2 ++ expPart exp)
          0 false false
        rw [h, if_pos (Or.inr rfl)]
        simp only [decide_True]
        rw [lexNumericLoop_expPart _ D2 (hfrac D2 rfl) exp hexp _ _ true (by simp)]
        simp; omega
  have hne : (numericText D1 frac exp).length ≠ 0 := by
    cases D1 with
    | cons d D1 => simp [numericText]
    | nil =>
      cases frac with
      | none => simp at hstart
      | some D2 => simp [numericText, fracPart]
  simp [lexNumeric, hloop, hne, slice]

/-! ## The numeric sub-lexer: rejected texts -/

theorem drop_of_get? {source : List Nat} {p c : Nat} (h : source.get? p = some c) :
    source.drop p = c :: source.drop (p + 1) := by
  rw [List.get?_eq_getElem?] at h
  obtain ⟨hlt, e⟩ := List.getElem?_eq_some.mp h
  rw [List.drop_eq_getElem_cons hlt, e]

/-- C2: for every text `D1 ['.' D2] ['e' ['+'|'-'] D3]` with `D1`, `D2` runs
of decimal digits, `D3` a non-empty run of decimal digits, and a digit or the
decimal point at the start, `lexNumeric` from the zero cursor succeeds with a
token of kind numeric whose value is the whole text, and the returned pointer
(and column) is the length of the text. -/
theorem lexNumeric_accepts_literal (D1 : List Nat) (frac : Option (List Nat))
    (exp : Option (List Nat × List Nat)) (h : isNumericLiteral D1 frac exp = true) :
    lexNumeric (numericText D1 frac exp) ⟨0, ⟨0, 0⟩⟩ =
      some ⟨some ⟨numericText D1 frac exp, tokenKind.numericKind, ⟨0, 0⟩⟩,
        ⟨(numericText D1 frac exp).length, ⟨0, (numericText D1 frac exp).length⟩⟩, true⟩ := by
  simp only [isNumericLiteral, Bool.and_eq_true, List.all_eq_true, Bool.or_eq_true] at h
  obtain ⟨⟨⟨h1, h2⟩, h3⟩, h4⟩ := h
  apply lexNumeric_numericText D1 frac exp h1
  · intro D2 e; subst e; simpa using h2
  · intro sign D3 e; subst e
    simp only [Bool.and_eq_true, Bool.or_eq_true, decide_eq_true_eq, List.all_eq_true] at h3
    obtain ⟨⟨h5, h6⟩, h7⟩ := h3
    refine ⟨by tauto, by simpa using h6, h7⟩
  · rcases h4 with h4 | h4
    · left; simpa using h4
    · right; intro e; simp [e] at h4

theorem lexNumeric_accepts_literal_witness :
    (numericText (bytes "1") (some (bytes "1")) (some (bytes "-", bytes "2")) = bytes "1.1e-2" ∧
      lexNumeric (numericText (bytes "1") (some (bytes "1")) (some (bytes "-", bytes "2")))
          ⟨0, ⟨0, 0⟩⟩ =
        some ⟨some ⟨numericText (bytes "1") (some (bytes "1")) (some (bytes "-", bytes "2")),
          tokenKind.numericKind, ⟨0, 0⟩⟩,
          ⟨(numericText (bytes "1") (some (bytes "1")) (some (bytes "-", bytes "2"))).length,
            ⟨0, (numericText (bytes "1") (some (bytes "1")) (some (bytes "-", bytes "2"))).length⟩⟩,
          true⟩) ∧
    (numericText [] (some (bytes "1")) none = bytes ".1" ∧
      lexNumeric (numericText [] (some (bytes "1")) none) ⟨0, ⟨0, 0⟩⟩ =
        some ⟨some ⟨numericText [] (some (bytes "1")) none, tokenKind.numericKind, ⟨0, 0⟩⟩,
          ⟨(numericText [] (some (bytes "1")) none).length,
            ⟨0, (numericText [] (some (bytes "1")) none).length⟩⟩, true⟩) ∧
    (numericText (bytes "123") (some []) none = bytes "123." ∧
      lexNumeric (numericText (bytes "123") (some []) none) ⟨0, ⟨0, 0⟩⟩ =
        some ⟨some ⟨numericText (bytes "123") (some []) none, tokenKind.numericKind, ⟨0, 0⟩⟩,
          ⟨(numericText (bytes "123") (some []) none).length,
            ⟨0, (numericText (bytes "123") (some []) none).length⟩⟩, true⟩) :=
  ⟨⟨by decide, lexNumeric_accepts_literal _ _ _ (by decide)⟩,
   ⟨by decide, lexNumeric_accepts_literal _ _ _ (by decide)⟩,
   ⟨by decide, lexNumeric_accepts_literal _ _ _ (by decide)⟩⟩

theorem inNumericGrammar_head {c : Nat} {rest : List Nat}
    (h : inNumericGrammar (c :: rest) = true) : isNumeric c = true ∨ c = 46 ∨ c = 101 := by
  cases rest with
  | nil => simpa [inNumericGrammar, or_assoc] using h
  | cons c2 rest =>
    rw [inNumericGrammar] at h
    by_cases h1 : isNumeric c = true
    · exact Or.inl h1
    · by_cases h2 : c = 46
      · exact Or.inr (Or.inl h2)
      · by_cases h3 : c = 101
        · exact Or.inr (Or.inr h3)
        · simp [h1, h2, h3] at h

theorem inNumericGrammar_tail {c : Nat} {rest : List Nat}
    (h : inNumericGrammar (c :: rest) = true) (hc : isNumeric c = true ∨ c = 46) :
    inNumericGrammar rest = true := by
  cases rest with
  | nil => simp [inNumericGrammar]
  | cons c2 rest =>
    rw [inNumericGrammar] at h
    have : (isNumeric c || decide (c = 46)) = true := by simpa using hc
    simpa [this] using h

theorem inNumericGrammar_exp {c2 : Nat} {rest : List Nat}
    (h : inNumericGrammar (101 :: c2 :: rest) = true) :
    if c2 = 45 ∨ c2 = 43 then inNumericGrammar rest = true
    else inNumericGrammar (c2 :: rest) = true := by
  rw [inNumericGrammar] at h
  have h1 : isNumeric 101 = false := by decide
  by_cases h2 : c2 = 45 ∨ c2 = 43
  · simpa [h1, h2] using h
  · simpa [h1, h2] using h

theorem lexNumericLoop_reject (ic : cursor) (x : Nat) (tail : List Nat) :
    ∀ (n : Nat) (q : List Nat), q.length ≤ n → inNumericGrammar q = true →
      ∀ (pointer col : Nat) (pf ef : Bool), ic.pointer < pointer →
        ((x = 46 ∧ (pf = true ∨ 46 ∈ q ∨ 101 ∈ q)) ∨
          (x = 101 ∧ (ef = true ∨ 101 ∈ q))) →
        lexNumericLoop ic (q ++ x :: tail) pointer col pf ef = none := by
  have base : ∀ (pointer col : Nat) (pf ef : Bool), ic.pointer < pointer →
      ((x = 46 ∧ pf = true) ∨ (x = 101 ∧ ef = true)) →
      lexNumericLoop ic (x :: tail) pointer col pf ef = none := by
    intro pointer col pf ef hp hx
    rcases hx with ⟨rfl, h⟩ | ⟨rfl, h⟩
    · rw [lexNumericLoop_period ic _ _ _ _ _ hp, if_pos h]
    · rw [lexNumericLoop_exp ic _ _ _ _ _ hp, if_pos h]
  intro n
  induction n with
  | zero =>
    intro q hq _ pointer col pf ef hp hx
    have : q = [] := List.length_eq_zero.mp (by omega)
    subst this
    exact base pointer col pf ef hp (by simpa using hx)
  | succ n ih =>
    intro q hq hg pointer col pf ef hp hx
    cases q with
    | nil => exact base pointer col pf ef hp (by simpa using hx)
    | cons c rest =>
      have hlen : rest.length ≤ n := by simpa using hq
      rw [List.cons_append]
      rcases inNumericGrammar_head hg with hc | hc | hc
      · have hd : 48 ≤ c ∧ c ≤ 57 := by simpa [isNumeric] using hc
        have h46 : c ≠ 46 := by omega
        have h101 : c ≠ 101 := by omega
        rw [lexNumericLoop_digit ic c _ _ _ _ _ hp hc]
        apply ih rest hlen (inNumericGrammar_tail hg (Or.inl hc)) _ _ _ _ (by omega)
        simpa [Ne.symm h46, Ne.symm h101] using hx
      · subst hc
        rw [lexNumericLoop_period ic _ _ _ _ _ hp]
        by_cases hpf : pf = true
        · rw [if_pos hpf]
        · rw [if_neg hpf]
          apply ih rest hlen (inNumericGrammar_tail hg (Or.inr rfl)) _ _ _ _ (by omega)
          rcases hx with ⟨h1, _⟩ | ⟨h1, h2⟩
          · exact Or.inl ⟨h1, Or.inl rfl⟩
          · exact Or.inr ⟨h1, by simpa using h2⟩
      · subst hc
        rw [lexNumericLoop_exp ic _ _ _ _ _ hp]
        by_cases hef : ef = true
        · rw [if_pos hef]
        · rw [if_neg hef]
          have hx2 : ∀ q2 : List Nat, (x = 46 ∧ (true = true ∨ 46 ∈ q2 ∨ 101 ∈ q2)) ∨
              (x = 101 ∧ (true = true ∨ 101 ∈ q2)) := by
            intro q2
            rcases hx with ⟨h1, _⟩ | ⟨h1, _⟩
            · exact Or.inl ⟨h1, Or.inl rfl⟩
            · exact Or.inr ⟨h1, Or.inl rfl⟩
          cases rest with
          | nil =>
            have hxs : ¬ (x = 45 ∨ x = 43) := by
              rcases hx with ⟨h1, _⟩ | ⟨h1, _⟩ <;> omega
            simp only [List.nil_append, if_neg hxs]
            exact ih [] (by simp) (by simp [inNumericGrammar]) _ _ _ _ (by omega) (hx2 [])
          | cons c2 rest2 =>
            have hg2 := inNumericGrammar_exp hg
            simp only [List.cons_append]
            by_cases hs : c2 = 45 ∨ c2 = 43
            · rw [if_pos hs] at hg2
              rw [if_pos hs]
              exact ih rest2 (by simp at hlen; omega) hg2 _ _ _ _ (by omega) (hx2 rest2)
            · rw [if_neg hs] at hg2
              rw [if_neg hs]
              have := ih (c2 :: rest2) hlen hg2 (pointer + 1) (col + 1) true true (by omega)
                (hx2 (c2 :: rest2))
              simpa using this

/-- C3: `lexNumeric` returns no match, with the cursor it was given, when the
character at the cursor is neither a digit nor the decimal point, and when the
scan, having met only characters inside the numeric grammar, reaches a second
decimal point, a second exponent marker, or a decimal point after an exponent
marker. -/
theorem lexNumeric_rejects (source : List Nat) (ic : cursor) :
    (∀ c, source.get? ic.pointer = some c → isNumeric c = false → c ≠ 46 →
      lexNumeric source ic = some (noMatch ic)) ∧
    (∀ (p : List Nat) (x : Nat) (tail : List Nat),
      source.drop ic.pointer = p ++ x :: tail →
      (∃ c, p.head? = some c ∧ (isNumeric c = true ∨ c = 46)) →
      inNumericGrammar p = true →
      ((x = 46 ∧ (46 ∈ p ∨ 101 ∈ p)) ∨ (x = 101 ∧ 101 ∈ p)) →
      lexNumeric source ic = some (noMatch ic)) := by
  constructor
  · intro c hc hnum h46
    have hdrop := drop_of_get? hc
    have hcond : ¬ (isNumeric c = true ∨ c = 46) := by simp [hnum, h46]
    simp [lexNumeric, hdrop, lexNumericLoop_first, hcond]
  · intro p x tail hdrop hhead hg hx
    obtain ⟨c, hc, hcd⟩ := hhead
    cases p with
    | nil => simp at hc
    | cons c0 q =>
      simp at hc
      subst hc
      have hc101 : c0 ≠ 101 := by
        rcases hcd with h | h
        · have : 48 ≤ c0 ∧ c0 ≤ 57 := by simpa [isNumeric] using h
          omega
        · omega
      have hloop : lexNumericLoop ic (c0 :: (q ++ x :: tail)) ic.pointer ic.loc.col false false
          = none := by
        rw [lexNumericLoop_first, if_pos hcd]
        apply lexNumericLoop_reject ic x tail q.length q (Nat.le_refl _)
          (inNumericGrammar_tail hg hcd) _ _ _ _ (by omega)
        rcases hx with ⟨h1, h2⟩ | ⟨h1, h2⟩
        · left
          refine ⟨h1, ?_⟩
          by_cases h46 : c0 = 46
          · left; simp [h46]
          · right; simpa [Ne.symm h46, Ne.symm hc101] using h2
        · right
          exact ⟨h1, Or.inr (by simpa [Ne.symm hc101] using h2)⟩
      simp [lexNumeric, hdrop, hloop]

theorem lexNumeric_rejects_witness :
    lexNumeric (bytes "e4") ⟨0, ⟨0, 0⟩⟩ = some (noMatch ⟨0, ⟨0, 0⟩⟩) ∧
    lexNumeric (bytes " 1") ⟨0, ⟨0, 0⟩⟩ = some (noMatch ⟨0, ⟨0, 0⟩⟩) ∧
    lexNumeric (bytes "1..") ⟨0, ⟨0, 0⟩⟩ = some (noMatch ⟨0, ⟨0, 0⟩⟩) ∧
    lexNumeric (bytes "1ee4") ⟨0, ⟨0, 0⟩⟩ = some (noMatch ⟨0, ⟨0, 0⟩⟩) :=
  ⟨(lexNumeric_rejects (bytes "e4") ⟨0, ⟨0, 0⟩⟩).1 101 (by decide) (by decide) (by decide),
   (lexNumeric_rejects (bytes " 1") ⟨0, ⟨0, 0⟩⟩).1 32 (by decide) (by decide) (by decide),
   (lexNumeric_rejects (bytes "1..") ⟨0, ⟨0, 0⟩⟩).2 (bytes "1.") 46 [] (by decide)
     ⟨49, by decide, by decide⟩ (by decide) (by decide),
   (lexNumeric_rejects (bytes "1ee4") ⟨0, ⟨0, 0⟩⟩).2 (bytes "1e") 101 (bytes "4") (by decide)
     ⟨49, by decide, by decide⟩ (by decide) (by decide)⟩

/-! ## The delimiter-based reader -/

/-- C4 (as stated, refuted): on `'a '' b'` the doubled quote gives two quote
characters of the value, not one: the value is `a '' b`, not `a ' b`. -/
theorem lexString_doubled_delimiter_twice :
    lexString (bytes "'a '' b'") ⟨0, ⟨0, 0⟩⟩ =
      some ⟨some ⟨bytes "a '' b", tokenKind.stringKind, ⟨0, 0⟩⟩, ⟨8, ⟨0, 8⟩⟩, true⟩ ∧
    bytes "a '' b" ≠ bytes "a ' b" := by
  decide

theorem lexCharacterDelimitedLoop_other (q c : Nat) (rest : List Nat) (pointer col : Nat)
    (value : List Nat) (hc : c ≠ q) :
    lexCharacterDelimitedLoop q (c :: rest) pointer col value =
      lexCharacterDelimitedLoop q rest (pointer + 1) (col + 1) (value ++ [c]) := by
  rw [lexCharacterDelimitedLoop.eq_def]
  simp [hc]

theorem lexCharacterDelimitedLoop_last (q : Nat) (pointer col : Nat) (value : List Nat) :
    lexCharacterDelimitedLoop q [q] pointer col value = some (value, pointer + 1, col + 1) := by
  rw [lexCharacterDelimitedLoop.eq_def]
  simp

theorem lexCharacterDelimitedLoop_close (q c2 : Nat) (rest : List Nat) (pointer col : Nat)
    (value : List Nat) (hc : c2 ≠ q) :
    lexCharacterDelimitedLoop q (q :: c2 :: rest) pointer col value =
      some (value, pointer + 1, col + 1) := by
  rw [lexCharacterDelimitedLoop.eq_def]
  simp [hc]

theorem lexCharacterDelimitedLoop_doubled (q : Nat) (rest : List Nat) (pointer col : Nat)
    (value : List Nat) :
    lexCharacterDelimitedLoop q (q :: q :: rest) pointer col value =
      lexCharacterDelimitedLoop q rest (pointer + 2) (col + 2) (value ++ [q, q]) := by
  rw [lexCharacterDelimitedLoop.eq_def]
  simp

theorem lexCharacterDelimitedLoop_paired (q : Nat) :
    ∀ (n : Nat) (body : List Nat), body.length ≤ n → delimitersPaired q body = true →
      ∀ (pointer col : Nat) (value : List Nat),
        lexCharacterDelimitedLoop q (body ++ [q]) pointer col value =
          some (value ++ body, pointer + body.length + 1, col + body.length + 1) := by
  intro n
  induction n with
  | zero =>
    intro body hb _ pointer col value
    have : body = [] := List.length_eq_zero.mp (by omega)
    subst this
    simp [lexCharacterDelimitedLoop_last]
  | succ n ih =>
    intro body hb hp pointer col value
    cases body with
    | nil => simp [lexCharacterDelimitedLoop_last]
    | cons c rest1 =>
      cases rest1 with
      | nil =>
        have hc : c ≠ q := by simpa [delimitersPaired] using hp
        simp [lexCharacterDelimitedLoop_other _ _ _ _ _ _ hc, lexCharacterDelimitedLoop_last]
      | cons c2 rest =>
        rw [delimitersPaired] at hp
        simp only [List.length_cons] at hb
        by_cases hc : c = q
        · simp only [hc, if_true, Bool.and_eq_true, decide_eq_true_eq] at hp
          obtain ⟨hc2, hrest⟩ := hp
          rw [hc, hc2]
          simp only [List.cons_append]
          rw [lexCharacterDelimitedLoop_doubled, ih rest (by omega) hrest]
          simp; omega
        · simp only [hc, if_false] at hp
          have := ih (c2 :: rest) (by simp; omega) hp (pointer + 1) (col + 1) (value ++ [c])
          simp only [List.cons_append] at this ⊢
          rw [lexCharacterDelimitedLoop_other _ _ _ _ _ _ hc, this]
          simp; omega

/-- C5: for a body whose single quotes all come in adjacent pairs, `lexString`
on the quoted body succeeds, consumes the whole input and returns the body
verbatim, doubled quotes kept as two characters; on the empty input, on the
input that is one single quote, and on every input that does not begin with a
single quote it returns no match. -/
theorem lexString_body_verbatim :
    (∀ body : List Nat, delimitersPaired 39 body = true →
      lexString (39 :: (body ++ [39])) ⟨0, ⟨0, 0⟩⟩ =
        some ⟨some ⟨body, tokenKind.stringKind, ⟨0, 0⟩⟩,
          ⟨(39 :: (body ++ [39])).length, ⟨0, (39 :: (body ++ [39])).length⟩⟩, true⟩) ∧
    lexString [] ⟨0, ⟨0, 0⟩⟩ = some (noMatch ⟨0, ⟨0, 0⟩⟩) ∧
    lexString [39] ⟨0, ⟨0, 0⟩⟩ = some (noMatch ⟨0, ⟨0, 0⟩⟩) ∧
    (∀ (c : Nat) (rest : List Nat), c ≠ 39 →
      lexString (c :: rest) ⟨0, ⟨0, 0⟩⟩ = some (noMatch ⟨0, ⟨0, 0⟩⟩)) := by
  refine ⟨?_, by decide, by decide, ?_⟩
  · intro body hb
    have := lexCharacterDelimitedLoop_paired 39 body.length body (Nat.le_refl _) hb 1 1 []
    simp [lexString, lexCharacterDelimited, this]
    omega
  · intro c rest hc
    simp [lexString, lexCharacterDelimited, hc]

theorem lexString_body_verbatim_witness :
    lexString (39 :: (bytes "a '' b" ++ [39])) ⟨0, ⟨0, 0⟩⟩ =
      some ⟨some ⟨bytes "a '' b", tokenKind.stringKind, ⟨0, 0⟩⟩,
        ⟨(39 :: (bytes "a '' b" ++ [39])).length,
          ⟨0, (39 :: (bytes "a '' b" ++ [39])).length⟩⟩, true⟩ ∧
    lexString (bytes "a") ⟨0, ⟨0, 0⟩⟩ = some (noMatch ⟨0, ⟨0, 0⟩⟩) :=
  ⟨lexString_body_verbatim.1 (bytes "a '' b") (by decide),
   lexString_body_verbatim.2.2.2 97 [] (by decide)⟩

/-! ## The identifier sub-lexer; quoted identifiers; the column after a number -/

theorem lexIdentifierLoop_takeWhile :
    ∀ (rest : List Nat) (pointer col : Nat) (value : List Nat),
      lexIdentifierLoop rest pointer col value =
        (pointer + (rest.takeWhile isIdentifierChar).length,
          col + (rest.takeWhile isIdentifierChar).length,
          value ++ rest.takeWhile isIdentifierChar) := by
  intro rest
  induction rest with
  | nil => intro pointer col value; simp [lexIdentifierLoop]
  | cons c rest ih =>
    intro pointer col value
    by_cases hc : isIdentifierChar c = true
    · have hc2 : (isAlphabetical c || isNumeric c || decide (c = 36) || decide (c = 95)) = true := hc
      rw [lexIdentifierLoop, if_pos hc2, ih, List.takeWhile_cons_of_pos hc]
      simp; omega
    · have hc2 : ¬ (isAlphabetical c || isNumeric c || decide (c = 36) || decide (c = 95)) = true := hc
      rw [lexIdentifierLoop, if_neg hc2, List.takeWhile_cons_of_neg hc]
      simp

/-- C8: at a cursor whose character is not a double quote, `lexIdentifier`
returns, and succeeds exactly when that character is an ASCII letter; it then
returns an identifier token whose value is the lower-cased maximal run of
characters of `[A-Za-z0-9$_]` from the cursor, and advances the pointer by the
length of that run, to at most the length of the source; the line is kept and
the column advances by the same length when the sum stays below `2^64`, the
range of the `uint` counter.  When the character is not a letter the result is
`nil, ic, false`. -/
theorem lexIdentifier_unquoted (source : List Nat) (ic : cursor) (c : Nat)
    (hc : source.get? ic.pointer = some c) (hq : c ≠ 34) :
    ∃ r, lexIdentifier source ic = some r ∧
      (r.ok = true ↔ isAlphabetical c = true) ∧
      (isAlphabetical c = true →
        r.tok = some ⟨((source.drop ic.pointer).takeWhile isIdentifierChar).map asciiLower,
          tokenKind.identifierKind, ic.loc⟩ ∧
        r.cur.pointer = ic.pointer + ((source.drop ic.pointer).takeWhile isIdentifierChar).length ∧
        r.cur.pointer ≤ source.length ∧ r.cur.loc.line = ic.loc.line ∧
        (ic.loc.col + ((source.drop ic.pointer).takeWhile isIdentifierChar).length < 2 ^ 64 →
          r.cur.loc.col =
            ic.loc.col + ((source.drop ic.pointer).takeWhile isIdentifierChar).length)) ∧
      (isAlphabetical c = false → r = noMatch ic) := by
  have hdrop := drop_of_get? hc
  have hlt : ¬ source.length < ic.pointer := by
    have := congrArg List.length hdrop
    simp at this
    omega
  have hdel : lexCharacterDelimited source ic 34 = some (noMatch ic) := by
    simp [lexCharacterDelimited, hlt, hdrop, hq]
  have hrun : ic.pointer + ((source.drop ic.pointer).takeWhile isIdentifierChar).length ≤
      source.length := by
    have h1 := (List.takeWhile_prefix isIdentifierChar (l := source.drop ic.pointer)).length_le
    simp only [List.length_drop] at h1
    omega
  by_cases ha : isAlphabetical c = true
  · have hic : isIdentifierChar c = true := by simp [isIdentifierChar, ha]
    refine ⟨⟨some ⟨((source.drop ic.pointer).takeWhile isIdentifierChar).map asciiLower,
        tokenKind.identifierKind, ic.loc⟩,
      ⟨ic.pointer + ((source.drop ic.pointer).takeWhile isIdentifierChar).length,
        ⟨ic.loc.line,
          ic.loc.col + ((source.drop ic.pointer).takeWhile isIdentifierChar).length⟩⟩, true⟩,
      ?_, by simp [ha], fun _ => ⟨rfl, rfl, hrun, rfl, fun _ => rfl⟩, fun hf => by simp [ha] at hf⟩
    simp only [lexIdentifier, hdel, noMatch, hc, ha, lexIdentifierLoop_takeWhile, hdrop,
      List.takeWhile_cons_of_pos hic]
    simp [stringsToLower]
    omega
  · refine ⟨noMatch ic, ?_, by simp [ha, noMatch], fun h => absurd h ha, fun _ => rfl⟩
    simp only [lexIdentifier, hdel, noMatch, hc]
    simp [ha]

theorem lexIdentifier_unquoted_witness :
    (∃ r, lexIdentifier (bytes "userName") ⟨0, ⟨0, 0⟩⟩ = some r ∧
      (r.ok = true ↔ isAlphabetical 117 = true) ∧
      (isAlphabetical 117 = true →
        r.tok = some ⟨bytes "username", tokenKind.identifierKind, ⟨0, 0⟩⟩ ∧
        r.cur.pointer = 0 + 8 ∧ r.cur.pointer ≤ 8 ∧ r.cur.loc.line = 0 ∧
        (0 + 8 < 2 ^ 64 → r.cur.loc.col = 0 + 8)) ∧
      (isAlphabetical 117 = false → r = noMatch ⟨0, ⟨0, 0⟩⟩)) ∧
    lexIdentifier (bytes "userName") ⟨0, ⟨0, 0⟩⟩ =
      some ⟨some ⟨bytes "username", tokenKind.identifierKind, ⟨0, 0⟩⟩, ⟨8, ⟨0, 8⟩⟩, true⟩ ∧
    lexIdentifier (bytes "a9$") ⟨0, ⟨0, 0⟩⟩ =
      some ⟨some ⟨bytes "a9$", tokenKind.identifierKind, ⟨0, 0⟩⟩, ⟨3, ⟨0, 3⟩⟩, true⟩ ∧
    lexIdentifier (bytes "abc ") ⟨0, ⟨0, 0⟩⟩ =
      some ⟨some ⟨bytes "abc", tokenKind.identifierKind, ⟨0, 0⟩⟩, ⟨3, ⟨0, 3⟩⟩, true⟩ ∧
    lexIdentifier (bytes "_sadsfa") ⟨0, ⟨0, 0⟩⟩ = some (noMatch ⟨0, ⟨0, 0⟩⟩) ∧
    lexIdentifier (bytes "9sadsfa") ⟨0, ⟨0, 0⟩⟩ = some (noMatch ⟨0, ⟨0, 0⟩⟩) ∧
    lexIdentifier (bytes " abc") ⟨0, ⟨0, 0⟩⟩ = some (noMatch ⟨0, ⟨0, 0⟩⟩) :=
  ⟨lexIdentifier_unquoted (bytes "userName") ⟨0, ⟨0, 0⟩⟩ 117 (by decide) (by decide),
   by decide, by decide, by decide, by decide, by decide, by decide⟩

/-- C9: on the double-quoted input `"userName"` the identifier sub-lexer, and
`lex`, return a token of kind string, not of kind identifier; its value keeps
the case. -/
theorem lexIdentifier_quoted_kind_string :
    lexIdentifier (34 :: (bytes "userName" ++ [34])) ⟨0, ⟨0, 0⟩⟩ =
      some ⟨some ⟨bytes "userName", tokenKind.stringKind, ⟨0, 0⟩⟩, ⟨10, ⟨0, 10⟩⟩, true⟩ ∧
    lex (34 :: (bytes "userName" ++ [34])) =
      some (Except.ok [⟨bytes "userName", tokenKind.stringKind, ⟨0, 0⟩⟩]) := by
  decide

/-- C6: on `1,` the numeric sub-lexer consumes one byte and advances the
column by two, so `lex` records the comma, at byte offset 1, in column 2. -/
theorem lexNumeric_column_off_by_one :
    lexNumeric (bytes "1,") ⟨0, ⟨0, 0⟩⟩ =
      some ⟨some ⟨bytes "1", tokenKind.numericKind, ⟨0, 0⟩⟩, ⟨1, ⟨0, 2⟩⟩, true⟩ ∧
    lex (bytes "1,") =
      some (Except.ok [⟨bytes "1", tokenKind.numericKind, ⟨0, 0⟩⟩,
        ⟨bytes ",", tokenKind.symbolKind, ⟨0, 2⟩⟩]) := by
  decide

/-! ## How far a sub-lexer moves the cursor -/

theorem lexKeyword_advances {source : List Nat} {ic : cursor} {r : lexResult}
    (h : lexKeyword source ic = some r) (hok : r.ok = true) :
    (∃ n, advancesBy ic r n) ∧ ∀ t, r.tok = some t → t.kind = tokenKind.keywordKind := by
  unfold lexKeyword at h
  cases hm : longestMatch source ic validKeywords with
  | none => simp [hm] at h
  | some m =>
    simp only [hm] at h
    by_cases hm0 : m = []
    · simp [hm0, noMatch] at h
      subst h
      simp at hok
    · simp only [hm0, if_false, Option.some.injEq] at h
      subst h
      refine ⟨⟨m.length, List.length_pos.mpr hm0, rfl, ?_⟩, ?_⟩
      · intro t ht; simp at ht; subst ht; rfl
      · intro t ht; simp at ht; subst ht; rfl

theorem lexSymbol_advances {source : List Nat} {ic : cursor} {r : lexResult}
    (h : lexSymbol source ic = some r) (hok : r.ok = true)
    (hnl : source.get? ic.pointer ≠ some 10) :
    (∃ n, advancesBy ic r n) ∧ ∀ t, r.tok = some t → t.kind = tokenKind.symbolKind := by
  unfold lexSymbol at h
  cases hc : source.get? ic.pointer with
  | none => rw [hc] at h; simp at h
  | some c =>
    have hc10 : c ≠ 10 := by
      intro e; subst e; exact hnl hc
    simp only [hc, hc10, if_false] at h
    by_cases hws : c = 9 ∨ c = 32
    · simp only [hws, if_true, Option.some.injEq] at h
      subst h
      exact ⟨⟨1, by simp [advancesBy]⟩, by simp⟩
    · simp only [hws, if_false] at h
      cases hm : longestMatch source ic validSymbols with
      | none => simp [hm] at h
      | some m =>
        simp only [hm] at h
        by_cases hm0 : m = []
        · simp [hm0, noMatch] at h
          subst h
          simp at hok
        · simp only [hm0, if_false, Option.some.injEq] at h
          subst h
          refine ⟨⟨m.length, List.length_pos.mpr hm0, rfl, ?_⟩, ?_⟩
          · intro t ht; simp at ht; subst ht; rfl
          · intro t ht; simp at ht; subst ht; rfl

theorem lexCharacterDelimitedLoop_advances (q : Nat) :
    ∀ (n : Nat) (rest : List Nat), rest.length ≤ n →
      ∀ (pointer col : Nat) (value value2 : List Nat) (pointer2 col2 : Nat),
        lexCharacterDelimitedLoop q rest pointer col value = some (value2, pointer2, col2) →
        ∃ k, 0 < k ∧ k ≤ rest.length ∧ pointer2 = pointer + k ∧ col2 = col + k := by
  intro n
  induction n with
  | zero =>
    intro rest hr pointer col value value2 pointer2 col2 h
    have : rest = [] := List.length_eq_zero.mp (by omega)
    subst this
    simp [lexCharacterDelimitedLoop] at h
  | succ n ih =>
    intro rest hr pointer col value value2 pointer2 col2 h
    cases rest with
    | nil => simp [lexCharacterDelimitedLoop] at h
    | cons c rest1 =>
      simp only [List.length_cons] at hr
      by_cases hc : c = q
      · subst hc
        cases rest1 with
        | nil =>
          rw [lexCharacterDelimitedLoop_last] at h
          simp at h
          exact ⟨1, by simp, by simp, by omega, by omega⟩
        | cons c2 rest2 =>
          by_cases hc2 : c2 = c
          · subst hc2
            rw [lexCharacterDelimitedLoop_doubled] at h
            simp only [List.length_cons] at hr
            obtain ⟨k, _, hk2, hk3, hk4⟩ := ih rest2 (by omega) _ _ _ _ _ _ h
            exact ⟨k + 2, by omega, by simp; omega, by omega, by omega⟩
          · rw [lexCharacterDelimitedLoop_close _ _ _ _ _ _ hc2] at h
            simp at h
            exact ⟨1, by simp, by simp, by omega, by omega⟩
      · rw [lexCharacterDelimitedLoop_other _ _ _ _ _ _ hc] at h
        obtain ⟨k, _, hk2, hk3, hk4⟩ := ih rest1 (by omega) _ _ _ _ _ _ h
        exact ⟨k + 1, by omega, by simp; omega, by omega, by omega⟩

theorem lexCharacterDelimited_advances {source : List Nat} {ic : cursor} {q : Nat}
    {r : lexResult} (h : lexCharacterDelimited source ic q = some r) (hok : r.ok = true) :
    (∃ n, advancesBy ic r n ∧ ic.pointer + n ≤ source.length) ∧
      ∃ t, r.tok = some t ∧ t.kind = tokenKind.stringKind := by
  unfold lexCharacterDelimited at h
  by_cases hlen : source.length < ic.pointer
  · simp [hlen] at h
  · simp only [hlen, if_false] at h
    cases hd : source.drop ic.pointer with
    | nil =>
      simp [hd, noMatch] at h
      subst h; simp at hok
    | cons c rest =>
      simp only [hd] at h
      by_cases hc : c ≠ q
      · simp [hc, noMatch] at h
        subst h; simp at hok
      · simp only [hc, if_false] at h
        cases hl : lexCharacterDelimitedLoop q rest (ic.pointer + 1) (ic.loc.col + 1) [] with
        | none =>
          simp [hl, noMatch] at h
          subst h; simp at hok
        | some res =>
          obtain ⟨value, pointer, col⟩ := res
          simp only [hl, Option.some.injEq] at h
          subst h
          obtain ⟨k, _, hk2, hk3, hk4⟩ :=
            lexCharacterDelimitedLoop_advances q rest.length rest (Nat.le_refl _) _ _ _ _ _ _ hl
          have hlen2 : (source.drop ic.pointer).length = rest.length + 1 := by simp [hd]
          simp only [List.length_drop] at hlen2
          refine ⟨⟨k + 1, ⟨by omega, ?_, ?_⟩, by omega⟩, ⟨_, rfl, rfl⟩⟩
          · simp [hk3, hk4]; omega
          · intro t ht; simp at ht; subst ht; rfl

/-! ## The dispatcher -/

theorem lexIdentifier_advances {source : List Nat} {ic : cursor} {r : lexResult}
    (h : lexIdentifier source ic = some r) (hok : r.ok = true) :
    (∃ n, advancesBy ic r n ∧ ic.pointer + n ≤ source.length) ∧
      ∃ t, r.tok = some t ∧
        (t.kind = tokenKind.stringKind ∨ t.kind = tokenKind.identifierKind) := by
  unfold lexIdentifier at h
  cases hd : lexCharacterDelimited source ic 34 with
  | none => rw [hd] at h; simp at h
  | some r1 =>
    rw [hd] at h
    simp only at h
    by_cases hr1 : r1.ok = true
    · simp only [hr1, if_true, Option.some.injEq] at h
      obtain ⟨⟨n, ⟨hn1, hn2, hn3⟩, hn4⟩, t, ht, hk⟩ := lexCharacterDelimited_advances hd hr1
      subst h
      exact ⟨⟨n, ⟨hn1, hn2, hn3⟩, hn4⟩, t, ht, Or.inl hk⟩
    · simp only [hr1, Bool.false_eq_true, if_false] at h
      cases hc : source.get? ic.pointer with
      | none => rw [hc] at h; simp at h
      | some c =>
        rw [hc] at h
        simp only at h
        by_cases ha : isAlphabetical c = true
        · simp only [ha, Bool.not_true, Bool.false_eq_true, if_false,
            lexIdentifierLoop_takeWhile] at h
          simp only [List.length_append, List.length_singleton] at h
          rw [if_neg (by omega)] at h
          simp only [Option.some.injEq] at h
          subst h
          have hdrop := congrArg List.length (drop_of_get? hc)
          simp only [List.length_drop, List.length_cons] at hdrop
          have hle := (List.takeWhile_prefix isIdentifierChar (l := source.drop (ic.pointer + 1))).length_le
          simp only [List.length_drop] at hle
          refine ⟨⟨1 + ((source.drop (ic.pointer + 1)).takeWhile isIdentifierChar).length,
            ⟨by omega, ?_, ?_⟩, by omega⟩, ⟨_, rfl, Or.inr rfl⟩⟩
          · simp; omega
          · intro t ht; simp at ht; subst ht; rfl
        · simp [ha, noMatch] at h
          subst h; simp at hok

theorem lexNumeric_kind {source : List Nat} {ic : cursor} {r : lexResult}
    (h : lexNumeric source ic = some r) (hok : r.ok = true) :
    ∃ t, r.tok = some t ∧ t.kind = tokenKind.numericKind := by
  unfold lexNumeric at h
  cases hl : lexNumericLoop ic (source.drop ic.pointer) ic.pointer ic.loc.col false false with
  | none =>
    simp [hl, noMatch] at h
    subst h; simp at hok
  | some res =>
    obtain ⟨pointer, col⟩ := res
    simp only [hl] at h
    by_cases hp : pointer = ic.pointer
    · simp [hp, noMatch] at h
      subst h; simp at hok
    · simp only [hp, if_false, Option.some.injEq] at h
      subst h
      exact ⟨_, rfl, rfl⟩

/-- The sub-lexer that made a successful result of `lexForwardFromCursor`. -/
theorem lexForwardFromCursor_cases {source : List Nat} {ic : cursor} {r : lexResult}
    (h : lexForwardFromCursor source ic = some r) (hok : r.ok = true) :
    (lexKeyword source ic = some r) ∨ (lexSymbol source ic = some r) ∨
    (lexString source ic = some r) ∨ (lexNumeric source ic = some r) ∨
    (lexIdentifier source ic = some r) := by
  have step : ∀ (l : List Nat → cursor → Option lexResult)
      (rest : List (List Nat → cursor → Option lexResult)),
      tryLexers source ic (l :: rest) = some r →
      l source ic = some r ∨ tryLexers source ic rest = some r := by
    intro l rest h1
    rw [tryLexers] at h1
    cases hl : l source ic with
    | none => rw [hl] at h1; simp at h1
    | some r1 =>
      rw [hl] at h1
      simp only at h1
      by_cases hr1 : r1.ok = true
      · simp only [hr1, if_true, Option.some.injEq] at h1
        left
        rw [← h1]
        cases r1
        simp at hr1
        simp [hr1]
      · simp only [hr1, Bool.false_eq_true, if_false] at h1
        exact Or.inr h1
  unfold lexForwardFromCursor at h
  rcases step _ _ h with h1 | h
  · exact Or.inl h1
  rcases step _ _ h with h1 | h
  · exact Or.inr (Or.inl h1)
  rcases step _ _ h with h1 | h
  · exact Or.inr (Or.inr (Or.inl h1))
  rcases step _ _ h with h1 | h
  · exact Or.inr (Or.inr (Or.inr (Or.inl h1)))
  rcases step _ _ h with h1 | h
  · exact Or.inr (Or.inr (Or.inr (Or.inr h1)))
  · simp [tryLexers, noMatch] at h
    subst h; simp at hok

/-- Away from a newline, a successful step of the dispatcher either is the
numeric sub-lexer's, or moves pointer and column by the same amount. -/
theorem lexForwardFromCursor_advances {source : List Nat} {ic : cursor} {r : lexResult}
    (h : lexForwardFromCursor source ic = some r) (hok : r.ok = true)
    (hnl : source.get? ic.pointer ≠ some 10) :
    (∃ t, r.tok = some t ∧ t.kind = tokenKind.numericKind) ∨ ∃ n, advancesBy ic r n := by
  rcases lexForwardFromCursor_cases h hok with h1 | h1 | h1 | h1 | h1
  · exact Or.inr (lexKeyword_advances h1 hok).1
  · exact Or.inr (lexSymbol_advances h1 hok hnl).1
  · obtain ⟨⟨n, hn, _⟩, _⟩ := lexCharacterDelimited_advances h1 hok
    exact Or.inr ⟨n, hn⟩
  · exact Or.inl (lexNumeric_kind h1 hok)
  · obtain ⟨⟨n, hn, _⟩, _⟩ := lexIdentifier_advances h1 hok
    exact Or.inr ⟨n, hn⟩

/-! ## Positions of the tokens of lex -/

theorem lexLoop_acc_subset (source : List Nat) :
    ∀ (fuel : Nat) (cur : cursor) (acc ts : List token),
      lexLoop source fuel cur acc = some (Except.ok ts) → ∀ t ∈ acc, t ∈ ts := by
  intro fuel
  induction fuel with
  | zero =>
    intro cur acc ts h t ht
    rw [lexLoop] at h
    by_cases hp : cur.pointer < source.length
    · simp [hp] at h
    · simp [hp] at h
      exact h ▸ ht
  | succ fuel ih =>
    intro cur acc ts h t ht
    rw [lexLoop] at h
    by_cases hp : cur.pointer < source.length
    · simp only [hp, if_true] at h
      cases hf : lexForwardFromCursor source cur with
      | none => rw [hf] at h; simp at h
      | some r =>
        rw [hf] at h
        simp only at h
        by_cases hok : r.ok = true
        · simp only [hok, if_true] at h
          cases htok : r.tok with
          | none => rw [htok] at h; exact ih _ _ _ h t ht
          | some t2 =>
            rw [htok] at h
            exact ih _ _ _ h t (by simp [ht])
        · simp [hok] at h
    · simp [hp] at h
      exact h ▸ ht

theorem lexLoop_positions (source : List Nat) (hnl : 10 ∉ source) (ts : List token)
    (hnum : ∀ t ∈ ts, t.kind ≠ tokenKind.numericKind) :
    ∀ (fuel : Nat) (cur : cursor) (acc : List token),
      cur.loc = ⟨0, cur.pointer⟩ →
      lexLoop source fuel cur acc = some (Except.ok ts) →
      (∀ t ∈ acc, lexedAtColumn source t ∧ t.loc.col < cur.pointer) →
      acc.Pairwise (fun a b => a.loc.col < b.loc.col) →
      (∀ t ∈ ts, lexedAtColumn source t) ∧ ts.Pairwise (fun a b => a.loc.col < b.loc.col) := by
  intro fuel
  induction fuel with
  | zero =>
    intro cur acc hcur h hacc hpw
    rw [lexLoop] at h
    by_cases hp : cur.pointer < source.length
    · simp [hp] at h
    · simp [hp] at h
      subst h
      exact ⟨fun t ht => (hacc t ht).1, hpw⟩
  | succ fuel ih =>
    intro cur acc hcur h hacc hpw
    have h0 := h
    rw [lexLoop] at h
    by_cases hp : cur.pointer < source.length
    · simp only [hp, if_true] at h
      cases hf : lexForwardFromCursor source cur with
      | none => rw [hf] at h; simp at h
      | some r =>
        rw [hf] at h
        simp only at h
        by_cases hok : r.ok = true
        · simp only [hok, if_true] at h
          have hnl2 : source.get? cur.pointer ≠ some 10 := by
            intro e
            exact hnl (List.get?_mem e)
          have hadv : ∃ n, advancesBy cur r n := by
            rcases lexForwardFromCursor_advances hf hok hnl2 with ⟨t, ht, hk⟩ | hadv
            · exfalso
              rw [ht] at h
              exact hnum t (lexLoop_acc_subset source _ _ _ _ h t (by simp)) hk
            · exact hadv
          obtain ⟨n, hn, hrcur, hloc⟩ := hadv
          have hcur2 : r.cur.loc = ⟨0, r.cur.pointer⟩ := by
            rw [hrcur, hcur]
          have hptr : cur.pointer < r.cur.pointer := by rw [hrcur]; simp; omega
          cases htok : r.tok with
          | none =>
            rw [htok] at h
            apply ih r.cur acc hcur2 h _ hpw
            intro t ht
            exact ⟨(hacc t ht).1, by have := (hacc t ht).2; omega⟩
          | some t2 =>
            rw [htok] at h
            have hloc2 : t2.loc = ⟨0, cur.pointer⟩ := by rw [hloc t2 htok, hcur]
            have hcol : t2.loc.col = cur.pointer := by rw [hloc2]
            apply ih r.cur (acc ++ [t2]) hcur2 h
            · intro t ht
              rcases List.mem_append.mp ht with ht | ht
              · exact ⟨(hacc t ht).1, by have := (hacc t ht).2; omega⟩
              · simp at ht
                subst ht
                refine ⟨⟨by rw [hloc2], r, ?_, hok, htok⟩, by omega⟩
                rw [hcol]
                have : cur = ⟨cur.pointer, ⟨0, cur.pointer⟩⟩ := by
                  cases cur; simp at hcur ⊢; exact hcur
                rw [← this]; exact hf
            · rw [List.pairwise_append]
              refine ⟨hpw, by simp, ?_⟩
              intro a ha b hb
              simp at hb
              subst hb
              have := (hacc a ha).2
              omega
        · simp [hok] at h
    · simp [hp] at h
      subst h
      exact ⟨fun t ht => (hacc t ht).1, hpw⟩

set_option maxHeartbeats 1000000 in
/-- C7: on a source without a newline on which `lex` succeeds without
producing a numeric token, every token is on line 0 and is the token found at
the byte offset equal to its column, and the tokens come in increasing order
of these offsets; `select id from users;`, also with SELECT and FROM in upper
case, gives the five tokens keyword select, identifier id, keyword from,
identifier users, symbol `;` at columns 0, 7, 10, 15, 20. -/
theorem lex_columns_are_offsets :
    (∀ (source : List Nat) (ts : List token), 10 ∉ source →
      lex source = some (Except.ok ts) →
      (∀ t ∈ ts, t.kind ≠ tokenKind.numericKind) →
      (∀ t ∈ ts, lexedAtColumn source t) ∧
        ts.Pairwise (fun a b => a.loc.col < b.loc.col)) ∧
    lex (bytes "select id from users;") = some (Except.ok [
      ⟨bytes "select", tokenKind.keywordKind, ⟨0, 0⟩⟩,
      ⟨bytes "id", tokenKind.identifierKind, ⟨0, 7⟩⟩,
      ⟨bytes "from", tokenKind.keywordKind, ⟨0, 10⟩⟩,
      ⟨bytes "users", tokenKind.identifierKind, ⟨0, 15⟩⟩,
      ⟨bytes ";", tokenKind.symbolKind, ⟨0, 20⟩⟩]) ∧
    lex (bytes "SELECT id FROM users;") = some (Except.ok [
      ⟨bytes "select", tokenKind.keywordKind, ⟨0, 0⟩⟩,
      ⟨bytes "id", tokenKind.identifierKind, ⟨0, 7⟩⟩,
      ⟨bytes "from", tokenKind.keywordKind, ⟨0, 10⟩⟩,
      ⟨bytes "users", tokenKind.identifierKind, ⟨0, 15⟩⟩,
      ⟨bytes ";", tokenKind.symbolKind, ⟨0, 20⟩⟩]) := by
  refine ⟨?_, by decide, by decide⟩
  intro source ts hnl hlex hnum
  exact lexLoop_positions source hnl ts hnum source.length ⟨0, ⟨0, 0⟩⟩ [] rfl hlex
    (by simp) (by simp)

theorem lex_columns_are_offsets_witness :
    (∀ t ∈ [(⟨bytes "select", tokenKind.keywordKind, ⟨0, 0⟩⟩ : token),
        ⟨bytes "a", tokenKind.identifierKind, ⟨0, 7⟩⟩],
      lexedAtColumn (bytes "select a") t) ∧
    [(⟨bytes "select", tokenKind.keywordKind, ⟨0, 0⟩⟩ : token),
        ⟨bytes "a", tokenKind.identifierKind, ⟨0, 7⟩⟩].Pairwise
      (fun a b => a.loc.col < b.loc.col) :=
  lex_columns_are_offsets.1 (bytes "select a")
    [⟨bytes "select", tokenKind.keywordKind, ⟨0, 0⟩⟩, ⟨bytes "a", tokenKind.identifierKind, ⟨0, 7⟩⟩]
    (by decide) (by decide) (by decide)

/-! ## Numeric tokens and the cell codec -/

theorem lexNumericLoop_chars (ic : cursor) :
    ∀ (n : Nat) (rest : List Nat), rest.length ≤ n →
      ∀ (pointer col : Nat) (pf ef : Bool) (pointer2 col2 : Nat), ic.pointer < pointer →
        lexNumericLoop ic rest pointer col pf ef = some (pointer2, col2) →
        ∃ k, k ≤ rest.length ∧ pointer2 = pointer + k ∧
          ∀ b ∈ rest.take k, isNumericLiteralChar b = true := by
  intro n
  induction n with
  | zero =>
    intro rest hr pointer col pf ef pointer2 col2 _ h
    have : rest = [] := List.length_eq_zero.mp (by omega)
    subst this
    simp [lexNumericLoop] at h
    exact ⟨0, by simp, by omega, by simp⟩
  | succ n ih =>
    intro rest hr pointer col pf ef pointer2 col2 hp h
    cases rest with
    | nil =>
      simp [lexNumericLoop] at h
      exact ⟨0, by simp, by omega, by simp⟩
    | cons c rest1 =>
      simp only [List.length_cons] at hr
      by_cases hd : isNumeric c = true
      · rw [lexNumericLoop_digit ic c _ _ _ _ _ hp hd] at h
        obtain ⟨k, hk1, hk2, hk3⟩ := ih rest1 (by omega) _ _ _ _ _ _ (by omega) h
        refine ⟨k + 1, by simp; omega, by omega, ?_⟩
        intro b hb
        simp only [List.take_succ_cons, List.mem_cons] at hb
        rcases hb with hb | hb
        · subst hb; simp [isNumericLiteralChar, hd]
        · exact hk3 b hb
      · by_cases h46 : c = 46
        · subst h46
          rw [lexNumericLoop_period ic _ _ _ _ _ hp] at h
          by_cases hpf : pf = true
          · simp [hpf] at h
          · rw [if_neg hpf] at h
            obtain ⟨k, hk1, hk2, hk3⟩ := ih rest1 (by omega) _ _ _ _ _ _ (by omega) h
            refine ⟨k + 1, by simp; omega, by omega, ?_⟩
            intro b hb
            simp only [List.take_succ_cons, List.mem_cons] at hb
            rcases hb with hb | hb
            · subst hb; decide
            · exact hk3 b hb
        · by_cases h101 : c = 101
          · subst h101
            rw [lexNumericLoop_exp ic _ _ _ _ _ hp] at h
            by_cases hef : ef = true
            · simp [hef] at h
            · rw [if_neg hef] at h
              cases rest1 with
              | nil => simp at h
              | cons c2 rest2 =>
                simp only [List.length_cons] at hr
                simp only at h
                by_cases hs : c2 = 45 ∨ c2 = 43
                · rw [if_pos hs] at h
                  obtain ⟨k, hk1, hk2, hk3⟩ := ih rest2 (by omega) _ _ _ _ _ _ (by omega) h
                  refine ⟨k + 2, by simp; omega, by omega, ?_⟩
                  intro b hb
                  simp only [List.take_succ_cons, List.mem_cons] at hb
                  rcases hb with hb | hb | hb
                  · subst hb; decide
                  · subst hb
                    rcases hs with hs | hs <;> subst hs <;> decide
                  · exact hk3 b hb
                · rw [if_neg hs] at h
                  obtain ⟨k, hk1, hk2, hk3⟩ :=
                    ih (c2 :: rest2) (by simp; omega) _ _ _ _ _ _ (by omega) h
                  refine ⟨k + 1, by simp at hk1 ⊢; omega, by omega, ?_⟩
                  intro b hb
                  simp only [List.take_succ_cons, List.mem_cons] at hb
                  rcases hb with hb | hb
                  · subst hb; decide
                  · exact hk3 b hb
          · have hd2 : isNumeric c = false := by simpa using hd
            rw [lexNumericLoop_other ic c _ _ _ _ _ hp hd2 h46 h101] at h
            simp at h
            exact ⟨0, by simp, by omega, by simp⟩

theorem lexNumeric_value {source : List Nat} {ic : cursor} {r : lexResult} {t : token}
    (h : lexNumeric source ic = some r) (ht : r.tok = some t) : numericShaped t.value := by
  unfold lexNumeric at h
  cases hl : lexNumericLoop ic (source.drop ic.pointer) ic.pointer ic.loc.col false false with
  | none =>
    simp [hl, noMatch] at h
    subst h; simp at ht
  | some res =>
    obtain ⟨pointer, col⟩ := res
    simp only [hl] at h
    by_cases hp : pointer = ic.pointer
    · simp [hp, noMatch] at h
      subst h; simp at ht
    · simp only [hp, if_false, Option.some.injEq] at h
      subst h
      simp at ht
      subst ht
      simp only [slice]
      cases hd : source.drop ic.pointer with
      | nil =>
        rw [hd] at hl
        simp [lexNumericLoop] at hl
        omega
      | cons c rest =>
        rw [hd, lexNumericLoop_first] at hl
        by_cases hc : isNumeric c = true ∨ c = 46
        · rw [if_pos hc] at hl
          obtain ⟨k, hk1, hk2, hk3⟩ :=
            lexNumericLoop_chars ic rest.length rest (Nat.le_refl _) _ _ _ _ _ _ (by omega) hl
          refine ⟨c, rest.take k, ?_, hc, hk3⟩
          rw [show pointer - ic.pointer = k + 1 by omega, List.take_succ_cons]
        · simp [hc] at hl

/-- A numeric token returned by the dispatcher is the numeric sub-lexer's. -/
theorem lexForwardFromCursor_numeric {source : List Nat} {ic : cursor} {r : lexResult}
    {t : token} (h : lexForwardFromCursor source ic = some r) (hok : r.ok = true)
    (ht : r.tok = some t) (hk : t.kind = tokenKind.numericKind) :
    lexNumeric source ic = some r := by
  rcases lexForwardFromCursor_cases h hok with h1 | h1 | h1 | h1 | h1
  · have := (lexKeyword_advances h1 hok).2 t ht
    rw [hk] at this; exact absurd this (by decide)
  · by_cases hnl : source.get? ic.pointer = some 10
    · unfold lexSymbol at h1
      rw [hnl] at h1
      simp at h1
      subst h1
      simp at ht
    · have := (lexSymbol_advances h1 hok hnl).2 t ht
      rw [hk] at this; exact absurd this (by decide)
  · obtain ⟨_, t2, ht2, hk2⟩ := lexCharacterDelimited_advances h1 hok
    rw [ht] at ht2
    simp at ht2
    subst ht2
    rw [hk] at hk2; exact absurd hk2 (by decide)
  · exact h1
  · obtain ⟨_, t2, ht2, hk2⟩ := lexIdentifier_advances h1 hok
    rw [ht] at ht2
    simp at ht2
    subst ht2
    rw [hk] at hk2
    rcases hk2 with hk2 | hk2 <;> exact absurd hk2 (by decide)

/-- Every token of the result of `lex` was in the accumulator or was returned
by the dispatcher at some cursor. -/
theorem lexLoop_tokens (source : List Nat) (P : token → Prop)
    (hP : ∀ (cur : cursor) (r : lexResult) (t : token),
      lexForwardFromCursor source cur = some r → r.ok = true → r.tok = some t → P t) :
    ∀ (fuel : Nat) (cur : cursor) (acc ts : List token),
      lexLoop source fuel cur acc = some (Except.ok ts) → (∀ t ∈ acc, P t) →
      ∀ t ∈ ts, P t := by
  intro fuel
  induction fuel with
  | zero =>
    intro cur acc ts h hacc
    rw [lexLoop] at h
    by_cases hp : cur.pointer < source.length
    · simp [hp] at h
    · simp [hp] at h
      exact h ▸ hacc
  | succ fuel ih =>
    intro cur acc ts h hacc
    rw [lexLoop] at h
    by_cases hp : cur.pointer < source.length
    · simp only [hp, if_true] at h
      cases hf : lexForwardFromCursor source cur with
      | none => rw [hf] at h; simp at h
      | some r =>
        rw [hf] at h
        simp only at h
        by_cases hok : r.ok = true
        · simp only [hok, if_true] at h
          cases htok : r.tok with
          | none => rw [htok] at h; exact ih _ _ _ h hacc
          | some t2 =>
            rw [htok] at h
            apply ih _ _ _ h
            intro t ht
            rcases List.mem_append.mp ht with ht | ht
            · exact hacc t ht
            · simp at ht
              subst ht
              exact hP cur r t hf hok htok
        · simp [hok] at h
    · simp [hp] at h
      exact h ▸ hacc

theorem tokenToCell_numericShaped {t : token} (hk : t.kind = tokenKind.numericKind)
    (hv : numericShaped t.value) :
    tokenToCell t ≠ none ↔
      (∀ b ∈ t.value, isNumeric b = true) ∧ decimalValue t.value < 2 ^ 63 := by
  obtain ⟨c, rest, hv, hc, _⟩ := hv
  have h45 : c ≠ 45 := by
    rcases hc with hc | hc
    · have : 48 ≤ c ∧ c ≤ 57 := by simpa [isNumeric] using hc
      omega
    · omega
  have h43 : c ≠ 43 := by
    rcases hc with hc | hc
    · have : 48 ≤ c ∧ c ≤ 57 := by simpa [isNumeric] using hc
      omega
    · omega
  have hatoi : atoi t.value =
      if t.value ≠ [] ∧ t.value.all isNumeric = true ∧ decimalValue t.value < 2 ^ 63 then
        some (decimalValue t.value : Int)
      else none := by
    rw [hv]
    unfold atoi
    split
    · rename_i heq; simp at heq; exact absurd heq.1 h45
    · rename_i heq; simp at heq; exact absurd heq.1 h43
    · rfl
  unfold tokenToCell
  rw [if_pos hk, hatoi]
  by_cases hcond : t.value ≠ [] ∧ t.value.all isNumeric = true ∧ decimalValue t.value < 2 ^ 63
  · rw [if_pos hcond]
    simp only [ne_eq, reduceCtorEq, not_false_eq_true, true_iff]
    exact ⟨by simpa using hcond.2.1, hcond.2.2⟩
  · rw [if_neg hcond]
    simp only [ne_eq, not_true_eq_false, false_iff]
    intro hcon
    apply hcond
    exact ⟨by rw [hv]; simp, by simpa using hcon.1, hcon.2⟩

end Gogn
namespace Gogn

/-- C10 (as stated, refuted): `lex` succeeds on `1.5` with one numeric token,
whose value is not integer text, and `tokenToCell` on it panics. -/
theorem lex_numeric_not_integer_text :
    lex (bytes "1.5") = some (Except.ok [⟨bytes "1.5", tokenKind.numericKind, ⟨0, 0⟩⟩]) ∧
    tokenToCell ⟨bytes "1.5", tokenKind.numericKind, ⟨0, 0⟩⟩ = none := by
  decide

/-- C10 (amended): on every source on which `lex` succeeds, the value of every
numeric token begins with a digit or a decimal point and goes on with digits,
decimal points, exponent markers and signs only; `tokenToCell` on such a token
avoids its panic exactly when the value is made of decimal digits only and
denotes a number below 2^63. -/
theorem lex_numeric_tokens_shape (source : List Nat) (ts : List token)
    (hlex : lex source = some (Except.ok ts)) (t : token) (ht : t ∈ ts)
    (hk : t.kind = tokenKind.numericKind) :
    numericShaped t.value ∧
      (tokenToCell t ≠ none ↔
        (∀ b ∈ t.value, isNumeric b = true) ∧ decimalValue t.value < 2 ^ 63) := by
  have hshape : t.kind = tokenKind.numericKind → numericShaped t.value := by
    apply lexLoop_tokens source (fun t => t.kind = tokenKind.numericKind → numericShaped t.value)
      _ source.length ⟨0, ⟨0, 0⟩⟩ [] ts hlex (by simp) t ht
    intro cur r t2 hf hok htok hk2
    exact lexNumeric_value (lexForwardFromCursor_numeric hf hok htok hk2) htok
  exact ⟨hshape hk, tokenToCell_numericShaped hk (hshape hk)⟩

end Gogn
namespace Gogn

theorem lex_numeric_tokens_shape_witness :
    numericShaped (token.value ⟨bytes "105", tokenKind.numericKind, ⟨0, 0⟩⟩) ∧
      (tokenToCell ⟨bytes "105", tokenKind.numericKind, ⟨0, 0⟩⟩ ≠ none ↔
        (∀ b ∈ token.value ⟨bytes "105", tokenKind.numericKind, ⟨0, 0⟩⟩, isNumeric b = true) ∧
          decimalValue (token.value ⟨bytes "105", tokenKind.numericKind, ⟨0, 0⟩⟩) < 2 ^ 63) :=
  lex_numeric_tokens_shape (bytes "105") [⟨bytes "105", tokenKind.numericKind, ⟨0, 0⟩⟩]
    (by decide) ⟨bytes "105", tokenKind.numericKind, ⟨0, 0⟩⟩ (by decide) (by decide)

/-! ## The tokenizer returns -/

theorem lexNumeric_pointer {source : List Nat} {ic : cursor} {r : lexResult}
    (h : lexNumeric source ic = some r) (hok : r.ok = true) : ic.pointer < r.cur.pointer := by
  unfold lexNumeric at h
  cases hl : lexNumericLoop ic (source.drop ic.pointer) ic.pointer ic.loc.col false false with
  | none =>
    simp [hl, noMatch] at h
    subst h; simp at hok
  | some res =>
    obtain ⟨pointer, col⟩ := res
    simp only [hl] at h
    by_cases hp : pointer = ic.pointer
    · simp [hp, noMatch] at h
      subst h; simp at hok
    · simp only [hp, if_false, Option.some.injEq] at h
      subst h
      cases hd : source.drop ic.pointer with
      | nil =>
        rw [hd] at hl
        simp [lexNumericLoop] at hl
        omega
      | cons c rest =>
        rw [hd, lexNumericLoop_first] at hl
        by_cases hc : isNumeric c = true ∨ c = 46
        · rw [if_pos hc] at hl
          obtain ⟨k, _, hk2, _⟩ :=
            lexNumericLoop_chars ic rest.length rest (Nat.le_refl _) _ _ _ _ _ _ (by omega) hl
          simp only
          omega
        · simp [hc] at hl

/-- Inside the source the dispatcher does not panic, and a successful step
moves the pointer forward. -/
theorem lexForwardFromCursor_returns (source : List Nat) (ic : cursor)
    (hp : ic.pointer < source.length) :
    ∃ r, lexForwardFromCursor source ic = some r ∧ (r.ok = true → ic.pointer < r.cur.pointer) := by
  obtain ⟨c, hc⟩ : ∃ c, source.get? ic.pointer = some c :=
    ⟨source.get ⟨ic.pointer, hp⟩, List.get?_eq_get hp⟩
  have hkw : ∃ r, lexKeyword source ic = some r := by
    obtain ⟨m, hm, _⟩ := longestMatch_spec validKeywords (by decide) (by decide) source ic
    unfold lexKeyword
    rw [hm]
    by_cases hm0 : m = [] <;> simp [hm0]
  have hsy : ∃ r, lexSymbol source ic = some r := by
    obtain ⟨m, hm, _⟩ := longestMatch_spec validSymbols (by decide) (by decide) source ic
    unfold lexSymbol
    rw [hc, hm]
    by_cases h10 : c = 10
    · simp [h10]
    · by_cases hws : c = 9 ∨ c = 32
      · simp [h10, hws]
      · by_cases hm0 : m = [] <;> simp [h10, hws, hm0]
  have hdl : ∀ q, ∃ r, lexCharacterDelimited source ic q = some r := by
    intro q
    unfold lexCharacterDelimited
    rw [if_neg (by omega), drop_of_get? hc]
    by_cases hq : c ≠ q
    · simp [hq]
    · simp only [hq, if_false]
      cases lexCharacterDelimitedLoop q (source.drop (ic.pointer + 1)) (ic.pointer + 1)
          (ic.loc.col + 1) [] with
      | none => simp
      | some res => obtain ⟨v, p, cl⟩ := res; simp
  have hnu : ∃ r, lexNumeric source ic = some r := by
    unfold lexNumeric
    cases lexNumericLoop ic (source.drop ic.pointer) ic.pointer ic.loc.col false false with
    | none => simp
    | some res =>
      obtain ⟨p, cl⟩ := res
      by_cases hpp : p = ic.pointer <;> simp [hpp]
  have hid : ∃ r, lexIdentifier source ic = some r := by
    obtain ⟨r1, hr1⟩ := hdl 34
    unfold lexIdentifier
    rw [hr1, hc]
    by_cases hok : r1.ok = true
    · simp [hok]
    · by_cases ha : isAlphabetical c = true
      · simp only [hok, ha, lexIdentifierLoop_takeWhile]
        simp
      · simp [hok, ha]
  obtain ⟨r1, h1⟩ := hkw
  obtain ⟨r2, h2⟩ := hsy
  obtain ⟨r3, h3⟩ := hdl 39
  obtain ⟨r4, h4⟩ := hnu
  obtain ⟨r5, h5⟩ := hid
  have hex : ∃ r, lexForwardFromCursor source ic = some r := by
    unfold lexForwardFromCursor
    simp only [tryLexers, h1, h2, lexString, h3, h4, h5]
    by_cases o1 : r1.ok = true
    · simp [o1]
    by_cases o2 : r2.ok = true
    · simp [o1, o2]
    by_cases o3 : r3.ok = true
    · simp [o1, o2, o3]
    by_cases o4 : r4.ok = true
    · simp [o1, o2, o3, o4]
    by_cases o5 : r5.ok = true
    · simp [o1, o2, o3, o4, o5]
    · simp [o1, o2, o3, o4, o5]
  obtain ⟨r, hr⟩ := hex
  refine ⟨r, hr, ?_⟩
  intro hok
  rcases lexForwardFromCursor_cases hr hok with e | e | e | e | e
  · obtain ⟨⟨n, hn, hcur, _⟩, _⟩ := lexKeyword_advances e hok
    rw [hcur]; simp; omega
  · by_cases hnl : source.get? ic.pointer = some 10
    · unfold lexSymbol at e
      rw [hnl] at e
      simp at e
      subst e
      simp
    · obtain ⟨⟨n, hn, hcur, _⟩, _⟩ := lexSymbol_advances e hok hnl
      rw [hcur]; simp; omega
  · obtain ⟨⟨n, ⟨hn, hcur, _⟩, _⟩, _⟩ := lexCharacterDelimited_advances e hok
    rw [hcur]; simp; omega
  · exact lexNumeric_pointer e hok
  · obtain ⟨⟨n, ⟨hn, hcur, _⟩, _⟩, _⟩ := lexIdentifier_advances e hok
    rw [hcur]; simp; omega

theorem lexLoop_returns (source : List Nat) :
    ∀ (fuel : Nat) (cur : cursor) (acc : List token),
      source.length - cur.pointer ≤ fuel → lexLoop source fuel cur acc ≠ none := by
  intro fuel
  induction fuel with
  | zero =>
    intro cur acc hf
    rw [lexLoop, if_neg (by omega)]
    simp
  | succ fuel ih =>
    intro cur acc hf
    rw [lexLoop]
    by_cases hp : cur.pointer < source.length
    · rw [if_pos hp]
      obtain ⟨r, hr, hadv⟩ := lexForwardFromCursor_returns source cur hp
      rw [hr]
      simp only
      by_cases hok : r.ok = true
      · have := hadv hok
        rw [if_pos hok]
        cases r.tok with
        | none => exact ih _ _ (by omega)
        | some t => exact ih _ _ (by omega)
      · rw [if_neg hok]; simp
    · rw [if_neg hp]; simp

/-- The tokenizer returns on every source, with tokens or with its error: no
sub-lexer panics and `len(source)` iterations are enough. -/
theorem lex_returns (source : List Nat) : lex source ≠ none :=
  lexLoop_returns source source.length ⟨0, ⟨0, 0⟩⟩ [] (by simp)

/-! ## The integer cell: encode and decode -/

theorem decimalValue_snoc (ds : List Nat) (d : Nat) :
    decimalValue (ds ++ [d]) = decimalValue ds * 10 + (d - 48) := by
  simp [decimalValue, List.foldl_append]

theorem decimalDigitsFuel_spec :
    ∀ (fuel n : Nat), n ≤ fuel →
      decimalDigitsFuel fuel n ≠ [] ∧ (∀ d ∈ decimalDigitsFuel fuel n, isNumeric d = true) ∧
        decimalValue (decimalDigitsFuel fuel n) = n := by
  intro fuel
  induction fuel with
  | zero =>
    intro n hn
    have : n = 0 := by omega
    subst this
    simp [decimalDigitsFuel, isNumeric, decimalValue]
  | succ fuel ih =>
    intro n hn
    rw [decimalDigitsFuel]
    by_cases h10 : n < 10
    · rw [if_pos h10]
      refine ⟨by simp, ?_, by simp [decimalValue]⟩
      intro d hd
      simp at hd
      subst hd
      simp [isNumeric]; omega
    · rw [if_neg h10]
      obtain ⟨_, h2, h3⟩ := ih (n / 10) (by omega)
      refine ⟨by simp, ?_, ?_⟩
      · intro d hd
        rcases List.mem_append.mp hd with hd | hd
        · exact h2 d hd
        · simp at hd
          subst hd
          simp [isNumeric]; omega
      · rw [decimalValue_snoc, h3]
        omega

theorem atoi_digits {ds : List Nat} (hne : ds ≠ []) (hd : ∀ d ∈ ds, isNumeric d = true) :
    atoi ds = if decimalValue ds < 2 ^ 63 then some (decimalValue ds : Int) else none := by
  cases ds with
  | nil => exact absurd rfl hne
  | cons c rest =>
    have hc : 48 ≤ c ∧ c ≤ 57 := by simpa [isNumeric] using hd c (by simp)
    have hall : (c :: rest).all isNumeric = true := by simpa using hd
    unfold atoi
    split
    · rename_i heq; simp at heq; omega
    · rename_i heq; simp at heq; omega
    · simp only [ne_eq, reduceCtorEq, not_false_eq_true, hall, true_and]

theorem atoi_decimalText (n : Int) (hlo : -2 ^ 63 ≤ n) (hhi : n < 2 ^ 63) :
    atoi (decimalText n) = some n := by
  cases n with
  | ofNat m =>
    obtain ⟨h1, h2, h3⟩ := decimalDigitsFuel_spec m m (Nat.le_refl _)
    have hm : m < 2 ^ 63 := by
      have : (m : Int) < 2 ^ 63 := hhi
      exact_mod_cast this
    simp only [decimalText, decimalDigits]
    rw [atoi_digits h1 h2, h3, if_pos hm]
    rfl
  | negSucc m =>
    obtain ⟨h1, h2, h3⟩ := decimalDigitsFuel_spec (m + 1) (m + 1) (Nat.le_refl _)
    have hm : m + 1 ≤ 2 ^ 63 := by
      have : -(2 : Int) ^ 63 ≤ Int.negSucc m := hlo
      rw [Int.negSucc_eq] at this
      have h4 : ((m : Int) + 1) ≤ 2 ^ 63 := by linarith
      exact_mod_cast h4
    have hall : (decimalDigitsFuel (m + 1) (m + 1)).all isNumeric = true := by simpa using h2
    simp only [decimalText, decimalDigits, atoi]
    rw [if_pos ⟨h1, hall, by rw [h3]; exact hm⟩, h3, Int.negSucc_eq]
    simp

/-- C11: for every 32-bit signed integer `n`, `tokenToCell` on the numeric
token whose value is the decimal text of `n` returns a cell of exactly four
bytes that hold `n` in big-endian two's-complement order, and `AsInt` on that
cell returns `n`. -/
theorem tokenToCell_AsInt_roundtrip (n : Int) (hlo : -2 ^ 31 ≤ n) (hhi : n < 2 ^ 31)
    (loc : location) :
    ∃ b0 b1 b2 b3 : Nat,
      tokenToCell ⟨decimalText n, tokenKind.numericKind, loc⟩ = some [b0, b1, b2, b3] ∧
      b0 < 256 ∧ b1 < 256 ∧ b2 < 256 ∧ b3 < 256 ∧
      ((b0 * 2 ^ 24 + b1 * 2 ^ 16 + b2 * 2 ^ 8 + b3 : Nat) : Int) = n % 2 ^ 32 ∧
      AsInt [b0, b1, b2, b3] = some n := by
  have hlo2 : -(2 : Int) ^ 63 ≤ n := by
    have : -(2 : Int) ^ 63 ≤ -2 ^ 31 := by norm_num
    linarith
  have hhi2 : n < (2 : Int) ^ 63 := by
    have : (2 : Int) ^ 31 ≤ 2 ^ 63 := by norm_num
    linarith
  have hat := atoi_decimalText n hlo2 hhi2
  norm_num at hlo hhi
  have h32 : toInt32 n = n := by
    unfold toInt32
    norm_num
    omega
  obtain ⟨u, hu⟩ : ∃ u : Nat, (u : Int) = n % 2 ^ 32 :=
    ⟨(n % 2 ^ 32).toNat, Int.toNat_of_nonneg (Int.emod_nonneg _ (by norm_num))⟩
  have hult : u < 4294967296 := by
    have : n % 2 ^ 32 < 2 ^ 32 := Int.emod_lt_of_pos _ (by norm_num)
    norm_num at this hu
    omega
  have hcell : tokenToCell ⟨decimalText n, tokenKind.numericKind, loc⟩ =
      some [u / 2 ^ 24 % 256, u / 2 ^ 16 % 256, u / 2 ^ 8 % 256, u % 256] := by
    simp only [tokenToCell, if_true, hat, h32, bigEndianInt32, ← hu, Int.toNat_ofNat]
  refine ⟨_, _, _, _, hcell, Nat.mod_lt _ (by norm_num), Nat.mod_lt _ (by norm_num),
    Nat.mod_lt _ (by norm_num), Nat.mod_lt _ (by norm_num), ?_, ?_⟩
  · rw [← hu]
    norm_num
    omega
  · have hsum : u / 2 ^ 24 % 256 * 2 ^ 24 + u / 2 ^ 16 % 256 * 2 ^ 16 + u / 2 ^ 8 % 256 * 2 ^ 8 +
        u % 256 = u := by
      norm_num
      omega
    simp only [AsInt, hsum, hu]
    congr 1
    unfold toInt32
    norm_num
    omega

theorem tokenToCell_AsInt_roundtrip_witness :
    ∃ b0 b1 b2 b3 : Nat,
      tokenToCell ⟨decimalText (-1), tokenKind.numericKind, ⟨0, 0⟩⟩ = some [b0, b1, b2, b3] ∧
      b0 < 256 ∧ b1 < 256 ∧ b2 < 256 ∧ b3 < 256 ∧
      ((b0 * 2 ^ 24 + b1 * 2 ^ 16 + b2 * 2 ^ 8 + b3 : Nat) : Int) = -1 % 2 ^ 32 ∧
      AsInt [b0, b1, b2, b3] = some (-1) :=
  tokenToCell_AsInt_roundtrip (-1) (by norm_num) (by norm_num) ⟨0, 0⟩

/-! ## CreateTable -/

theorem MemoryBackend.ext_tables {a b : MemoryBackend} (h : ∀ k, a.tables k = b.tables k) :
    a = b := by
  cases a; cases b
  simp only [MemoryBackend.mk.injEq]
  exact funext h

theorem MemoryBackend.set_same (mb : MemoryBackend) (name : List Nat) (t : table) :
    (mb.set name t).tables name = some t := by
  simp [MemoryBackend.set]

theorem MemoryBackend.set_other (mb : MemoryBackend) (name : List Nat) (t : table)
    (k : List Nat) (hk : k ≠ name) : (mb.set name t).tables k = mb.tables k := by
  simp [MemoryBackend.set, hk]

theorem createTableLoop_valid :
    ∀ (cols : List columnDefinition) (t : table), (∀ c ∈ cols, validDatatype c) →
      createTableLoop cols t =
        (⟨t.columns ++ cols.map (fun c => c.name.value),
          t.columnTypes ++ cols.map columnTypeOf, t.rows⟩, none) := by
  intro cols
  induction cols with
  | nil => intro t _; simp [createTableLoop]
  | cons c rest ih =>
    intro t h
    have hc := h c (by simp)
    have hrest : ∀ c2 ∈ rest, validDatatype c2 := fun c2 h2 => h c2 (by simp [h2])
    rw [createTableLoop]
    by_cases hint : c.datatype.value = bytes "int"
    · simp only [hint, if_true]
      rw [ih _ hrest]
      simp [columnTypeOf, hint]
    · have htext : c.datatype.value = bytes "text" := by
        rcases hc with h1 | h1
        · exact absurd h1 hint
        · exact h1
      have hne : bytes "text" ≠ bytes "int" := by decide
      rw [if_neg hint, if_pos htext, ih _ hrest]
      simp [columnTypeOf, htext, hne]

theorem createTableLoop_invalid :
    ∀ (cols : List columnDefinition) (t : table), (∃ c ∈ cols, ¬ validDatatype c) →
      t.columnTypes.length ≤ t.columns.length →
      (createTableLoop cols t).2 = some backendError.ErrInvalidDatatype ∧
        (createTableLoop cols t).1.columnTypes.length < (createTableLoop cols t).1.columns.length ∧
        (createTableLoop cols t).1.rows = t.rows := by
  intro cols
  induction cols with
  | nil => intro t h; simp at h
  | cons c rest ih =>
    intro t h hlen
    rw [createTableLoop]
    by_cases hint : c.datatype.value = bytes "int"
    · simp only [hint, if_true]
      have hrest : ∃ c2 ∈ rest, ¬ validDatatype c2 := by
        obtain ⟨c2, hc2, hbad⟩ := h
        simp at hc2
        rcases hc2 with rfl | hc2
        · exact absurd (Or.inl hint) hbad
        · exact ⟨c2, hc2, hbad⟩
      exact ih _ hrest (by simp; omega)
    · by_cases htext : c.datatype.value = bytes "text"
      · simp only [hint, if_false, htext, if_true]
        have hrest : ∃ c2 ∈ rest, ¬ validDatatype c2 := by
          obtain ⟨c2, hc2, hbad⟩ := h
          simp at hc2
          rcases hc2 with rfl | hc2
          · exact absurd (Or.inr htext) hbad
          · exact ⟨c2, hc2, hbad⟩
        exact ih _ hrest (by simp; omega)
      · simp only [hint, htext, if_false]
        simp; omega

/-- C12: `CREATE TABLE t (a BOOL)` on the empty store returns
`ErrInvalidDatatype` and leaves a table named `t` in the store, with the
column `a` and no column type; on every store, a statement with a column whose
type is neither `int` nor `text` returns that error and leaves under its name
a table with more column names than column types. -/
theorem CreateTable_invalid_leaves_table :
    (CreateTable NewMemoryBackend
        ⟨⟨bytes "t", tokenKind.identifierKind, ⟨0, 13⟩⟩,
          some [⟨⟨bytes "a", tokenKind.identifierKind, ⟨0, 16⟩⟩,
            ⟨bytes "bool", tokenKind.identifierKind, ⟨0, 18⟩⟩⟩]⟩).2 =
      some backendError.ErrInvalidDatatype ∧
    (CreateTable NewMemoryBackend
        ⟨⟨bytes "t", tokenKind.identifierKind, ⟨0, 13⟩⟩,
          some [⟨⟨bytes "a", tokenKind.identifierKind, ⟨0, 16⟩⟩,
            ⟨bytes "bool", tokenKind.identifierKind, ⟨0, 18⟩⟩⟩]⟩).1.tables (bytes "t") =
      some ⟨[bytes "a"], [], []⟩ ∧
    NewMemoryBackend.tables (bytes "t") = none ∧
    ∀ (mb : MemoryBackend) (crt : CreateTableStatement) (cols : List columnDefinition),
      crt.cols = some cols → (∃ c ∈ cols, ¬ validDatatype c) →
      (CreateTable mb crt).2 = some backendError.ErrInvalidDatatype ∧
      ∃ t, (CreateTable mb crt).1.tables crt.name.value = some t ∧
        t.columnTypes.length < t.columns.length ∧ t.rows = [] := by
  refine ⟨by decide, by decide, rfl, ?_⟩
  intro mb crt cols hcols hbad
  obtain ⟨h1, h2, h3⟩ := createTableLoop_invalid cols ⟨[], [], []⟩ hbad (by simp)
  simp only [CreateTable, hcols]
  exact ⟨h1, _, MemoryBackend.set_same _ _ _, h2, h3⟩

/-- C13: when every declared type is `int` or `text`, or there is no column
list, `CreateTable` succeeds; afterwards the statement's name maps to the
table with the declared column names and types in declaration order and no
rows, whatever was under that name before, and every other name maps to what
it mapped to before. -/
theorem CreateTable_valid (mb : MemoryBackend) (crt : CreateTableStatement)
    (hvalid : ∀ cols, crt.cols = some cols → ∀ c ∈ cols, validDatatype c) :
    (CreateTable mb crt).2 = none ∧
    (CreateTable mb crt).1.tables crt.name.value =
      some ⟨(crt.cols.getD []).map (fun c => c.name.value),
        (crt.cols.getD []).map columnTypeOf, []⟩ ∧
    ∀ k, k ≠ crt.name.value → (CreateTable mb crt).1.tables k = mb.tables k := by
  cases hc : crt.cols with
  | none =>
    simp only [CreateTable, hc]
    exact ⟨trivial, by simp [MemoryBackend.set], fun k hk => MemoryBackend.set_other _ _ _ k hk⟩
  | some cols =>
    simp only [CreateTable, hc, createTableLoop_valid cols _ (hvalid cols hc)]
    exact ⟨trivial, by simp [MemoryBackend.set], fun k hk => MemoryBackend.set_other _ _ _ k hk⟩

theorem CreateTable_valid_witness :
    (CreateTable (NewMemoryBackend.set (bytes "u") ⟨[bytes "x"], [ColumnType.IntType], [[[0, 0, 0, 1]]]⟩)
        ⟨⟨bytes "u", tokenKind.identifierKind, ⟨0, 13⟩⟩,
          some [⟨⟨bytes "id", tokenKind.identifierKind, ⟨0, 16⟩⟩,
              ⟨bytes "int", tokenKind.keywordKind, ⟨0, 19⟩⟩⟩,
            ⟨⟨bytes "name", tokenKind.identifierKind, ⟨0, 24⟩⟩,
              ⟨bytes "text", tokenKind.keywordKind, ⟨0, 29⟩⟩⟩]⟩).1.tables (bytes "u") =
      some ⟨[bytes "id", bytes "name"], [ColumnType.IntType, ColumnType.TextType], []⟩ :=
  (CreateTable_valid (NewMemoryBackend.set (bytes "u") ⟨[bytes "x"], [ColumnType.IntType], [[[0, 0, 0, 1]]]⟩)
    ⟨⟨bytes "u", tokenKind.identifierKind, ⟨0, 13⟩⟩,
      some [⟨⟨bytes "id", tokenKind.identifierKind, ⟨0, 16⟩⟩,
          ⟨bytes "int", tokenKind.keywordKind, ⟨0, 19⟩⟩⟩,
        ⟨⟨bytes "name", tokenKind.identifierKind, ⟨0, 24⟩⟩,
          ⟨bytes "text", tokenKind.keywordKind, ⟨0, 29⟩⟩⟩]⟩
    (by
      intro cols hcols c hc
      simp only [Option.some.injEq] at hcols
      subst hcols
      simp only [List.mem_cons, List.mem_singleton, List.not_mem_nil, or_false] at hc
      rcases hc with rfl | rfl
      · exact Or.inl rfl
      · exact Or.inr rfl)).2.1

/-! ## Insert -/

theorem atoi_integerText (s : List Nat) :
    atoi s ≠ none ↔
      isIntegerText s = true ∧ -2 ^ 63 ≤ integerValue s ∧ integerValue s < 2 ^ 63 := by
  unfold atoi isIntegerText integerValue
  split
  · rename_i ds
    by_cases h : ds ≠ [] ∧ ds.all isNumeric = true ∧ decimalValue ds ≤ 2 ^ 63
    · rw [if_pos h]
      obtain ⟨h1, h2, h3⟩ := h
      have h4 : ((decimalValue ds : Nat) : Int) ≤ 2 ^ 63 := by exact_mod_cast h3
      have h5 : (0 : Int) ≤ (decimalValue ds : Nat) := Int.ofNat_nonneg _
      simp [h1, h2]
      constructor <;> linarith
    · rw [if_neg h]
      simp only [ne_eq, not_true_eq_false, false_iff]
      intro ⟨h1, h2, _⟩
      apply h
      simp only [Bool.and_eq_true, decide_eq_true_eq] at h1
      refine ⟨h1.1, h1.2, ?_⟩
      have : -(2 : Int) ^ 63 ≤ -((decimalValue ds : Nat) : Int) := h2
      have h6 : ((decimalValue ds : Nat) : Int) ≤ 2 ^ 63 := by linarith
      exact_mod_cast h6
  · rename_i ds
    by_cases h : ds ≠ [] ∧ ds.all isNumeric = true ∧ decimalValue ds < 2 ^ 63
    · rw [if_pos h]
      obtain ⟨h1, h2, h3⟩ := h
      have h4 : ((decimalValue ds : Nat) : Int) < 2 ^ 63 := by exact_mod_cast h3
      have h5 : (0 : Int) ≤ (decimalValue ds : Nat) := Int.ofNat_nonneg _
      simp [h1, h2]
      constructor <;> linarith
    · rw [if_neg h]
      simp only [ne_eq, not_true_eq_false, false_iff]
      intro ⟨h1, _, h3⟩
      apply h
      simp only [Bool.and_eq_true, decide_eq_true_eq] at h1
      refine ⟨h1.1, h1.2, ?_⟩
      exact_mod_cast h3
  · by_cases h : s ≠ [] ∧ s.all isNumeric = true ∧ decimalValue s < 2 ^ 63
    · rw [if_pos h]
      obtain ⟨h1, h2, h3⟩ := h
      have h4 : ((decimalValue s : Nat) : Int) < 2 ^ 63 := by exact_mod_cast h3
      have h5 : (0 : Int) ≤ (decimalValue s : Nat) := Int.ofNat_nonneg _
      simp [h1, h2]
      constructor <;> linarith
    · rw [if_neg h]
      simp only [ne_eq, not_true_eq_false, false_iff]
      intro ⟨h1, _, h3⟩
      apply h
      simp only [Bool.and_eq_true, decide_eq_true_eq] at h1
      refine ⟨h1.1, h1.2, ?_⟩
      exact_mod_cast h3

theorem atoi_value {s : List Nat} {i : Int} (h : atoi s = some i) : i = integerValue s := by
  unfold atoi at h
  unfold integerValue
  split at h <;> split_ifs at h <;> simp_all

theorem tokenToCell_ne_none_of_not_numeric {t : token} (h : t.kind ≠ tokenKind.numericKind) :
    tokenToCell t ≠ none := by
  unfold tokenToCell
  rw [if_neg h]
  split_ifs <;> simp

theorem insertLoop_spec :
    ∀ (vs : List expression) (row : List MemoryCell),
      (∀ v ∈ vs, v.kind = expressionKind.literalKind → tokenToCell v.literal ≠ none) →
      ∃ cells, insertLoop vs row = some (row ++ cells) ∧
        (literals vs).map (fun v => tokenToCell v.literal) = cells.map some := by
  intro vs
  induction vs with
  | nil => intro row _; exact ⟨[], by simp [insertLoop], by simp [literals]⟩
  | cons v rest ih =>
    intro row h
    have hrest : ∀ v2 ∈ rest, v2.kind = expressionKind.literalKind →
        tokenToCell v2.literal ≠ none := fun v2 h2 => h v2 (by simp [h2])
    rw [insertLoop]
    by_cases hk : v.kind = expressionKind.literalKind
    · have hv := h v (by simp) hk
      cases hc : tokenToCell v.literal with
      | none => exact absurd hc hv
      | some cell =>
        obtain ⟨cells, h1, h2⟩ := ih (row ++ [cell]) hrest
        refine ⟨cell :: cells, ?_, ?_⟩
        · simp only [hk, ne_eq, not_true_eq_false, if_false, h1]
          simp
        · simp only [literals] at h2 ⊢
          simp [List.filter_cons, hk, hc, h2]
    · obtain ⟨cells, h1, h2⟩ := ih row hrest
      refine ⟨cells, ?_, ?_⟩
      · simp only [ne_eq, hk, not_false_eq_true, if_true, h1]
      · simp only [literals] at h2 ⊢
        simp [List.filter_cons, hk, h2]

/-- C14: when the table exists and the value list is present with a length
other than the number of columns, `Insert` returns `ErrMissingValues` and the
store it leaves is the store it was given: no row is appended. -/
theorem Insert_missing_values (mb : MemoryBackend) (inst : InsertStatement) (t : table)
    (vs : List expression) (ht : mb.tables inst.Table.value = some t)
    (hvs : inst.Values = some vs) (hlen : vs.length ≠ t.columns.length) :
    Insert mb inst = some (mb, some backendError.ErrMissingValues) := by
  simp [Insert, ht, hvs, hlen]

theorem Insert_missing_values_witness :
    Insert (NewMemoryBackend.set (bytes "u")
        ⟨[bytes "id", bytes "name"], [ColumnType.IntType, ColumnType.TextType], []⟩)
      ⟨⟨bytes "u", tokenKind.identifierKind, ⟨0, 12⟩⟩,
        some [⟨⟨bytes "1", tokenKind.numericKind, ⟨0, 22⟩⟩, expressionKind.literalKind⟩]⟩ =
    some (NewMemoryBackend.set (bytes "u")
        ⟨[bytes "id", bytes "name"], [ColumnType.IntType, ColumnType.TextType], []⟩,
      some backendError.ErrMissingValues) :=
  Insert_missing_values _ _
    ⟨[bytes "id", bytes "name"], [ColumnType.IntType, ColumnType.TextType], []⟩
    [⟨⟨bytes "1", tokenKind.numericKind, ⟨0, 22⟩⟩, expressionKind.literalKind⟩]
    (by decide) rfl (by decide)

/-- C15: on a statement whose table name is not a key of the store, `Insert`
returns `ErrTableDoesNotExist` and the store it was given, and `Select`
returns a nil result set and `ErrTableDoesNotExist`. -/
theorem table_does_not_exist (mb : MemoryBackend) (inst : InsertStatement)
    (slct : SelectStatement) :
    (mb.tables inst.Table.value = none →
      Insert mb inst = some (mb, some backendError.ErrTableDoesNotExist)) ∧
    (mb.tables slct.from.value = none →
      Select mb slct = some (none, some backendError.ErrTableDoesNotExist)) := by
  constructor
  · intro h; simp [Insert, h]
  · intro h; simp [Select, h]

theorem table_does_not_exist_witness :
    Select NewMemoryBackend
      ⟨[⟨⟨bytes "x", tokenKind.identifierKind, ⟨0, 7⟩⟩, expressionKind.literalKind⟩],
        ⟨bytes "missing", tokenKind.identifierKind, ⟨0, 14⟩⟩⟩ =
      some (none, some backendError.ErrTableDoesNotExist) ∧
    Insert NewMemoryBackend ⟨⟨bytes "missing", tokenKind.identifierKind, ⟨0, 12⟩⟩, none⟩ =
      some (NewMemoryBackend, some backendError.ErrTableDoesNotExist) :=
  ⟨(table_does_not_exist NewMemoryBackend
      ⟨⟨bytes "missing", tokenKind.identifierKind, ⟨0, 12⟩⟩, none⟩
      ⟨[⟨⟨bytes "x", tokenKind.identifierKind, ⟨0, 7⟩⟩, expressionKind.literalKind⟩],
        ⟨bytes "missing", tokenKind.identifierKind, ⟨0, 14⟩⟩⟩).2 rfl,
   (table_does_not_exist NewMemoryBackend
      ⟨⟨bytes "missing", tokenKind.identifierKind, ⟨0, 12⟩⟩, none⟩
      ⟨[⟨⟨bytes "x", tokenKind.identifierKind, ⟨0, 7⟩⟩, expressionKind.literalKind⟩],
        ⟨bytes "missing", tokenKind.identifierKind, ⟨0, 14⟩⟩⟩).1 rfl⟩

/-- C16 (as stated, refuted): the numeric literal `9223372036854775808` is
base-10 integer text, and `Insert` of it into a one-column table panics:
`strconv.Atoi` reports a number outside the range of `int`. -/
theorem Insert_integer_text_out_of_range :
    isIntegerText (bytes "9223372036854775808") = true ∧
    Insert (NewMemoryBackend.set (bytes "n") ⟨[bytes "a"], [ColumnType.IntType], []⟩)
      ⟨⟨bytes "n", tokenKind.identifierKind, ⟨0, 12⟩⟩,
        some [⟨⟨bytes "9223372036854775808", tokenKind.numericKind, ⟨0, 22⟩⟩,
          expressionKind.literalKind⟩]⟩ = none :=
  ⟨by decide, Option.isNone_iff_eq_none.mp (by decide)⟩

/-- C16 (amended): when the table exists, `Insert` without a value list
succeeds and leaves the store as it was; with as many values as the table
has columns, every numeric literal among them being base-10 integer text of a
number in the range of `int`, it succeeds and appends one row at the end of
the table's rows, the `tokenToCell` conversions of the literal values in
their order (a string token gives its bytes, a numeric token the four
big-endian bytes of its number as an `int32`), the values that are not
literals being left out; the earlier rows, the columns and their types, and
every other table stay as they were. -/
theorem Insert_appends_row (mb : MemoryBackend) (inst : InsertStatement) (t : table)
    (ht : mb.tables inst.Table.value = some t) :
    (inst.Values = none → Insert mb inst = some (mb, none)) ∧
    (∀ vs, inst.Values = some vs → vs.length = t.columns.length →
      (∀ v ∈ vs, v.kind = expressionKind.literalKind →
        v.literal.kind = tokenKind.numericKind →
        isIntegerText v.literal.value = true ∧ -2 ^ 63 ≤ integerValue v.literal.value ∧
          integerValue v.literal.value < 2 ^ 63) →
      ∃ row mb2, Insert mb inst = some (mb2, none) ∧
        (literals vs).map (fun v => tokenToCell v.literal) = row.map some ∧
        mb2.tables inst.Table.value = some ⟨t.columns, t.columnTypes, t.rows ++ [row]⟩ ∧
        (∀ k, k ≠ inst.Table.value → mb2.tables k = mb.tables k)) ∧
    (∀ tk : token, tk.kind = tokenKind.stringKind → tokenToCell tk = some tk.value) ∧
    (∀ tk : token, tk.kind = tokenKind.numericKind → tokenToCell tk ≠ none →
      tokenToCell tk = some (bigEndianInt32 (toInt32 (integerValue tk.value)))) := by
  refine ⟨?_, ?_, ?_, ?_⟩
  · intro h; simp [Insert, ht, h]
  · intro vs hvs hlen hnum
    have hcells : ∀ v ∈ vs, v.kind = expressionKind.literalKind →
        tokenToCell v.literal ≠ none := by
      intro v hv hk
      by_cases hn : v.literal.kind = tokenKind.numericKind
      · unfold tokenToCell
        rw [if_pos hn]
        have := (atoi_integerText v.literal.value).mpr (hnum v hv hk hn)
        cases ha : atoi v.literal.value with
        | none => exact absurd ha this
        | some i => simp
      · exact tokenToCell_ne_none_of_not_numeric hn
    obtain ⟨cells, h1, h2⟩ := insertLoop_spec vs [] hcells
    refine ⟨cells, _, ?_, h2, MemoryBackend.set_same _ _ _,
      fun k hk => MemoryBackend.set_other _ _ _ k hk⟩
    simp only [Insert, ht, hvs, hlen, ne_eq, not_true_eq_false, if_false, h1, List.nil_append]
  · intro tk hk
    unfold tokenToCell
    rw [if_neg (by rw [hk]; decide), if_pos hk]
  · intro tk hk hne
    unfold tokenToCell at hne ⊢
    rw [if_pos hk] at hne ⊢
    cases ha : atoi tk.value with
    | none => simp [ha] at hne
    | some i => simp only [atoi_value ha]

theorem Insert_appends_row_witness :
    ∃ row mb2,
      Insert (NewMemoryBackend.set (bytes "u")
          ⟨[bytes "id", bytes "name"], [ColumnType.IntType, ColumnType.TextType], []⟩)
        ⟨⟨bytes "u", tokenKind.identifierKind, ⟨0, 12⟩⟩,
          some [⟨⟨bytes "105", tokenKind.numericKind, ⟨0, 22⟩⟩, expressionKind.literalKind⟩,
            ⟨⟨bytes "dan", tokenKind.stringKind, ⟨0, 27⟩⟩, expressionKind.literalKind⟩]⟩ =
        some (mb2, none) ∧
      (literals [⟨⟨bytes "105", tokenKind.numericKind, ⟨0, 22⟩⟩, expressionKind.literalKind⟩,
            ⟨⟨bytes "dan", tokenKind.stringKind, ⟨0, 27⟩⟩, expressionKind.literalKind⟩]).map
          (fun v => tokenToCell v.literal) = row.map some ∧
      mb2.tables (bytes "u") =
        some ⟨[bytes "id", bytes "name"], [ColumnType.IntType, ColumnType.TextType],
          [] ++ [row]⟩ ∧
      (∀ k, k ≠ bytes "u" → mb2.tables k =
        (NewMemoryBackend.set (bytes "u")
          ⟨[bytes "id", bytes "name"], [ColumnType.IntType, ColumnType.TextType], []⟩).tables k) :=
  (Insert_appends_row
    (NewMemoryBackend.set (bytes "u")
      ⟨[bytes "id", bytes "name"], [ColumnType.IntType, ColumnType.TextType], []⟩)
    ⟨⟨bytes "u", tokenKind.identifierKind, ⟨0, 12⟩⟩,
      some [⟨⟨bytes "105", tokenKind.numericKind, ⟨0, 22⟩⟩, expressionKind.literalKind⟩,
        ⟨⟨bytes "dan", tokenKind.stringKind, ⟨0, 27⟩⟩, expressionKind.literalKind⟩]⟩
    ⟨[bytes "id", bytes "name"], [ColumnType.IntType, ColumnType.TextType], []⟩
    (by decide)).2.1
    [⟨⟨bytes "105", tokenKind.numericKind, ⟨0, 22⟩⟩, expressionKind.literalKind⟩,
      ⟨⟨bytes "dan", tokenKind.stringKind, ⟨0, 27⟩⟩, expressionKind.literalKind⟩]
    rfl (by decide)
    (by
      intro v hv _ hn
      simp only [List.mem_cons, List.mem_singleton, List.not_mem_nil, or_false] at hv
      rcases hv with rfl | rfl
      · exact ⟨by decide, by decide, by decide⟩
      · exact absurd hn (by decide))

/-! ## Select: the loops -/

theorem findColumn_eq (name : List Nat) :
    ∀ (cols : List (List Nat)) (i : Nat),
      findColumn name cols i =
        if name ∈ cols then some (i + cols.findIdx (fun c => decide (c = name))) else none := by
  intro cols
  induction cols with
  | nil => intro i; simp [findColumn]
  | cons c rest ih =>
    intro i
    rw [findColumn, List.findIdx_cons]
    by_cases hc : c = name
    · subst hc
      simp
    · rw [if_neg hc, ih]
      have hne : name ≠ c := fun h => hc h.symm
      by_cases hm : name ∈ rest
      · simp [hm, hc]
        omega
      · simp [hm, hne]

theorem findColumn_firstColumnIndex (t : table) (name : List Nat) :
    findColumn name t.columns 0 =
      if name ∈ t.columns then some (firstColumnIndex t name) else none := by
  rw [findColumn_eq]
  simp [firstColumnIndex]

theorem firstColumnIndex_lt {t : table} {name : List Nat} (h : name ∈ t.columns) :
    firstColumnIndex t name < t.columns.length :=
  List.findIdx_lt_length_of_exists ⟨name, h, by simp⟩

/-- The row and the column-type list have an element at every column index. -/
theorem wellFormed_row {t : table} (h : wellFormed t) {row : List MemoryCell}
    (hrow : row ∈ t.rows) (i : Nat) (hi : i < t.columns.length) :
    i < t.columnTypes.length ∧ i < row.length := by
  obtain ⟨h1, h2⟩ := h
  rw [h1, h2 row hrow]
  exact ⟨hi, hi⟩

theorem selectItems_error (t : table) (row : List MemoryCell) (isFirstRow : Bool)
    (hshape : ∀ i, i < t.columns.length → i < t.columnTypes.length ∧ i < row.length) :
    ∀ (items : List expression) (columns : List (ColumnType × List Nat))
      (result : List MemoryCell), (∃ e ∈ items, badItem t e) →
      selectItems t row isFirstRow items columns result =
        some (Except.error backendError.ErrColumnDoesNotExist) := by
  intro items
  induction items with
  | nil => intro _ _ h; simp at h
  | cons e rest ih =>
    intro columns result h
    rw [selectItems]
    by_cases hk : e.kind = expressionKind.literalKind
    · simp only [hk, ne_eq, not_true_eq_false, if_false]
      by_cases hid : e.literal.kind = tokenKind.identifierKind
      · simp only [hid, if_true, findColumn_firstColumnIndex]
        by_cases hm : e.literal.value ∈ t.columns
        · have hrest : ∃ e2 ∈ rest, badItem t e2 := by
            obtain ⟨e2, he2, hbad⟩ := h
            simp at he2
            rcases he2 with rfl | he2
            · exact absurd hbad (by simp [badItem, hid, hm])
            · exact ⟨e2, he2, hbad⟩
          have hidx := firstColumnIndex_lt hm
          obtain ⟨h1, h2⟩ := hshape _ hidx
          simp only [hm, if_true]
          rw [List.get?_eq_get h1, List.get?_eq_get h2]
          cases isFirstRow
          · simp only [Bool.false_eq_true, if_false]
            exact ih _ _ hrest
          · simp only [if_true]
            exact ih _ _ hrest
        · simp [hm]
      · simp [hid]
    · simp only [ne_eq, hk, not_false_eq_true, if_true]
      apply ih
      obtain ⟨e2, he2, hbad⟩ := h
      simp at he2
      rcases he2 with rfl | he2
      · exact absurd hbad.1 hk
      · exact ⟨e2, he2, hbad⟩

theorem selectItems_ok (t : table) (row : List MemoryCell) (isFirstRow : Bool)
    (hshape : ∀ i, i < t.columns.length → i < t.columnTypes.length ∧ i < row.length) :
    ∀ (items : List expression) (columns : List (ColumnType × List Nat))
      (result : List MemoryCell), (∀ e ∈ items, ¬ badItem t e) →
      ∃ cols2 res2, selectItems t row isFirstRow items columns result =
          some (Except.ok (columns ++ cols2, result ++ res2)) ∧
        res2.map some =
          (literals items).map (fun e => row.get? (firstColumnIndex t e.literal.value)) ∧
        cols2.map (fun c => (some c.1, c.2)) =
          if isFirstRow = true then
            (literals items).map (fun e =>
              (t.columnTypes.get? (firstColumnIndex t e.literal.value), e.literal.value))
          else [] := by
  intro items
  induction items with
  | nil =>
    intro columns result _
    exact ⟨[], [], by simp [selectItems], by simp [literals], by simp [literals]⟩
  | cons e rest ih =>
    intro columns result h
    have hrest : ∀ e2 ∈ rest, ¬ badItem t e2 := fun e2 h2 => h e2 (by simp [h2])
    rw [selectItems]
    by_cases hk : e.kind = expressionKind.literalKind
    · have hgood := h e (by simp)
      have hid : e.literal.kind = tokenKind.identifierKind := by
        by_contra hcon
        exact hgood ⟨hk, Or.inl hcon⟩
      have hm : e.literal.value ∈ t.columns := by
        by_contra hcon
        exact hgood ⟨hk, Or.inr hcon⟩
      have hidx := firstColumnIndex_lt hm
      obtain ⟨h1, h2⟩ := hshape _ hidx
      simp only [hk, ne_eq, not_true_eq_false, if_false, hid, if_true,
        findColumn_firstColumnIndex, hm]
      rw [List.get?_eq_get h1, List.get?_eq_get h2]
      cases isFirstRow
      · simp only [Bool.false_eq_true, if_false]
        obtain ⟨cols2, res2, e1, e2, e3⟩ := ih columns (result ++ [row.get ⟨_, h2⟩]) hrest
        refine ⟨cols2, row.get ⟨_, h2⟩ :: res2, ?_, ?_, ?_⟩
        · rw [e1]; simp
        · simp only [literals] at e2 ⊢
          simp [List.filter_cons, hk, e2, List.get?_eq_get h2]
        · simpa using e3
      · simp only [if_true]
        obtain ⟨cols2, res2, e1, e2, e3⟩ :=
          ih (columns ++ [(t.columnTypes.get ⟨_, h1⟩, e.literal.value)])
            (result ++ [row.get ⟨_, h2⟩]) hrest
        refine ⟨(t.columnTypes.get ⟨_, h1⟩, e.literal.value) :: cols2,
          row.get ⟨_, h2⟩ :: res2, ?_, ?_, ?_⟩
        · rw [e1]; simp
        · simp only [literals] at e2 ⊢
          simp [List.filter_cons, hk, e2, List.get?_eq_get h2]
        · simp only [literals, if_true] at e3 ⊢
          simp [List.filter_cons, hk, e3, List.get?_eq_get h1]
    · simp only [ne_eq, hk, not_false_eq_true, if_true]
      obtain ⟨cols2, res2, e1, e2, e3⟩ := ih columns result hrest
      refine ⟨cols2, res2, e1, ?_, ?_⟩
      · simp only [literals] at e2 ⊢
        simp [List.filter_cons, hk, e2]
      · simp only [literals] at e3 ⊢
        simp [List.filter_cons, hk, e3]

end Gogn
namespace Gogn

theorem selectItems_literals (t : table) (row : List MemoryCell) (isFirstRow : Bool) :
    ∀ (items : List expression) (columns : List (ColumnType × List Nat))
      (result : List MemoryCell),
      selectItems t row isFirstRow items columns result =
        selectItems t row isFirstRow (literals items) columns result := by
  intro items
  induction items with
  | nil => intro _ _; rfl
  | cons e rest ih =>
    intro columns result
    by_cases hk : e.kind = expressionKind.literalKind
    · have hl : literals (e :: rest) = e :: literals rest := by
        simp [literals, List.filter_cons, hk]
      rw [hl, selectItems, selectItems]
      simp only [hk, ne_eq, not_true_eq_false, if_false]
      split
      · split
        · rfl
        · split
          · split
            · rfl
            · split
              · rfl
              · exact ih _ _
          · split
            · rfl
            · exact ih _ _
      · rfl
    · have hl : literals (e :: rest) = literals rest := by
        simp [literals, List.filter_cons, hk]
      rw [hl, selectItems]
      simp only [ne_eq, hk, not_false_eq_true, if_true]
      exact ih _ _

theorem selectRows_literals (t : table) (items : List expression) :
    ∀ (rows : List (List MemoryCell)) (i : Nat) (columns : List (ColumnType × List Nat))
      (results : List (List MemoryCell)),
      selectRows t items rows i columns results =
        selectRows t (literals items) rows i columns results := by
  intro rows
  induction rows with
  | nil => intro _ _ _; rfl
  | cons row rest ih =>
    intro i columns results
    rw [selectRows, selectRows, ← selectItems_literals]
    split
    · rfl
    · rfl
    · exact ih _ _ _

theorem selectRows_error (t : table) (items : List expression) (row : List MemoryCell)
    (rest : List (List MemoryCell))
    (hshape : ∀ i, i < t.columns.length → i < t.columnTypes.length ∧ i < row.length)
    (hbad : ∃ e ∈ items, badItem t e) (i : Nat) (columns : List (ColumnType × List Nat))
    (results : List (List MemoryCell)) :
    selectRows t items (row :: rest) i columns results =
      some (Except.error backendError.ErrColumnDoesNotExist) := by
  rw [selectRows, selectItems_error t row _ hshape items columns [] hbad]

theorem selectRows_ok (t : table) (items : List expression)
    (hgood : ∀ e ∈ items, ¬ badItem t e) :
    ∀ (rows : List (List MemoryCell)) (i : Nat) (columns : List (ColumnType × List Nat))
      (results : List (List MemoryCell)),
      (∀ row ∈ rows, ∀ i, i < t.columns.length → i < t.columnTypes.length ∧ i < row.length) →
      ∃ cols2 rows2, selectRows t items rows i columns results =
          some (Except.ok ⟨columns ++ cols2, results ++ rows2⟩) ∧
        rows2.map (fun r => r.map some) =
          rows.map (fun row =>
            (literals items).map (fun e => row.get? (firstColumnIndex t e.literal.value))) ∧
        cols2.map (fun c => (some c.1, c.2)) =
          if i = 0 ∧ rows ≠ [] then
            (literals items).map (fun e =>
              (t.columnTypes.get? (firstColumnIndex t e.literal.value), e.literal.value))
          else [] := by
  intro rows
  induction rows with
  | nil =>
    intro i columns results _
    exact ⟨[], [], by simp [selectRows], by simp, by simp⟩
  | cons row rest ih =>
    intro i columns results hshape
    obtain ⟨c2, r2, e1, e2, e3⟩ :=
      selectItems_ok t row (decide (i = 0)) (hshape row (by simp)) items columns [] hgood
    obtain ⟨c3, r3, f1, f2, f3⟩ := ih (i + 1) (columns ++ c2) (results ++ [[] ++ r2])
      (fun row2 h2 => hshape row2 (by simp [h2]))
    have hc3 : c3 = [] := by
      simpa using f3
    subst hc3
    refine ⟨c2, ([] ++ r2) :: r3, ?_, ?_, ?_⟩
    · rw [selectRows, e1]
      simp only [f1]
      simp
    · simp [e2, f2]
    · rw [e3]
      by_cases hi : i = 0 <;> simp [hi]

/-- With every row and the type list covering every column index, `Select`
does not run into an index out of range. -/
theorem selectRows_ne_none (t : table) (items : List expression)
    (rows : List (List MemoryCell)) (i : Nat) (columns : List (ColumnType × List Nat))
    (results : List (List MemoryCell))
    (hshape : ∀ row ∈ rows, ∀ i, i < t.columns.length →
      i < t.columnTypes.length ∧ i < row.length) :
    selectRows t items rows i columns results ≠ none := by
  by_cases hbad : ∃ e ∈ items, badItem t e
  · cases rows with
    | nil => simp [selectRows]
    | cons row rest =>
      rw [selectRows_error t items row rest (hshape row (by simp)) hbad]
      simp
  · obtain ⟨c2, r2, e1, _, _⟩ := selectRows_ok t items
      (fun e he hb => hbad ⟨e, he, hb⟩) rows i columns results hshape
    rw [e1]
    simp

/-! ## Select -/

/-- C17 (as stated, refuted): on a table with zero rows `Select` of a column
that does not exist succeeds, with an empty result set; and on a table whose
only row is shorter than the column list (left by an `Insert` of a value that
is not a literal) `Select` of an existing column followed by one that does
not exist panics before it reaches the second. -/
theorem Select_unknown_column_no_error :
    Select (NewMemoryBackend.set (bytes "u")
        ⟨[bytes "id", bytes "name"], [ColumnType.IntType, ColumnType.TextType], []⟩)
      ⟨[⟨⟨bytes "x", tokenKind.identifierKind, ⟨0, 7⟩⟩, expressionKind.literalKind⟩],
        ⟨bytes "u", tokenKind.identifierKind, ⟨0, 14⟩⟩⟩ =
      some (some ⟨[], []⟩, none) ∧
    (Insert (CreateTable NewMemoryBackend
          ⟨⟨bytes "t", tokenKind.identifierKind, ⟨0, 13⟩⟩,
            some [⟨⟨bytes "a", tokenKind.identifierKind, ⟨0, 16⟩⟩,
              ⟨bytes "int", tokenKind.keywordKind, ⟨0, 18⟩⟩⟩]⟩).1
        ⟨⟨bytes "t", tokenKind.identifierKind, ⟨0, 12⟩⟩,
          some [⟨⟨bytes "b", tokenKind.identifierKind, ⟨0, 22⟩⟩, expressionKind.otherKind⟩]⟩).map
      (fun r => (r.2, Select r.1
        ⟨[⟨⟨bytes "a", tokenKind.identifierKind, ⟨0, 7⟩⟩, expressionKind.literalKind⟩,
          ⟨⟨bytes "x", tokenKind.identifierKind, ⟨0, 10⟩⟩, expressionKind.literalKind⟩],
          ⟨bytes "t", tokenKind.identifierKind, ⟨0, 17⟩⟩⟩)) =
      some (none, none) := by
  decide

/-- C17 (amended): when the projection contains an identifier literal equal
to none of the table's column names, `Select` on an existing table with at
least one row, whose first row and column-type list have an element at every
column index, returns no result set and `ErrColumnDoesNotExist`; on a table
with no rows it checks nothing and succeeds with an empty result set. -/
theorem Select_unknown_column (mb : MemoryBackend) (slct : SelectStatement) (t : table)
    (e : expression) (ht : mb.tables slct.from.value = some t) (he : e ∈ slct.item)
    (hk : e.kind = expressionKind.literalKind)
    (_hid : e.literal.kind = tokenKind.identifierKind)
    (hun : e.literal.value ∉ t.columns) :
    (∀ row rest, t.rows = row :: rest →
      (∀ i, i < t.columns.length → i < t.columnTypes.length ∧ i < row.length) →
      Select mb slct = some (none, some backendError.ErrColumnDoesNotExist)) ∧
    (t.rows = [] → Select mb slct = some (some ⟨[], []⟩, none)) := by
  constructor
  · intro row rest hrows hshape
    have hbad : ∃ e2 ∈ slct.item, badItem t e2 := ⟨e, he, hk, Or.inr hun⟩
    simp only [Select, ht, hrows, selectRows_error t slct.item row rest hshape hbad]
  · intro hrows
    simp only [Select, ht, hrows, selectRows]

theorem Select_unknown_column_witness :
    Select (NewMemoryBackend.set (bytes "u")
        ⟨[bytes "id", bytes "name"], [ColumnType.IntType, ColumnType.TextType],
          [[[0, 0, 0, 105], bytes "dan"]]⟩)
      ⟨[⟨⟨bytes "id", tokenKind.identifierKind, ⟨0, 7⟩⟩, expressionKind.literalKind⟩,
        ⟨⟨bytes "x", tokenKind.identifierKind, ⟨0, 11⟩⟩, expressionKind.literalKind⟩],
        ⟨bytes "u", tokenKind.identifierKind, ⟨0, 18⟩⟩⟩ =
      some (none, some backendError.ErrColumnDoesNotExist) :=
  (Select_unknown_column
    (NewMemoryBackend.set (bytes "u")
      ⟨[bytes "id", bytes "name"], [ColumnType.IntType, ColumnType.TextType],
        [[[0, 0, 0, 105], bytes "dan"]]⟩)
    ⟨[⟨⟨bytes "id", tokenKind.identifierKind, ⟨0, 7⟩⟩, expressionKind.literalKind⟩,
      ⟨⟨bytes "x", tokenKind.identifierKind, ⟨0, 11⟩⟩, expressionKind.literalKind⟩],
      ⟨bytes "u", tokenKind.identifierKind, ⟨0, 18⟩⟩⟩
    ⟨[bytes "id", bytes "name"], [ColumnType.IntType, ColumnType.TextType],
      [[[0, 0, 0, 105], bytes "dan"]]⟩
    ⟨⟨bytes "x", tokenKind.identifierKind, ⟨0, 11⟩⟩, expressionKind.literalKind⟩
    (by decide) (by decide) rfl rfl (by decide)).1
    [[0, 0, 0, 105], bytes "dan"] [] rfl (by decide)

/-- C18: on a table in which every row has one cell per column and the type
list is as long as the name list, with a projection made of identifier
literals that each name a column, `Select` succeeds; the result has as many
rows as the table, in the table's order; each result row lists, in projection
order, the cell of the table row at the index of the first column of the
item's name; the column list is the (declared type, name) pair of every item
in projection order when the table has a row, and is empty when it has none. -/
theorem Select_projection (mb : MemoryBackend) (slct : SelectStatement) (t : table)
    (ht : mb.tables slct.from.value = some t) (hwf : wellFormed t)
    (hitems : ∀ e ∈ slct.item, e.kind = expressionKind.literalKind ∧
      e.literal.kind = tokenKind.identifierKind ∧ e.literal.value ∈ t.columns) :
    ∃ res, Select mb slct = some (some res, none) ∧
      res.Rows.length = t.rows.length ∧
      res.Rows.map (fun r => r.map some) =
        t.rows.map (fun row =>
          slct.item.map (fun e => row.get? (firstColumnIndex t e.literal.value))) ∧
      res.Columns.map (fun c => (some c.1, c.2)) =
        if t.rows = [] then []
        else slct.item.map (fun e =>
          (t.columnTypes.get? (firstColumnIndex t e.literal.value), e.literal.value)) := by
  have hgood : ∀ e ∈ slct.item, ¬ badItem t e := by
    intro e he hb
    obtain ⟨_, h2, h3⟩ := hitems e he
    rcases hb.2 with h | h
    · exact h h2
    · exact h h3
  have hlit : literals slct.item = slct.item := by
    simp only [literals, List.filter_eq_self]
    intro e he
    simp [(hitems e he).1]
  obtain ⟨c2, r2, e1, e2, e3⟩ := selectRows_ok t slct.item hgood t.rows 0 [] []
    (fun row hrow i hi => wellFormed_row hwf hrow i hi)
  rw [hlit] at e2 e3
  refine ⟨⟨[] ++ c2, [] ++ r2⟩, ?_, ?_, ?_, ?_⟩
  · simp only [Select, ht, e1]
  · have := congrArg List.length e2
    simpa using this
  · simpa using e2
  · rw [List.nil_append, e3]
    by_cases hr : t.rows = [] <;> simp [hr]

theorem Select_projection_witness :
    (∃ res,
      Select (NewMemoryBackend.set (bytes "u")
          ⟨[bytes "id", bytes "name"], [ColumnType.IntType, ColumnType.TextType],
            [[[0, 0, 0, 105], bytes "dan"]]⟩)
        ⟨[⟨⟨bytes "id", tokenKind.identifierKind, ⟨0, 7⟩⟩, expressionKind.literalKind⟩,
          ⟨⟨bytes "name", tokenKind.identifierKind, ⟨0, 11⟩⟩, expressionKind.literalKind⟩],
          ⟨bytes "u", tokenKind.identifierKind, ⟨0, 21⟩⟩⟩ = some (some res, none) ∧
      res.Rows.length = 1) ∧
    Select (NewMemoryBackend.set (bytes "u")
        ⟨[bytes "id", bytes "name"], [ColumnType.IntType, ColumnType.TextType],
          [[[0, 0, 0, 105], bytes "dan"]]⟩)
      ⟨[⟨⟨bytes "id", tokenKind.identifierKind, ⟨0, 7⟩⟩, expressionKind.literalKind⟩,
        ⟨⟨bytes "name", tokenKind.identifierKind, ⟨0, 11⟩⟩, expressionKind.literalKind⟩],
        ⟨bytes "u", tokenKind.identifierKind, ⟨0, 21⟩⟩⟩ =
      some (some ⟨[(ColumnType.IntType, bytes "id"), (ColumnType.TextType, bytes "name")],
        [[[0, 0, 0, 105], bytes "dan"]]⟩, none) ∧
    (Insert (CreateTable NewMemoryBackend
          ⟨⟨bytes "u", tokenKind.identifierKind, ⟨0, 13⟩⟩,
            some [⟨⟨bytes "id", tokenKind.identifierKind, ⟨0, 16⟩⟩,
                ⟨bytes "int", tokenKind.keywordKind, ⟨0, 19⟩⟩⟩,
              ⟨⟨bytes "name", tokenKind.identifierKind, ⟨0, 24⟩⟩,
                ⟨bytes "text", tokenKind.keywordKind, ⟨0, 29⟩⟩⟩]⟩).1
        ⟨⟨bytes "u", tokenKind.identifierKind, ⟨0, 12⟩⟩,
          some [⟨⟨bytes "105", tokenKind.numericKind, ⟨0, 22⟩⟩, expressionKind.literalKind⟩,
            ⟨⟨bytes "dan", tokenKind.stringKind, ⟨0, 27⟩⟩, expressionKind.literalKind⟩]⟩).map
      (fun r => Select r.1
        ⟨[⟨⟨bytes "id", tokenKind.identifierKind, ⟨0, 7⟩⟩, expressionKind.literalKind⟩,
          ⟨⟨bytes "name", tokenKind.identifierKind, ⟨0, 11⟩⟩, expressionKind.literalKind⟩],
          ⟨bytes "u", tokenKind.identifierKind, ⟨0, 21⟩⟩⟩) =
      some (some (some ⟨[(ColumnType.IntType, bytes "id"),
          (ColumnType.TextType, bytes "name")],
        [[[0, 0, 0, 105], bytes "dan"]]⟩, none)) := by
  refine ⟨?_, by decide, by decide⟩
  obtain ⟨res, h1, h2, _⟩ := Select_projection
    (NewMemoryBackend.set (bytes "u")
      ⟨[bytes "id", bytes "name"], [ColumnType.IntType, ColumnType.TextType],
        [[[0, 0, 0, 105], bytes "dan"]]⟩)
    ⟨[⟨⟨bytes "id", tokenKind.identifierKind, ⟨0, 7⟩⟩, expressionKind.literalKind⟩,
      ⟨⟨bytes "name", tokenKind.identifierKind, ⟨0, 11⟩⟩, expressionKind.literalKind⟩],
      ⟨bytes "u", tokenKind.identifierKind, ⟨0, 21⟩⟩⟩
    ⟨[bytes "id", bytes "name"], [ColumnType.IntType, ColumnType.TextType],
      [[[0, 0, 0, 105], bytes "dan"]]⟩
    (by decide) ⟨by decide, by decide⟩ (by decide)
  exact ⟨res, h1, h2⟩

/-- C19 (as stated, refuted): on the table `u` with one row, `Select` of the
numeric literal `1` and the column `id` does not skip the literal: it returns
no result set and `ErrColumnDoesNotExist`. -/
theorem Select_literal_not_skipped :
    Select (NewMemoryBackend.set (bytes "u")
        ⟨[bytes "id", bytes "name"], [ColumnType.IntType, ColumnType.TextType],
          [[[0, 0, 0, 105], bytes "dan"]]⟩)
      ⟨[⟨⟨bytes "1", tokenKind.numericKind, ⟨0, 7⟩⟩, expressionKind.literalKind⟩,
        ⟨⟨bytes "id", tokenKind.identifierKind, ⟨0, 10⟩⟩, expressionKind.literalKind⟩],
        ⟨bytes "u", tokenKind.identifierKind, ⟨0, 18⟩⟩⟩ =
      some (none, some backendError.ErrColumnDoesNotExist) := by
  decide

/-- C19 (amended): when the projection contains a literal expression whose
token is not an identifier, `Select` on an existing table with at least one
row, whose first row and column-type list have an element at every column
index, returns no result set and `ErrColumnDoesNotExist`; what `Select` skips
are the expressions that are not literals: it returns what it returns for
the projection without them. -/
theorem Select_non_identifier_literal (mb : MemoryBackend) (slct : SelectStatement) (t : table)
    (ht : mb.tables slct.from.value = some t) :
    (∀ e ∈ slct.item, e.kind = expressionKind.literalKind →
      e.literal.kind ≠ tokenKind.identifierKind →
      ∀ row rest, t.rows = row :: rest →
      (∀ i, i < t.columns.length → i < t.columnTypes.length ∧ i < row.length) →
      Select mb slct = some (none, some backendError.ErrColumnDoesNotExist)) ∧
    Select mb slct = Select mb ⟨literals slct.item, slct.from⟩ := by
  constructor
  · intro e he hk hid row rest hrows hshape
    have hbad : ∃ e2 ∈ slct.item, badItem t e2 := ⟨e, he, hk, Or.inl hid⟩
    simp only [Select, ht, hrows, selectRows_error t slct.item row rest hshape hbad]
  · simp only [Select, ht, ← selectRows_literals]

theorem Select_non_identifier_literal_witness :
    Select (NewMemoryBackend.set (bytes "u")
        ⟨[bytes "id", bytes "name"], [ColumnType.IntType, ColumnType.TextType],
          [[[0, 0, 0, 105], bytes "dan"]]⟩)
      ⟨[⟨⟨bytes "id", tokenKind.identifierKind, ⟨0, 7⟩⟩, expressionKind.literalKind⟩,
        ⟨⟨bytes "dan", tokenKind.stringKind, ⟨0, 11⟩⟩, expressionKind.literalKind⟩],
        ⟨bytes "u", tokenKind.identifierKind, ⟨0, 22⟩⟩⟩ =
      some (none, some backendError.ErrColumnDoesNotExist) :=
  (Select_non_identifier_literal
    (NewMemoryBackend.set (bytes "u")
      ⟨[bytes "id", bytes "name"], [ColumnType.IntType, ColumnType.TextType],
        [[[0, 0, 0, 105], bytes "dan"]]⟩)
    ⟨[⟨⟨bytes "id", tokenKind.identifierKind, ⟨0, 7⟩⟩, expressionKind.literalKind⟩,
      ⟨⟨bytes "dan", tokenKind.stringKind, ⟨0, 11⟩⟩, expressionKind.literalKind⟩],
      ⟨bytes "u", tokenKind.identifierKind, ⟨0, 22⟩⟩⟩
    ⟨[bytes "id", bytes "name"], [ColumnType.IntType, ColumnType.TextType],
      [[[0, 0, 0, 105], bytes "dan"]]⟩
    (by decide)).1
    ⟨⟨bytes "dan", tokenKind.stringKind, ⟨0, 11⟩⟩, expressionKind.literalKind⟩
    (by decide) rfl (by decide) [[0, 0, 0, 105], bytes "dan"] [] rfl (by decide)

/-! ## Select on the stores that can be reached -/

theorem createTableLoop_lengths :
    ∀ (cols : List columnDefinition) (t : table), (createTableLoop cols t).2 = none →
      (createTableLoop cols t).1.columns.length + t.columnTypes.length =
        (createTableLoop cols t).1.columnTypes.length + t.columns.length ∧
      (createTableLoop cols t).1.rows = t.rows := by
  intro cols
  induction cols with
  | nil => intro t _; simp [createTableLoop]; omega
  | cons c rest ih =>
    intro t h
    rw [createTableLoop] at h ⊢
    by_cases hint : c.datatype.value = bytes "int"
    · rw [if_pos hint] at h ⊢
      dsimp only at h ⊢
      obtain ⟨h1, h2⟩ := ih _ h
      dsimp only at h1 h2
      simp only [List.length_append, List.length_singleton] at h1
      exact ⟨by omega, h2⟩
    · by_cases htext : c.datatype.value = bytes "text"
      · rw [if_neg hint, if_pos htext] at h ⊢
        dsimp only at h ⊢
        obtain ⟨h1, h2⟩ := ih _ h
        dsimp only at h1 h2
        simp only [List.length_append, List.length_singleton] at h1
        exact ⟨by omega, h2⟩
      · rw [if_neg hint, if_neg htext] at h
        simp at h

theorem insertLoop_length :
    ∀ (vs : List expression) (row row2 : List MemoryCell),
      (∀ v ∈ vs, v.kind = expressionKind.literalKind) → insertLoop vs row = some row2 →
      row2.length = row.length + vs.length := by
  intro vs
  induction vs with
  | nil => intro row row2 _ h; simp [insertLoop] at h; simp [h]
  | cons v rest ih =>
    intro row row2 hall h
    have hk := hall v (by simp)
    rw [insertLoop] at h
    simp only [hk, ne_eq, not_true_eq_false, if_false] at h
    cases hc : tokenToCell v.literal with
    | none => simp [hc] at h
    | some cell =>
      simp only [hc] at h
      have := ih _ _ (fun v2 h2 => hall v2 (by simp [h2])) h
      simp at this ⊢
      omega

theorem reachable_wellFormed {mb : MemoryBackend} (h : reachable mb) :
    ∀ name t, mb.tables name = some t → wellFormed t := by
  induction h with
  | empty => intro name t ht; simp [NewMemoryBackend] at ht
  | createTable mb crt _ hok ih =>
    intro name t ht
    by_cases hn : name = crt.name.value
    · subst hn
      simp only [CreateTable] at ht hok
      cases hc : crt.cols with
      | none =>
        simp only [hc, MemoryBackend.set_same, Option.some.injEq] at ht
        subst ht
        exact ⟨rfl, by simp⟩
      | some cols =>
        simp only [hc, MemoryBackend.set_same, Option.some.injEq] at ht hok
        obtain ⟨h1, h2⟩ := createTableLoop_lengths cols ⟨[], [], []⟩ hok
        subst ht
        refine ⟨by simpa using h1.symm, ?_⟩
        rw [h2]
        simp
    · have : (CreateTable mb crt).1.tables name = mb.tables name := by
        simp only [CreateTable]
        cases crt.cols <;> exact MemoryBackend.set_other _ _ _ name hn
      rw [this] at ht
      exact ih name t ht
  | insert mb inst mb2 err _ hlit hins ih =>
    intro name t ht
    simp only [Insert] at hins
    cases htab : mb.tables inst.Table.value with
    | none =>
      simp only [htab, Option.some.injEq, Prod.mk.injEq] at hins
      rw [← hins.1] at ht
      exact ih name t ht
    | some t0 =>
      simp only [htab] at hins
      cases hv : inst.Values with
      | none =>
        simp only [hv, Option.some.injEq, Prod.mk.injEq] at hins
        rw [← hins.1] at ht
        exact ih name t ht
      | some vs =>
        simp only [hv] at hins
        by_cases hlen : vs.length ≠ t0.columns.length
        · rw [if_pos hlen] at hins
          simp only [Option.some.injEq, Prod.mk.injEq] at hins
          rw [← hins.1] at ht
          exact ih name t ht
        · rw [if_neg hlen] at hins
          cases hrow : insertLoop vs [] with
          | none => simp [hrow] at hins
          | some row =>
            simp only [hrow, Option.some.injEq, Prod.mk.injEq] at hins
            have hrl := insertLoop_length vs [] row (hlit vs hv) hrow
            rw [← hins.1] at ht
            by_cases hn : name = inst.Table.value
            · subst hn
              simp only [MemoryBackend.set_same, Option.some.injEq] at ht
              subst ht
              obtain ⟨w1, w2⟩ := ih _ t0 htab
              refine ⟨w1, ?_⟩
              intro r hr
              simp only [List.mem_append, List.mem_singleton] at hr
              rcases hr with hr | hr
              · exact w2 r hr
              · subst hr
                simp only [List.length_nil, Nat.zero_add] at hrl
                show r.length = t0.columns.length
                omega
            · rw [MemoryBackend.set_other _ _ _ name hn] at ht
              exact ih name t ht

/-- C20 (as stated, refuted): after `CreateTable` of `t (a int)` and an
`Insert` into `t` of one value that is not a literal, both successful, the
table has a row without cells, and `Select a` panics at `row[0]`; after the
failing `CreateTable` of `t (a BOOL)` and a successful `Insert` of `1`,
`Select a` panics at `table.columnTypes[0]`. -/
theorem Select_index_out_of_range :
    ((CreateTable NewMemoryBackend
        ⟨⟨bytes "t", tokenKind.identifierKind, ⟨0, 13⟩⟩,
          some [⟨⟨bytes "a", tokenKind.identifierKind, ⟨0, 16⟩⟩,
            ⟨bytes "int", tokenKind.keywordKind, ⟨0, 18⟩⟩⟩]⟩).2 = none ∧
      (Insert (CreateTable NewMemoryBackend
            ⟨⟨bytes "t", tokenKind.identifierKind, ⟨0, 13⟩⟩,
              some [⟨⟨bytes "a", tokenKind.identifierKind, ⟨0, 16⟩⟩,
                ⟨bytes "int", tokenKind.keywordKind, ⟨0, 18⟩⟩⟩]⟩).1
          ⟨⟨bytes "t", tokenKind.identifierKind, ⟨0, 12⟩⟩,
            some [⟨⟨bytes "b", tokenKind.identifierKind, ⟨0, 22⟩⟩,
              expressionKind.otherKind⟩]⟩).map
        (fun r => (r.2, r.1.tables (bytes "t"))) =
        some (none, some ⟨[bytes "a"], [ColumnType.IntType], [[]]⟩) ∧
      (Insert (CreateTable NewMemoryBackend
            ⟨⟨bytes "t", tokenKind.identifierKind, ⟨0, 13⟩⟩,
              some [⟨⟨bytes "a", tokenKind.identifierKind, ⟨0, 16⟩⟩,
                ⟨bytes "int", tokenKind.keywordKind, ⟨0, 18⟩⟩⟩]⟩).1
          ⟨⟨bytes "t", tokenKind.identifierKind, ⟨0, 12⟩⟩,
            some [⟨⟨bytes "b", tokenKind.identifierKind, ⟨0, 22⟩⟩,
              expressionKind.otherKind⟩]⟩).map
        (fun r => Select r.1
          ⟨[⟨⟨bytes "a", tokenKind.identifierKind, ⟨0, 7⟩⟩, expressionKind.literalKind⟩],
            ⟨bytes "t", tokenKind.identifierKind, ⟨0, 14⟩⟩⟩) = some none) ∧
    ((CreateTable NewMemoryBackend
        ⟨⟨bytes "t", tokenKind.identifierKind, ⟨0, 13⟩⟩,
          some [⟨⟨bytes "a", tokenKind.identifierKind, ⟨0, 16⟩⟩,
            ⟨bytes "bool", tokenKind.identifierKind, ⟨0, 18⟩⟩⟩]⟩).2 =
        some backendError.ErrInvalidDatatype ∧
      (Insert (CreateTable NewMemoryBackend
            ⟨⟨bytes "t", tokenKind.identifierKind, ⟨0, 13⟩⟩,
              some [⟨⟨bytes "a", tokenKind.identifierKind, ⟨0, 16⟩⟩,
                ⟨bytes "bool", tokenKind.identifierKind, ⟨0, 18⟩⟩⟩]⟩).1
          ⟨⟨bytes "t", tokenKind.identifierKind, ⟨0, 12⟩⟩,
            some [⟨⟨bytes "1", tokenKind.numericKind, ⟨0, 22⟩⟩,
              expressionKind.literalKind⟩]⟩).map
        (fun r => (r.2, r.1.tables (bytes "t"))) =
        some (none, some ⟨[bytes "a"], [], [[[0, 0, 0, 1]]]⟩) ∧
      (Insert (CreateTable NewMemoryBackend
            ⟨⟨bytes "t", tokenKind.identifierKind, ⟨0, 13⟩⟩,
              some [⟨⟨bytes "a", tokenKind.identifierKind, ⟨0, 16⟩⟩,
                ⟨bytes "bool", tokenKind.identifierKind, ⟨0, 18⟩⟩⟩]⟩).1
          ⟨⟨bytes "t", tokenKind.identifierKind, ⟨0, 12⟩⟩,
            some [⟨⟨bytes "1", tokenKind.numericKind, ⟨0, 22⟩⟩,
              expressionKind.literalKind⟩]⟩).map
        (fun r => Select r.1
          ⟨[⟨⟨bytes "a", tokenKind.identifierKind, ⟨0, 7⟩⟩, expressionKind.literalKind⟩],
            ⟨bytes "t", tokenKind.identifierKind, ⟨0, 14⟩⟩⟩) = some none) := by
  decide

/-- C20 (amended): on every store reached from the empty store by calls of
`CreateTable` that succeed and by calls of `Insert`, successful or failing,
whose values are all literal expressions, `Select` of every statement
completes without an index out of range: at every column index of the table,
the column-type list and every row have an element. -/
theorem Select_no_index_out_of_range (mb : MemoryBackend) (h : reachable mb)
    (slct : SelectStatement) :
    Select mb slct ≠ none ∧
    ∀ t, mb.tables slct.from.value = some t → ∀ i, i < t.columns.length →
      i < t.columnTypes.length ∧ ∀ row ∈ t.rows, i < row.length := by
  have hwf := reachable_wellFormed h
  constructor
  · simp only [Select]
    cases ht : mb.tables slct.from.value with
    | none => simp
    | some t =>
      have hne := selectRows_ne_none t slct.item t.rows 0 [] []
        (fun row hrow i hi => wellFormed_row (hwf _ t ht) hrow i hi)
      simp only
      cases hs : selectRows t slct.item t.rows 0 [] [] with
      | none => exact absurd hs hne
      | some r => cases r <;> simp
  · intro t ht i hi
    obtain ⟨w1, w2⟩ := hwf _ t ht
    exact ⟨by omega, fun row hrow => by rw [w2 row hrow]; exact hi⟩

theorem Select_no_index_out_of_range_witness :
    Select ((CreateTable NewMemoryBackend
          ⟨⟨bytes "u", tokenKind.identifierKind, ⟨0, 13⟩⟩,
            some [⟨⟨bytes "id", tokenKind.identifierKind, ⟨0, 16⟩⟩,
              ⟨bytes "int", tokenKind.keywordKind, ⟨0, 19⟩⟩⟩]⟩).1.set (bytes "u")
          ⟨[bytes "id"], [ColumnType.IntType], [[[0, 0, 0, 105]]]⟩)
        ⟨[⟨⟨bytes "id", tokenKind.identifierKind, ⟨0, 7⟩⟩, expressionKind.literalKind⟩],
          ⟨bytes "u", tokenKind.identifierKind, ⟨0, 15⟩⟩⟩ ≠ none ∧
    (0 < (⟨[bytes "id"], [ColumnType.IntType], [[[0, 0, 0, 105]]]⟩ : table).columnTypes.length ∧
      ∀ row ∈ (⟨[bytes "id"], [ColumnType.IntType], [[[0, 0, 0, 105]]]⟩ : table).rows,
        0 < row.length) ∧
    Select ((CreateTable NewMemoryBackend
          ⟨⟨bytes "u", tokenKind.identifierKind, ⟨0, 13⟩⟩,
            some [⟨⟨bytes "id", tokenKind.identifierKind, ⟨0, 16⟩⟩,
              ⟨bytes "int", tokenKind.keywordKind, ⟨0, 19⟩⟩⟩]⟩).1.set (bytes "u")
          ⟨[bytes "id"], [ColumnType.IntType], [[[0, 0, 0, 105]]]⟩)
        ⟨[⟨⟨bytes "id", tokenKind.identifierKind, ⟨0, 7⟩⟩, expressionKind.literalKind⟩],
          ⟨bytes "u", tokenKind.identifierKind, ⟨0, 15⟩⟩⟩ =
      some (some ⟨[(ColumnType.IntType, bytes "id")], [[[0, 0, 0, 105]]]⟩, none) :=
  ⟨(Select_no_index_out_of_range _
      (reachable.insert
        (CreateTable NewMemoryBackend
          ⟨⟨bytes "u", tokenKind.identifierKind, ⟨0, 13⟩⟩,
            some [⟨⟨bytes "id", tokenKind.identifierKind, ⟨0, 16⟩⟩,
              ⟨bytes "int", tokenKind.keywordKind, ⟨0, 19⟩⟩⟩]⟩).1
        ⟨⟨bytes "u", tokenKind.identifierKind, ⟨0, 12⟩⟩,
          some [⟨⟨bytes "105", tokenKind.numericKind, ⟨0, 22⟩⟩, expressionKind.literalKind⟩]⟩
        _ none
        (reachable.createTable NewMemoryBackend
          ⟨⟨bytes "u", tokenKind.identifierKind, ⟨0, 13⟩⟩,
            some [⟨⟨bytes "id", tokenKind.identifierKind, ⟨0, 16⟩⟩,
              ⟨bytes "int", tokenKind.keywordKind, ⟨0, 19⟩⟩⟩]⟩
          reachable.empty (by decide))
        (by decide) rfl)
      ⟨[⟨⟨bytes "id", tokenKind.identifierKind, ⟨0, 7⟩⟩, expressionKind.literalKind⟩],
        ⟨bytes "u", tokenKind.identifierKind, ⟨0, 15⟩⟩⟩).1,
   (Select_no_index_out_of_range _
      (reachable.insert
        (CreateTable NewMemoryBackend
          ⟨⟨bytes "u", tokenKind.identifierKind, ⟨0, 13⟩⟩,
            some [⟨⟨bytes "id", tokenKind.identifierKind, ⟨0, 16⟩⟩,
              ⟨bytes "int", tokenKind.keywordKind, ⟨0, 19⟩⟩⟩]⟩).1
        ⟨⟨bytes "u", tokenKind.identifierKind, ⟨0, 12⟩⟩,
          some [⟨⟨bytes "105", tokenKind.numericKind, ⟨0, 22⟩⟩, expressionKind.literalKind⟩]⟩
        ((CreateTable NewMemoryBackend
          ⟨⟨bytes "u", tokenKind.identifierKind, ⟨0, 13⟩⟩,
            some [⟨⟨bytes "id", tokenKind.identifierKind, ⟨0, 16⟩⟩,
              ⟨bytes "int", tokenKind.keywordKind, ⟨0, 19⟩⟩⟩]⟩).1.set (bytes "u")
          ⟨[bytes "id"], [ColumnType.IntType], [[[0, 0, 0, 105]]]⟩) none
        (reachable.createTable NewMemoryBackend
          ⟨⟨bytes "u", tokenKind.identifierKind, ⟨0, 13⟩⟩,
            some [⟨⟨bytes "id", tokenKind.identifierKind, ⟨0, 16⟩⟩,
              ⟨bytes "int", tokenKind.keywordKind, ⟨0, 19⟩⟩⟩]⟩
          reachable.empty (by decide))
        (by decide) rfl)
      ⟨[⟨⟨bytes "id", tokenKind.identifierKind, ⟨0, 7⟩⟩, expressionKind.literalKind⟩],
        ⟨bytes "u", tokenKind.identifierKind, ⟨0, 15⟩⟩⟩).2
     ⟨[bytes "id"], [ColumnType.IntType], [[[0, 0, 0, 105]]]⟩ (by simp [MemoryBackend.set]) 0
     (by decide),
   by decide⟩

/-! ## Progress and termination of the tokenizer -/

theorem longestMatch_length_le (opts : List (List Nat)) (hne : ∀ o ∈ opts, o ≠ [])
    (hascii : ∀ o ∈ opts, ∀ b ∈ o, b < 128) (source : List Nat) (ic : cursor) (m : List Nat)
    (hm : longestMatch source ic opts = some m) :
    ic.pointer + m.length ≤ source.length ∨ m = [] := by
  obtain ⟨m2, h1, h2⟩ := longestMatch_spec opts hne hascii source ic
  rw [hm] at h1
  simp only [Option.some.injEq] at h1
  subst h1
  rcases h2 with ⟨h, _⟩ | ⟨_, hpre, _⟩
  · exact Or.inr h
  · have := hpre.length_le
    simp only [List.length_map, List.length_drop] at this
    by_cases h0 : m = []
    · exact Or.inr h0
    · have hpos := List.length_pos.mpr h0
      left
      omega

theorem lexKeyword_pointer_le {source : List Nat} {ic : cursor} {r : lexResult}
    (h : lexKeyword source ic = some r) (hok : r.ok = true) :
    r.cur.pointer ≤ source.length := by
  unfold lexKeyword at h
  cases hm : longestMatch source ic validKeywords with
  | none => simp [hm] at h
  | some m =>
    simp only [hm] at h
    by_cases hm0 : m = []
    · simp [hm0, noMatch] at h
      subst h
      simp at hok
    · simp only [hm0, if_false, Option.some.injEq] at h
      subst h
      rcases longestMatch_length_le validKeywords (by decide) (by decide) source ic m hm with h1 | h1
      · exact h1
      · exact absurd h1 hm0

theorem lexSymbol_pointer_le {source : List Nat} {ic : cursor} {r : lexResult}
    (h : lexSymbol source ic = some r) (hok : r.ok = true) (hp : ic.pointer < source.length) :
    r.cur.pointer ≤ source.length := by
  unfold lexSymbol at h
  cases hc : source.get? ic.pointer with
  | none => rw [hc] at h; simp at h
  | some c =>
    rw [hc] at h
    simp only at h
    by_cases h10 : c = 10
    · simp only [h10, if_true, Option.some.injEq] at h
      subst h
      exact hp
    · simp only [h10, if_false] at h
      by_cases hws : c = 9 ∨ c = 32
      · simp only [hws, if_true, Option.some.injEq] at h
        subst h
        exact hp
      · simp only [hws, if_false] at h
        cases hm : longestMatch source ic validSymbols with
        | none => simp [hm] at h
        | some m =>
          simp only [hm] at h
          by_cases hm0 : m = []
          · simp [hm0, noMatch] at h
            subst h
            simp at hok
          · simp only [hm0, if_false, Option.some.injEq] at h
            subst h
            rcases longestMatch_length_le validSymbols (by decide) (by decide) source ic m hm
              with h1 | h1
            · exact h1
            · exact absurd h1 hm0

theorem lexNumeric_pointer_le {source : List Nat} {ic : cursor} {r : lexResult}
    (h : lexNumeric source ic = some r) (hok : r.ok = true) :
    r.cur.pointer ≤ source.length := by
  unfold lexNumeric at h
  cases hl : lexNumericLoop ic (source.drop ic.pointer) ic.pointer ic.loc.col false false with
  | none =>
    simp [hl, noMatch] at h
    subst h; simp at hok
  | some res =>
    obtain ⟨pointer, col⟩ := res
    simp only [hl] at h
    by_cases hp : pointer = ic.pointer
    · simp [hp, noMatch] at h
      subst h; simp at hok
    · simp only [hp, if_false, Option.some.injEq] at h
      subst h
      cases hd : source.drop ic.pointer with
      | nil =>
        rw [hd] at hl
        simp [lexNumericLoop] at hl
        omega
      | cons c rest =>
        have hlen := congrArg List.length hd
        simp only [List.length_drop, List.length_cons] at hlen
        rw [hd, lexNumericLoop_first] at hl
        by_cases hc : isNumeric c = true ∨ c = 46
        · rw [if_pos hc] at hl
          obtain ⟨k, hk1, hk2, _⟩ :=
            lexNumericLoop_chars ic rest.length rest (Nat.le_refl _) _ _ _ _ _ _ (by omega) hl
          simp only
          omega
        · simp [hc] at hl

/-- A successful step of the dispatcher inside the source ends inside the
source or at its end. -/
theorem lexForwardFromCursor_pointer_le {source : List Nat} {ic : cursor} {r : lexResult}
    (hp : ic.pointer < source.length) (h : lexForwardFromCursor source ic = some r)
    (hok : r.ok = true) : r.cur.pointer ≤ source.length := by
  rcases lexForwardFromCursor_cases h hok with e | e | e | e | e
  · exact lexKeyword_pointer_le e hok
  · exact lexSymbol_pointer_le e hok hp
  · obtain ⟨⟨n, ⟨_, hcur, _⟩, hle⟩, _⟩ := lexCharacterDelimited_advances e hok
    rw [hcur]; exact hle
  · exact lexNumeric_pointer_le e hok
  · obtain ⟨⟨n, ⟨_, hcur, _⟩, hle⟩, _⟩ := lexIdentifier_advances e hok
    rw [hcur]; exact hle

theorem lexLoop_fuel (source : List Nat) :
    ∀ (fuel : Nat) (cur : cursor) (acc : List token),
      source.length - cur.pointer ≤ fuel →
      ∀ fuel2, fuel ≤ fuel2 → lexLoop source fuel2 cur acc = lexLoop source fuel cur acc := by
  intro fuel
  induction fuel with
  | zero =>
    intro cur acc hf fuel2 _
    have hp : ¬ cur.pointer < source.length := by omega
    cases fuel2 <;> simp [lexLoop, hp]
  | succ fuel ih =>
    intro cur acc hf fuel2 hle
    cases fuel2 with
    | zero => omega
    | succ fuel2 =>
      rw [lexLoop, lexLoop]
      by_cases hp : cur.pointer < source.length
      · rw [if_pos hp, if_pos hp]
        obtain ⟨r, hr, hadv⟩ := lexForwardFromCursor_returns source cur hp
        rw [hr]
        simp only
        by_cases hok : r.ok = true
        · have := hadv hok
          rw [if_pos hok, if_pos hok]
          cases r.tok with
          | none => exact ih _ _ (by omega) fuel2 (by omega)
          | some t => exact ih _ _ (by omega) fuel2 (by omega)
        · rw [if_neg hok, if_neg hok]
      · rw [if_neg hp, if_neg hp]

/-- C22: from a cursor strictly inside the source, a successful
`lexForwardFromCursor` returns a pointer strictly greater than the one it
started from and at most the length of the source; hence the loop of `lex`
ends within `len(source)` iterations on every input: with that many
iterations allowed it returns, and allowing more changes nothing. -/
theorem lexForwardFromCursor_progress :
    (∀ (source : List Nat) (ic : cursor) (r : lexResult), ic.pointer < source.length →
      lexForwardFromCursor source ic = some r → r.ok = true →
      ic.pointer < r.cur.pointer ∧ r.cur.pointer ≤ source.length) ∧
    (∀ source : List Nat, lex source ≠ none ∧
      ∀ fuel, source.length ≤ fuel → lexLoop source fuel ⟨0, ⟨0, 0⟩⟩ [] = lex source) := by
  constructor
  · intro source ic r hp h hok
    obtain ⟨r2, hr2, hadv⟩ := lexForwardFromCursor_returns source ic hp
    rw [h] at hr2
    simp only [Option.some.injEq] at hr2
    subst hr2
    exact ⟨hadv hok, lexForwardFromCursor_pointer_le hp h hok⟩
  · intro source
    exact ⟨lex_returns source, fun fuel hf =>
      lexLoop_fuel source source.length ⟨0, ⟨0, 0⟩⟩ [] (by simp) fuel hf⟩

theorem lexForwardFromCursor_progress_witness :
    (0 : Nat) < (⟨some ⟨bytes "1e+", tokenKind.numericKind, ⟨0, 0⟩⟩, ⟨3, ⟨0, 3⟩⟩, true⟩ :
      lexResult).cur.pointer ∧
    (⟨some ⟨bytes "1e+", tokenKind.numericKind, ⟨0, 0⟩⟩, ⟨3, ⟨0, 3⟩⟩, true⟩ :
      lexResult).cur.pointer ≤ (bytes "1e+").length :=
  lexForwardFromCursor_progress.1 (bytes "1e+") ⟨0, ⟨0, 0⟩⟩
    ⟨some ⟨bytes "1e+", tokenKind.numericKind, ⟨0, 0⟩⟩, ⟨3, ⟨0, 3⟩⟩, true⟩
    (by decide) (by decide) rfl

/-! ## Keywords are split off identifiers -/

/-- An identifier token of the identifier sub-lexer comes from its unquoted
branch: its value is a prefix of the lower-cased source from the cursor on. -/
theorem lexIdentifier_value_starts_text {source : List Nat} {ic : cursor} {r : lexResult}
    {t : token} (h : lexIdentifier source ic = some r) (ht : r.tok = some t)
    (hk : t.kind = tokenKind.identifierKind) :
    t.value <+: (source.drop ic.pointer).map asciiLower := by
  unfold lexIdentifier at h
  cases hd : lexCharacterDelimited source ic 34 with
  | none => rw [hd] at h; simp at h
  | some r1 =>
    rw [hd] at h
    simp only at h
    by_cases hr1 : r1.ok = true
    · simp only [hr1, if_true, Option.some.injEq] at h
      obtain ⟨_, t2, ht2, hk2⟩ := lexCharacterDelimited_advances hd hr1
      subst h
      simp only at ht
      rw [ht] at ht2
      simp only [Option.some.injEq] at ht2
      subst ht2
      rw [hk] at hk2
      exact absurd hk2 (by decide)
    · simp only [hr1, Bool.false_eq_true, if_false] at h
      cases hc : source.get? ic.pointer with
      | none => rw [hc] at h; simp at h
      | some c =>
        rw [hc] at h
        simp only at h
        by_cases ha : isAlphabetical c = true
        · simp only [ha, Bool.not_true, Bool.false_eq_true, if_false,
            lexIdentifierLoop_takeWhile] at h
          simp only [List.length_append, List.length_singleton] at h
          rw [if_neg (by omega)] at h
          simp only [Option.some.injEq] at h
          subst h
          simp only [Option.some.injEq] at ht
          subst ht
          rw [drop_of_get? hc]
          simp only [stringsToLower, List.map_append, List.map_cons, List.map_nil,
            List.singleton_append, List.cons_prefix_cons, true_and]
          exact (List.takeWhile_prefix isIdentifierChar).map asciiLower
        · simp [ha, noMatch] at h
          subst h; simp at ht

/-- When the keyword sub-lexer reports no match, no keyword is a prefix of
the lower-cased source from the cursor on. -/
theorem lexKeyword_no_match {source : List Nat} {ic : cursor} {r : lexResult}
    (h : lexKeyword source ic = some r) (hok : r.ok = false) :
    ∀ kw ∈ validKeywords, ¬ kw <+: (source.drop ic.pointer).map asciiLower := by
  obtain ⟨m, hm, hspec⟩ := longestMatch_spec validKeywords (by decide) (by decide) source ic
  unfold lexKeyword at h
  rw [hm] at h
  simp only at h
  by_cases hm0 : m = []
  · rcases hspec with ⟨_, hno⟩ | ⟨hmem, _, _⟩
    · exact hno
    · rw [hm0] at hmem
      exact absurd hmem (by decide)
  · simp only [hm0, if_false, Option.some.injEq] at h
    subst h
    simp at hok

/-- An identifier token returned by the dispatcher is the identifier
sub-lexer's, after the keyword sub-lexer reported no match. -/
theorem lexForwardFromCursor_identifier {source : List Nat} {ic : cursor} {r : lexResult}
    {t : token} (h : lexForwardFromCursor source ic = some r) (ht : r.tok = some t)
    (hk : t.kind = tokenKind.identifierKind) :
    lexIdentifier source ic = some r ∧
      ∃ r1, lexKeyword source ic = some r1 ∧ r1.ok = false := by
  have hok : r.ok = true := by
    by_contra hcon
    unfold lexForwardFromCursor at h
    simp only [tryLexers] at h
    have key : ∀ (o : Option lexResult) (k : Option lexResult),
        (match o with
          | none => none
          | some r2 => if r2.ok = true then some ⟨r2.tok, r2.cur, true⟩ else k) = some r →
        k = some r := by
      intro o k hm
      cases o with
      | none => simp at hm
      | some r2 =>
        simp only at hm
        by_cases h2 : r2.ok = true
        · rw [if_pos h2] at hm
          simp only [Option.some.injEq] at hm
          subst hm
          exact absurd rfl hcon
        · rw [if_neg h2] at hm
          exact hm
    have h5 := key _ _ (key _ _ (key _ _ (key _ _ (key _ _ h))))
    simp only [noMatch, Option.some.injEq] at h5
    subst h5
    simp at ht
  have hident : lexIdentifier source ic = some r := by
    rcases lexForwardFromCursor_cases h hok with e | e | e | e | e
    · have := (lexKeyword_advances e hok).2 t ht
      rw [hk] at this; exact absurd this (by decide)
    · by_cases hnl : source.get? ic.pointer = some 10
      · unfold lexSymbol at e
        rw [hnl] at e
        simp at e
        subst e
        simp at ht
      · have := (lexSymbol_advances e hok hnl).2 t ht
        rw [hk] at this; exact absurd this (by decide)
    · obtain ⟨_, t2, ht2, hk2⟩ := lexCharacterDelimited_advances e hok
      rw [ht] at ht2
      simp at ht2
      subst ht2
      rw [hk] at hk2; exact absurd hk2 (by decide)
    · obtain ⟨t2, ht2, hk2⟩ := lexNumeric_kind e hok
      rw [ht] at ht2
      simp at ht2
      subst ht2
      rw [hk] at hk2; exact absurd hk2 (by decide)
    · exact e
  refine ⟨hident, ?_⟩
  unfold lexForwardFromCursor at h
  rw [tryLexers] at h
  cases hkw : lexKeyword source ic with
  | none => rw [hkw] at h; simp at h
  | some r1 =>
    refine ⟨r1, rfl, ?_⟩
    rw [hkw] at h
    simp only at h
    by_cases h1 : r1.ok = true
    · rw [if_pos h1] at h
      simp only [Option.some.injEq] at h
      have hk1 := (lexKeyword_advances hkw h1).2
      subst h
      simp only at ht
      have := hk1 t ht
      rw [hk] at this
      exact absurd this (by decide)
    · simpa using h1

/-- C23: on every source on which `lex` succeeds, no token of kind identifier
has a value that one of the eleven keywords is a prefix of; `intox` gives the
keyword `into` and then the identifier `x`. -/
theorem lex_identifier_not_keyword_prefixed :
    (∀ (source : List Nat) (ts : List token), lex source = some (Except.ok ts) →
      ∀ t ∈ ts, t.kind = tokenKind.identifierKind →
      ∀ kw ∈ validKeywords, ¬ kw <+: t.value) ∧
    lex (bytes "intox") = some (Except.ok [⟨bytes "into", tokenKind.keywordKind, ⟨0, 0⟩⟩,
      ⟨bytes "x", tokenKind.identifierKind, ⟨0, 4⟩⟩]) := by
  refine ⟨?_, by decide⟩
  intro source ts hlex t ht hk
  apply lexLoop_tokens source
    (fun t => t.kind = tokenKind.identifierKind → ∀ kw ∈ validKeywords, ¬ kw <+: t.value)
    _ source.length ⟨0, ⟨0, 0⟩⟩ [] ts hlex (by simp) t ht hk
  intro cur r t2 hf _ htok hk2 kw hkw hpre
  obtain ⟨hid, r1, hr1, hno⟩ := lexForwardFromCursor_identifier hf htok hk2
  exact lexKeyword_no_match hr1 hno kw hkw (hpre.trans (lexIdentifier_value_starts_text hid htok hk2))

theorem lex_identifier_not_keyword_prefixed_witness :
    ∀ kw ∈ validKeywords,
      ¬ kw <+: (⟨bytes "users", tokenKind.identifierKind, ⟨0, 15⟩⟩ : token).value :=
  lex_identifier_not_keyword_prefixed.1 (bytes "select id from users;")
    [⟨bytes "select", tokenKind.keywordKind, ⟨0, 0⟩⟩,
     ⟨bytes "id", tokenKind.identifierKind, ⟨0, 7⟩⟩,
     ⟨bytes "from", tokenKind.keywordKind, ⟨0, 10⟩⟩,
     ⟨bytes "users", tokenKind.identifierKind, ⟨0, 15⟩⟩,
     ⟨bytes ";", tokenKind.symbolKind, ⟨0, 20⟩⟩]
    (by decide) ⟨bytes "users", tokenKind.identifierKind, ⟨0, 15⟩⟩ (by decide) rfl

/-! ## Indexing stays in range -/

theorem lexNumericIndexed_eq (source : List Nat) (ic : cursor) :
    ∀ (fuel pointer col : Nat) (pf ef : Bool), source.length - pointer ≤ fuel →
      lexNumericIndexed source ic fuel pointer col pf ef =
        some (lexNumericLoop ic (source.drop pointer) pointer col pf ef) := by
  intro fuel
  induction fuel with
  | zero =>
    intro pointer col pf ef hf
    have hp : ¬ pointer < source.length := by omega
    rw [lexNumericIndexed, if_neg hp, List.drop_eq_nil_of_le (by omega)]
    simp [lexNumericLoop]
  | succ fuel ih =>
    intro pointer col pf ef hf
    rw [lexNumericIndexed]
    by_cases hp : pointer < source.length
    · rw [if_pos hp]
      have hget : source.get? pointer = some (source.get ⟨pointer, hp⟩) := List.get?_eq_get hp
      have hdrop := drop_of_get? hget
      generalize source.get ⟨pointer, hp⟩ = c at hget hdrop
      have r1 : ∀ (col : Nat) (pf ef : Bool),
          lexNumericIndexed source ic fuel (pointer + 1) col pf ef =
            some (lexNumericLoop ic (source.drop (pointer + 1)) (pointer + 1) col pf ef) :=
        fun col pf ef => ih _ _ _ _ (by omega)
      have r2 : ∀ (col : Nat) (pf ef : Bool),
          lexNumericIndexed source ic fuel (pointer + 1 + 1) col pf ef =
            some (lexNumericLoop ic (source.drop (pointer + 1 + 1)) (pointer + 1 + 1)
              col pf ef) :=
        fun col pf ef => ih _ _ _ _ (by omega)
      rw [hget, hdrop, lexNumericLoop.eq_def]
      simp only [r1, r2]
      cases hd1 : source.drop (pointer + 1) with
      | nil =>
        have hlast : pointer = source.length - 1 := by
          have := congrArg List.length hd1
          simp only [List.length_drop, List.length_nil] at this
          omega
        simp only [if_pos hlast]
        split_ifs <;> rfl
      | cons cNext rest2 =>
        have hnot : ¬ pointer = source.length - 1 := by
          have := congrArg List.length hd1
          simp only [List.length_drop, List.length_cons] at this
          omega
        have hget1 : source.get? (pointer + 1) = some cNext := by
          have hlt : pointer + 1 < source.length := by omega
          have h2 := List.drop_eq_getElem_cons hlt
          rw [hd1] at h2
          simp only [List.cons.injEq] at h2
          rw [List.get?_eq_getElem?, List.getElem?_eq_getElem hlt, ← h2.1]
        have hdrop2 : source.drop (pointer + 1 + 1) = rest2 := by
          have h2 := drop_of_get? hget1
          rw [hd1] at h2
          simp only [List.cons.injEq, true_and] at h2
          exact h2.symm
        simp only [if_neg hnot, hget1, hdrop2]
        split_ifs <;> rfl
    · rw [if_neg hp, List.drop_eq_nil_of_le (by omega)]
      simp [lexNumericLoop]

theorem lexCalls_inside (source : List Nat) :
    ∀ (fuel : Nat) (cur : cursor), ∀ c ∈ lexCalls source fuel cur, c.pointer < source.length := by
  intro fuel
  induction fuel with
  | zero => intro cur c hc; simp [lexCalls] at hc
  | succ fuel ih =>
    intro cur c hc
    rw [lexCalls] at hc
    by_cases hp : cur.pointer < source.length
    · rw [if_pos hp] at hc
      rcases List.mem_cons.mp hc with h | h
      · rw [h]; exact hp
      · cases hr : lexForwardFromCursor source cur with
        | none => rw [hr] at h; simp at h
        | some r =>
          rw [hr] at h
          by_cases hok : r.ok = true
          · simp only [hok, if_true] at h
            exact ih _ c h
          · simp [hok] at h
    · rw [if_neg hp] at hc
      simp at hc

theorem lexCalls_fuel (source : List Nat) :
    ∀ (fuel : Nat) (cur : cursor), source.length - cur.pointer ≤ fuel →
      ∀ fuel2, fuel ≤ fuel2 → lexCalls source fuel2 cur = lexCalls source fuel cur := by
  intro fuel
  induction fuel with
  | zero =>
    intro cur hf fuel2 _
    have hp : ¬ cur.pointer < source.length := by omega
    cases fuel2 <;> simp [lexCalls, hp]
  | succ fuel ih =>
    intro cur hf fuel2 hle
    cases fuel2 with
    | zero => omega
    | succ fuel2 =>
      rw [lexCalls, lexCalls]
      by_cases hp : cur.pointer < source.length
      · rw [if_pos hp, if_pos hp]
        obtain ⟨r, hr, hadv⟩ := lexForwardFromCursor_returns source cur hp
        rw [hr]
        simp only
        by_cases hok : r.ok = true
        · have := hadv hok
          rw [if_pos hok, if_pos hok, ih _ (by omega) fuel2 (by omega)]
        · rw [if_neg hok, if_neg hok]
      · rw [if_neg hp, if_neg hp]

theorem lexKeyword_returns (source : List Nat) (ic : cursor) : lexKeyword source ic ≠ none := by
  obtain ⟨m, hm, _⟩ := longestMatch_spec validKeywords (by decide) (by decide) source ic
  unfold lexKeyword
  rw [hm]
  by_cases hm0 : m = [] <;> simp [hm0]

theorem lexSymbol_returns (source : List Nat) (ic : cursor) (hp : ic.pointer < source.length) :
    lexSymbol source ic ≠ none := by
  have hc : source.get? ic.pointer = some (source.get ⟨ic.pointer, hp⟩) := List.get?_eq_get hp
  generalize source.get ⟨ic.pointer, hp⟩ = c at hc
  obtain ⟨m, hm, _⟩ := longestMatch_spec validSymbols (by decide) (by decide) source ic
  unfold lexSymbol
  rw [hc, hm]
  by_cases h10 : c = 10
  · simp [h10]
  · by_cases hws : c = 9 ∨ c = 32
    · simp [h10, hws]
    · by_cases hm0 : m = [] <;> simp [h10, hws, hm0]

theorem lexCharacterDelimited_returns (source : List Nat) (ic : cursor)
    (hp : ic.pointer ≤ source.length) (q : Nat) :
    ∃ r, lexCharacterDelimited source ic q = some r := by
  unfold lexCharacterDelimited
  rw [if_neg (by omega)]
  cases source.drop ic.pointer with
  | nil => simp
  | cons c rest =>
    by_cases hq : c ≠ q
    · simp [hq]
    · simp only [hq, if_false]
      cases lexCharacterDelimitedLoop q rest (ic.pointer + 1) (ic.loc.col + 1) [] with
      | none => simp
      | some res => obtain ⟨v, p, cl⟩ := res; simp

theorem lexNumeric_returns (source : List Nat) (ic : cursor) : lexNumeric source ic ≠ none := by
  unfold lexNumeric
  cases lexNumericLoop ic (source.drop ic.pointer) ic.pointer ic.loc.col false false with
  | none => simp
  | some res =>
    obtain ⟨p, cl⟩ := res
    by_cases hpp : p = ic.pointer <;> simp [hpp]

theorem lexIdentifier_returns (source : List Nat) (ic : cursor)
    (hp : ic.pointer < source.length) : lexIdentifier source ic ≠ none := by
  have hc : source.get? ic.pointer = some (source.get ⟨ic.pointer, hp⟩) := List.get?_eq_get hp
  generalize source.get ⟨ic.pointer, hp⟩ = c at hc
  obtain ⟨r1, hr1⟩ := lexCharacterDelimited_returns source ic (by omega) 34
  unfold lexIdentifier
  rw [hr1, hc]
  by_cases hok : r1.ok = true
  · simp [hok]
  · by_cases ha : isAlphabetical c = true
    · simp only [hok, ha, lexIdentifierLoop_takeWhile]
      simp
    · simp [hok, ha]

theorem skipInvariant_nil (opts : List (List Nat)) (hne : ∀ o ∈ opts, o ≠ []) :
    skipInvariant opts [] [] := by
  intro j o hj
  have ho : o ∈ opts := List.mem_iff_get?.mpr ⟨j, hj⟩
  simp only [List.not_mem_nil, not_false_eq_true, true_iff]
  exact ⟨List.nil_prefix, fun e => hne o ho e.symm⟩

theorem longestMatchPasses_spec (ic : cursor) (opts : List (List Nat)) :
    ∀ (rest : List Nat) (pointer : Nat) (v S m : List Nat),
      pointer = ic.pointer + v.length → skipInvariant opts v S →
      ∀ p ∈ longestMatchPasses ic opts rest pointer v S m,
        p.1 = p.2.1.length ∧ ∀ j o, opts.get? j = some o → j ∉ p.2.2 → p.1 ≤ o.length := by
  intro rest
  induction rest with
  | nil => intro pointer v S m _ _ p hp; simp [longestMatchPasses] at hp
  | cons c rest ih =>
    intro pointer v S m hptr hS p hp
    obtain ⟨S2, e, _, _, c2, _⟩ :=
      matchOptions_spec v (lowerFirstByte c) opts 0 S m
        (by intro j o hj; simpa using hS j o hj)
    have hk : pointer + 1 - ic.pointer = v.length + 1 := by omega
    have hS2 : skipInvariant opts (v ++ [lowerFirstByte c]) S2 := by
      intro j o hj; simpa using c2 j o hj
    simp only [longestMatchPasses, hk, e] at hp
    rcases List.mem_cons.mp hp with h | h
    · subst h
      refine ⟨by simp, ?_⟩
      intro j o hj hjS
      have := properPrefix_length ((hS j o hj).mp hjS)
      simp only
      omega
    · by_cases hall : S2.length = opts.length
      · rw [if_pos hall] at h
        simp at h
      · rw [if_neg hall] at h
        exact ih (pointer + 1) _ S2 _ (by simp; omega) hS2 p h

/-- C21: `lex` runs on every source without an index or a slice out of range.
It returns on every source, and the cursors at which its loop calls the
sub-lexers all have their pointer strictly inside the source (the list of these
calls is complete after `len(source)` iterations); at such a cursor each of the
five sub-lexers returns.  In `lexNumeric` the look-ahead `source[cur.pointer+1]`
after an `e` is in range, so the loop with the source indexed is the loop over
the unread suffix, and the pointer of a numeric token is at most the length of
the source.  In `longestMatch` over the keywords and over the symbols, in every
pass over the candidates the number `k` the slice `option[:k]` is taken with is
the number of characters accumulated, and every candidate not skipped has
length at least `k`. -/
theorem lex_indexing_in_range :
    (∀ source : List Nat, lex source ≠ none ∧
      (∀ c ∈ lexCalls source source.length ⟨0, ⟨0, 0⟩⟩, c.pointer < source.length) ∧
      ∀ fuel, source.length ≤ fuel →
        lexCalls source fuel ⟨0, ⟨0, 0⟩⟩ = lexCalls source source.length ⟨0, ⟨0, 0⟩⟩) ∧
    (∀ (source : List Nat) (ic : cursor), ic.pointer < source.length →
      lexKeyword source ic ≠ none ∧ lexSymbol source ic ≠ none ∧
      lexString source ic ≠ none ∧ lexNumeric source ic ≠ none ∧
      lexIdentifier source ic ≠ none) ∧
    (∀ (source : List Nat) (ic : cursor),
      lexNumericIndexed source ic (source.length - ic.pointer) ic.pointer ic.loc.col
          false false =
        some (lexNumericLoop ic (source.drop ic.pointer) ic.pointer ic.loc.col false false) ∧
      ∀ r, lexNumeric source ic = some r → r.ok = true →
        ic.pointer < r.cur.pointer ∧ r.cur.pointer ≤ source.length) ∧
    (∀ opts ∈ [validKeywords, validSymbols], ∀ (source : List Nat) (ic : cursor),
      longestMatch source ic opts ≠ none ∧
      ∀ p ∈ longestMatchPasses ic opts (source.drop ic.pointer) ic.pointer [] [] [],
        p.1 = p.2.1.length ∧ ∀ j o, opts.get? j = some o → j ∉ p.2.2 → p.1 ≤ o.length) := by
  refine ⟨?_, ?_, ?_, ?_⟩
  · intro source
    exact ⟨lex_returns source, lexCalls_inside source _ _,
      fun fuel hf => lexCalls_fuel source source.length ⟨0, ⟨0, 0⟩⟩ (by simp) fuel hf⟩
  · intro source ic hp
    refine ⟨lexKeyword_returns source ic, lexSymbol_returns source ic hp, ?_,
      lexNumeric_returns source ic, lexIdentifier_returns source ic hp⟩
    obtain ⟨r, hr⟩ := lexCharacterDelimited_returns source ic (by omega) 39
    unfold lexString
    rw [hr]
    simp
  · intro source ic
    exact ⟨lexNumericIndexed_eq source ic _ _ _ _ _ (Nat.le_refl _),
      fun r h hok => ⟨lexNumeric_pointer h hok, lexNumeric_pointer_le h hok⟩⟩
  · intro opts hopts source ic
    have hne : ∀ o ∈ opts, o ≠ [] := by
      simp only [List.mem_cons, List.mem_singleton, List.not_mem_nil, or_false] at hopts
      rcases hopts with h | h <;> subst h <;> decide
    constructor
    · simp only [List.mem_cons, List.mem_singleton, List.not_mem_nil, or_false] at hopts
      rcases hopts with h | h <;> subst h
      · obtain ⟨m, hm, _⟩ := longestMatch_spec validKeywords (by decide) (by decide) source ic
        rw [hm]; simp
      · obtain ⟨m, hm, _⟩ := longestMatch_spec validSymbols (by decide) (by decide) source ic
        rw [hm]; simp
    · exact longestMatchPasses_spec ic opts _ _ [] [] [] (by simp)
        (skipInvariant_nil opts hne)

theorem lex_indexing_in_range_witness :
    lexKeyword (bytes "1e+") ⟨1, ⟨0, 1⟩⟩ ≠ none ∧ lexSymbol (bytes "1e+") ⟨1, ⟨0, 1⟩⟩ ≠ none ∧
    lexString (bytes "1e+") ⟨1, ⟨0, 1⟩⟩ ≠ none ∧ lexNumeric (bytes "1e+") ⟨1, ⟨0, 1⟩⟩ ≠ none ∧
    lexIdentifier (bytes "1e+") ⟨1, ⟨0, 1⟩⟩ ≠ none :=
  lex_indexing_in_range.2.1 (bytes "1e+") ⟨1, ⟨0, 1⟩⟩ (by decide)

/-! ## The value of a delimited literal -/

theorem delimitersPaired_cons_other (q c : Nat) (body : List Nat) (hc : c ≠ q)
    (hb : delimitersPaired q body = true) : delimitersPaired q (c :: body) = true := by
  cases body with
  | nil => simp [delimitersPaired, hc]
  | cons c2 rest => rw [delimitersPaired]; simp [hc, hb]

theorem lexCharacterDelimitedLoop_verbatim (q : Nat) :
    ∀ (n : Nat) (rest : List Nat), rest.length ≤ n →
      ∀ (pointer col : Nat) (value value2 : List Nat) (pointer2 col2 : Nat),
        lexCharacterDelimitedLoop q rest pointer col value = some (value2, pointer2, col2) →
        ∃ body tail, rest = body ++ q :: tail ∧ delimitersPaired q body = true ∧
          tail.head? ≠ some q ∧ value2 = value ++ body ∧
          pointer2 = pointer + body.length + 1 := by
  intro n
  induction n with
  | zero =>
    intro rest hr pointer col value value2 pointer2 col2 h
    have : rest = [] := List.length_eq_zero.mp (by omega)
    subst this
    simp [lexCharacterDelimitedLoop] at h
  | succ n ih =>
    intro rest hr pointer col value value2 pointer2 col2 h
    cases rest with
    | nil => simp [lexCharacterDelimitedLoop] at h
    | cons c rest =>
      by_cases hc : c = q
      · subst hc
        cases rest with
        | nil =>
          rw [lexCharacterDelimitedLoop_last] at h
          simp only [Option.some.injEq, Prod.mk.injEq] at h
          exact ⟨[], [], by simp, by simp [delimitersPaired], by simp, by simp [h.1],
            by simp [h.2.1]⟩
        | cons c2 rest2 =>
          by_cases hc2 : c2 = c
          · subst hc2
            rw [lexCharacterDelimitedLoop_doubled] at h
            simp only [List.length_cons] at hr
            obtain ⟨body, tail, e1, e2, e3, e4, e5⟩ := ih rest2 (by omega) _ _ _ _ _ _ h
            refine ⟨c2 :: c2 :: body, tail, by simp [e1], ?_, e3, by simp [e4], ?_⟩
            · rw [delimitersPaired]; simp [e2]
            · simp only [List.length_cons]; omega
          · rw [lexCharacterDelimitedLoop_close _ _ _ _ _ _ hc2] at h
            simp only [Option.some.injEq, Prod.mk.injEq] at h
            exact ⟨[], c2 :: rest2, by simp, by simp [delimitersPaired], by simp [hc2],
              by simp [h.1], by simp [h.2.1]⟩
      · rw [lexCharacterDelimitedLoop_other _ _ _ _ _ _ hc] at h
        simp only [List.length_cons] at hr
        obtain ⟨body, tail, e1, e2, e3, e4, e5⟩ := ih rest (by omega) _ _ _ _ _ _ h
        refine ⟨c :: body, tail, by simp [e1], delimitersPaired_cons_other q c body hc e2, e3,
          by simp [e4], ?_⟩
        simp only [List.length_cons]; omega

theorem lexCharacterDelimited_verbatim {source : List Nat} {ic : cursor} {q : Nat}
    {r : lexResult} (h : lexCharacterDelimited source ic q = some r) (hok : r.ok = true) :
    readsLiteralVerbatim q source ic r := by
  unfold lexCharacterDelimited at h
  by_cases hlen : source.length < ic.pointer
  · simp [hlen] at h
  · simp only [hlen, if_false] at h
    cases hd : source.drop ic.pointer with
    | nil =>
      simp [hd, noMatch] at h
      subst h; simp at hok
    | cons c rest =>
      simp only [hd] at h
      by_cases hc : c ≠ q
      · simp [hc, noMatch] at h
        subst h; simp at hok
      · have hcq : c = q := by simpa using hc
        simp only [hc, if_false] at h
        cases hl : lexCharacterDelimitedLoop q rest (ic.pointer + 1) (ic.loc.col + 1) [] with
        | none =>
          simp [hl, noMatch] at h
          subst h; simp at hok
        | some res =>
          obtain ⟨v, p, cl⟩ := res
          simp only [hl, Option.some.injEq] at h
          obtain ⟨body, tail, e1, e2, e3, e4, e5⟩ :=
            lexCharacterDelimitedLoop_verbatim q rest.length rest (Nat.le_refl _) _ _ _ _ _ _ hl
          subst h
          refine ⟨body, tail, by rw [hd, hcq, e1], e2, e3, by simp [e4], ?_⟩
          simp only
          omega

/-- C4 (amended): on every literal the delimiter-based reader accepts, through
`lexString` with the single quote and through the quoted branch of
`lexIdentifier` with the double quote, the value is the text between the
opening and the closing delimiter verbatim, so each doubled delimiter inside
the literal gives two delimiter characters of the value; on `'a '' b'` the
value is `a '' b`, as `TestTokenLexString` expects. -/
theorem lexString_value_verbatim :
    (∀ (source : List Nat) (ic : cursor) (r : lexResult),
      lexString source ic = some r → r.ok = true → readsLiteralVerbatim 39 source ic r) ∧
    (∀ (source : List Nat) (ic : cursor) (r : lexResult),
      source.get? ic.pointer = some 34 → lexIdentifier source ic = some r → r.ok = true →
      readsLiteralVerbatim 34 source ic r) ∧
    (lexString (bytes "'a '' b'") ⟨0, ⟨0, 0⟩⟩).map (fun r => r.tok.map token.value) =
      some (some (bytes "a '' b")) := by
  refine ⟨?_, ?_, by decide⟩
  · intro source ic r h hok
    exact lexCharacterDelimited_verbatim h hok
  · intro source ic r hc h hok
    unfold lexIdentifier at h
    cases hd : lexCharacterDelimited source ic 34 with
    | none => simp [hd] at h
    | some r1 =>
      simp only [hd] at h
      by_cases hok1 : r1.ok = true
      · simp only [hok1, if_true, Option.some.injEq] at h
        obtain ⟨body, tail, e1, e2, e3, e4, e5⟩ := lexCharacterDelimited_verbatim hd hok1
        subst h
        exact ⟨body, tail, e1, e2, e3, e4, e5⟩
      · rw [hc] at h
        simp [hok1, isAlphabetical, noMatch] at h
        subst h; simp at hok

theorem lexString_value_verbatim_witness :
    readsLiteralVerbatim 39 (bytes "'a '' b'") ⟨0, ⟨0, 0⟩⟩
      ⟨some ⟨bytes "a '' b", tokenKind.stringKind, ⟨0, 0⟩⟩, ⟨8, ⟨0, 8⟩⟩, true⟩ :=
  lexString_value_verbatim.1 (bytes "'a '' b'") ⟨0, ⟨0, 0⟩⟩
    ⟨some ⟨bytes "a '' b", tokenKind.stringKind, ⟨0, 0⟩⟩, ⟨8, ⟨0, 8⟩⟩, true⟩ (by decide) rfl

end Gogn
